import Mathlib

/-!
# Verification of the conversation middleware core of wigtn/wigtn-spot-finder

This file gives a shallow embedding, in Lean 4, of the middleware components of
the repository (token accounting, context trimming, summarization fallback,
input validation, distributed locking, rate limiting, circuit breaking, memory
retrieval ranking, and the observer agent's aggregation loop), together with
theorems settling the specification claims about them.

Conventions of the embedding:

* Python strings are modelled as Lean `String` / `List Char` (code points).
* Machine integers are `Nat` / `Int` (Python integers are unbounded).
* Python floats in the ranking/statistics code are modelled as `ℚ`.
* The model-specific tokenizer of `utils/tokens.py` is abstracted as a
  parameter `ct : String → Nat` (`count_tokens`); the deterministic fallback
  of the source, `len(text) // 4`, is used for concrete counterexamples.
* External effects (Redis, the LLM) are modelled by explicit state records
  and by function-valued oracles (`llm : String → Option String`, where
  `none` models an exception or timeout of the call).
-/

namespace WSF

/-! ## Messages and token accounting (`utils/tokens.py`) -/

/-- The role of a langchain message: `SystemMessage`, `HumanMessage`,
`AIMessage` or a tool message. -/
inductive Role where
  | system
  | user
  | assistant
  | tool
deriving DecidableEq, Repr

/-- A conversation message: a role plus text content. -/
structure Msg where
  role : Role
  content : String
deriving DecidableEq, Repr

/-- `isinstance(m, SystemMessage)`. -/
def isSystemMsg (m : Msg) : Bool := m.role == Role.system

/-- The deterministic token-count fallback of `count_tokens`:
`len(text) // 4`. -/
def ctFallback (s : String) : Nat := s.length / 4

/-- `count_messages_tokens(messages)`: sum over messages of the content's
token count plus a fixed overhead of 4 tokens per message for role framing.
The tokenizer `count_tokens` is abstracted as `ct`. -/
def countMessagesTokens (ct : String → Nat) (msgs : List Msg) : Nat :=
  (msgs.map (fun m => ct m.content + 4)).sum

/-! ## Context trimming (`middleware/core/trimming.py`) -/

/-- The system-message sublist of `messages`
(`[m for m in messages if isinstance(m, SystemMessage)]`). -/
def systemPart (msgs : List Msg) : List Msg := msgs.filter (fun m => isSystemMsg m)

/-- The conversation (non-system) sublist of `messages`. -/
def convPart (msgs : List Msg) : List Msg := msgs.filter (fun m => !isSystemMsg m)

/-- `conversation_messages[-keep_recent:]`: the recent tail that trimming
always keeps (all conversation messages when there are at most `keep`). -/
def recentTail (keep : Nat) (msgs : List Msg) : List Msg :=
  (convPart msgs).drop ((convPart msgs).length - keep)

/-- `conversation_messages[:-keep_recent]`: the older conversation messages
that are candidates for eviction. -/
def olderPart (keep : Nat) (msgs : List Msg) : List Msg :=
  (convPart msgs).take ((convPart msgs).length - keep)

/-- The eviction loop of `ContextTrimmingMiddleware.process`: walk the older
messages from newest to oldest, keeping (at the front of `kept`) each message
whose content token count fits the remaining budget and evicting the others
into `removed`; both lists are built with `insert(0, msg)`. -/
def trimStep (ct : String → Nat) (acc : List Msg × List Msg × Int) (m : Msg) :
    List Msg × List Msg × Int :=
  if (ct m.content : Int) ≤ acc.2.2 then
    (m :: acc.1, acc.2.1, acc.2.2 - ct m.content)
  else
    (acc.1, m :: acc.2.1, acc.2.2)

/-- The loop of `ContextTrimmingMiddleware.process` over `reversed(older)`,
returning `(kept_older, removed)`. -/
def trimLoop (ct : String → Nat) (older : List Msg) (budget : Int) :
    List Msg × List Msg :=
  let r := older.reverse.foldl (trimStep ct) ([], [], budget)
  (r.1, r.2.1)

/-- The kept-older messages computed by a trim pass (the `kept_older` list of
the source), exposed for stating bounds about the trimmed result. -/
def keptOlder (ct : String → Nat) (soft keep : Nat) (msgs : List Msg) :
    List Msg :=
  (trimLoop ct (olderPart keep msgs)
    ((soft : Int) - countMessagesTokens ct (systemPart msgs)
      - countMessagesTokens ct (recentTail keep msgs))).1

/-- Result of `ContextTrimmingMiddleware.process`: the (possibly) trimmed
message list, the removed list (`state["removed_messages"]`, empty when the
branch does not set it) and `state["summarization_needed"]`. -/
structure TrimResult where
  newMessages : List Msg
  removed : List Msg
  summarizationNeeded : Bool
deriving Repr

/-- `ContextTrimmingMiddleware.process`.  If the total count is within the
soft limit, or there are at most `keep_recent` conversation messages, the
input is returned unchanged; otherwise system messages are separated, the
last `keep_recent` conversation messages are reserved, and older messages
are kept newest-first while they fit `soft − tokens(system) − tokens(recent)`. -/
def contextTrim (ct : String → Nat) (softLimit hardLimit keepRecent : Nat)
    (messages : List Msg) : TrimResult :=
  let totalTokens := countMessagesTokens ct messages
  if totalTokens ≤ softLimit then
    { newMessages := messages, removed := [], summarizationNeeded := false }
  else if (convPart messages).length ≤ keepRecent then
    { newMessages := messages, removed := [],
      summarizationNeeded := hardLimit < totalTokens }
  else
    let targetTokens : Int :=
      (softLimit : Int) - countMessagesTokens ct (systemPart messages)
    let recentTokens := countMessagesTokens ct (recentTail keepRecent messages)
    let kr := trimLoop ct (olderPart keepRecent messages)
      (targetTokens - recentTokens)
    { newMessages := systemPart messages ++ kr.1 ++ recentTail keepRecent messages,
      removed := kr.2,
      summarizationNeeded := 0 < kr.2.length }

/-! ## Shared string helpers (Python `str` operations on code points) -/

/-- Python whitespace (the ASCII part of `str.strip` / regex `\s`):
space, tab, newline, carriage return, vertical tab, form feed. -/
def wsChar (c : Char) : Bool :=
  c == ' ' || c == '\t' || c == '\n' || c == '\r' || c == '\x0b' || c == '\x0c'

/-- Python `str.strip()` on a list of code points. -/
def stripChars (cs : List Char) : List Char :=
  ((cs.dropWhile wsChar).reverse.dropWhile wsChar).reverse

/-- Python `str.strip()`. -/
def strStrip (s : String) : String := String.mk (stripChars s.data)

/-- ASCII lower-casing of one character (Python `str.lower` restricted to the
ASCII range, which covers every pattern and keyword of the source). -/
def lowerA (c : Char) : Char :=
  if 'A' ≤ c ∧ c ≤ 'Z' then Char.ofNat (c.toNat + 32) else c

/-- ASCII `str.lower()`. -/
def lowerStr (s : String) : String := String.mk (s.data.map lowerA)

/-- Whether `needle` starts `hay` (exact code points). -/
def lstarts : List Char → List Char → Bool
  | [], _ => true
  | _ :: _, [] => false
  | a :: as, b :: bs => a == b && lstarts as bs

/-- Python `needle in hay` (substring containment). -/
def containsSub (needle : List Char) : List Char → Bool
  | [] => lstarts needle []
  | c :: cs => lstarts needle (c :: cs) || containsSub needle cs

/-! ## Summarization middleware (`middleware/core/summarization.py`) -/

/-- `EXTRACTIVE_KEYWORDS`. -/
def extractiveKeywords : List String :=
  ["want", "need", "prefer", "like", "visit", "go", "travel",
   "hotel", "restaurant", "food", "museum", "palace", "temple",
   "subway", "bus", "taxi", "walk",
   "morning", "afternoon", "evening", "night",
   "budget", "cheap", "expensive", "luxury",
   "day", "days", "week", "hour", "hours",
   "seoul", "busan", "jeju", "incheon", "gyeongju"]

/-- `_format_messages_for_summary`: `User:`/`Assistant:` lines, system
messages skipped, other roles rendered as `Message:`, joined by blank lines. -/
def formatMessagesForSummary (msgs : List Msg) : String :=
  String.intercalate "\n\n" (msgs.filterMap fun m =>
    match m.role with
    | Role.user => some ("User: " ++ m.content)
    | Role.assistant => some ("Assistant: " ++ m.content)
    | Role.system => none
    | Role.tool => some ("Message: " ++ m.content))

/-- The fixed part of `SUMMARIZATION_PROMPT` before the conversation text
(the instruction bullets of the source template are abbreviated here; no
claim depends on the prompt wording, only on the prompt being a function of
the formatted conversation). -/
def sumPromptPre : String :=
  "Summarize the following conversation concisely, preserving key information.\n\nConversation to summarize:\n"

/-- The fixed part of `SUMMARIZATION_PROMPT` after the conversation text. -/
def sumPromptPost : String := "\n\nSummary:"

/-- `_llm_summarize`: format the removed conversation, truncate to 12000
characters when it exceeds 4000 tokens, call the summarization model
(`llm`, where `none` models `TimeoutError` or any other exception), strip
the response, and accept it only when longer than 50 characters. -/
def llmSummarize (ct : String → Nat) (llm : String → Option String)
    (msgs : List Msg) : Option String :=
  let conversationText := formatMessagesForSummary msgs
  let conversationText :=
    if 4000 < ct conversationText then conversationText.take 12000
    else conversationText
  let prompt := sumPromptPre ++ conversationText ++ sumPromptPost
  match llm prompt with
  | none => none
  | some resp =>
    let summary := strStrip resp
    if summary ≠ "" ∧ 50 < summary.length then some summary else none

/-- `_extractive_summarize`: keep each message that is a user turn or whose
lowered content contains at least two keywords, truncating kept contents to
200 characters; return the 10 most recent kept lines under a fixed header,
or `None` when nothing was kept. -/
def extractiveSummarize (msgs : List Msg) : Option String :=
  let importantContent := msgs.foldl (fun acc m =>
    let content := m.content
    let contentLower := lowerStr content
    let keywordCount :=
      (extractiveKeywords.filter fun kw =>
        containsSub kw.data contentLower.data).length
    if 2 ≤ keywordCount ∨ m.role = Role.user then
      let content := if 200 < content.length then content.take 200 ++ "..." else content
      let role := if m.role = Role.user then "User" else "Assistant"
      acc ++ ["- " ++ role ++ ": " ++ content]
    else acc) []
  if importantContent.isEmpty then none
  else
    some ("Key points from previous conversation:\n" ++
      String.intercalate "\n"
        (importantContent.drop (importantContent.length - 10)))

/-- `_truncation_fallback`: `None` for at most 4 messages, otherwise the
first two and last two contents (100 characters each) around an
`[... N messages omitted ...]` marker. -/
def truncationFallback (msgs : List Msg) : Option String :=
  if msgs.length ≤ 4 then none
  else
    let fmt := fun (m : Msg) =>
      (if m.role = Role.user then "User" else "Assistant") ++ ": "
        ++ m.content.take 100 ++ "..."
    let parts := (msgs.take 2).map fmt
      ++ ["[... " ++ toString (msgs.length - 4) ++ " messages omitted ...]"]
      ++ (msgs.drop (msgs.length - 2)).map fmt
    some (String.intercalate "\n" parts)

/-- `_summarize_with_fallback`: full LLM summarization, then LLM on the
last half with a partial-summary marker, then extractive, then truncation;
the first success wins and `none` means every strategy failed. -/
def summarizeWithFallback (ct : String → Nat) (llm : String → Option String)
    (msgs : List Msg) : Option String :=
  match llmSummarize ct llm msgs with
  | some s => some s
  | none =>
    match llmSummarize ct llm (msgs.drop (msgs.length / 2)) with
    | some s => some ("[Partial summary - earlier context omitted]\n" ++ s)
    | none =>
      match extractiveSummarize msgs with
      | some s => some s
      | none => truncationFallback msgs

/-- `EventType` of `models/events.py`. -/
inductive EventType where
  | requestStarted
  | requestCompleted
  | errorOccurred
  | summarizationTriggered
  | summarizationCompleted
  | summarizationFallback
  | contextTrimmed
  | memoryRetrieved
  | memoryStored
  | entityExtracted
  | rateLimited
  | promptInjectionDetected
  | naverApiCalled
  | placeSearched
  | directionsRequested
  | itineraryGenerated
  | itineraryOptimized
  | preferenceExtracted
  | languageDetected
  | translationPerformed
deriving DecidableEq, Repr

/-- Result of `SummarizationMiddleware.process`: the updated message list,
the summary text, the state flags the source sets, and the list of observer
events the middleware emits (the source emits none; in particular it never
emits `SUMMARIZATION_FALLBACK`). -/
structure SumProcResult where
  messages : List Msg
  summary : Option String
  performed : Bool
  failed : Bool
  summaryTokenCount : Nat
  messagesSummarized : Nat
  events : List EventType
deriving DecidableEq, Repr

/-- `SummarizationMiddleware.process`: nothing to do without removed
messages; otherwise run the fallback chain and, on success, insert the
summary as a synthetic system message between the system messages and the
conversation; on total failure set `summarization_failed` and return the
message list unchanged.  No event is emitted on any path. -/
def summarizationProcess (ct : String → Nat) (llm : String → Option String)
    (messages removed : List Msg) : SumProcResult :=
  if removed.isEmpty then
    { messages := messages, summary := none, performed := false,
      failed := false, summaryTokenCount := 0, messagesSummarized := 0,
      events := [] }
  else
    match summarizeWithFallback ct llm removed with
    | some summary =>
      let summaryMessage : Msg :=
        ⟨Role.system,
         "[Previous conversation summary]\n" ++ summary ++ "\n[End of summary]"⟩
      { messages := systemPart messages ++ [summaryMessage] ++ convPart messages,
        summary := some summary, performed := true, failed := false,
        summaryTokenCount := ct summary,
        messagesSummarized := removed.length, events := [] }
    | none =>
      { messages := messages, summary := none, performed := false,
        failed := true, summaryTokenCount := 0, messagesSummarized := 0,
        events := [] }

/-- One trim-plus-summarize pass: `ContextTrimmingMiddleware.process`
followed by `SummarizationMiddleware.process` on the removed messages. -/
def trimSummarizePass (ct : String → Nat) (llm : String → Option String)
    (softLimit hardLimit keepRecent : Nat) (messages : List Msg) :
    List Msg × List Msg :=
  let tr := contextTrim ct softLimit hardLimit keepRecent messages
  ((summarizationProcess ct llm tr.newMessages tr.removed).messages, tr.removed)

/-! ## Circuit breaker (`middleware/core/circuit_breaker.py`)

The breaker is process-local state guarded by a mutex; under the mutex the
recorded transitions are sequential, so the embedding is a deterministic
state machine.  `opened` stands for the Python state `OPEN` (a Lean
keyword). -/

/-- `CircuitState`. -/
inductive CircuitState where
  | closed
  | opened
  | halfOpen
deriving DecidableEq, Repr

/-- The mutable part of a `CircuitBreaker` together with its configured
thresholds. -/
structure Breaker where
  failureThreshold : Nat
  successThreshold : Nat
  halfOpenMaxCalls : Nat
  recoveryTimeout : Nat
  state : CircuitState
  failureCount : Nat
  successCount : Nat
  lastFailureTime : Option Nat
  halfOpenCalls : Nat
deriving DecidableEq, Repr

/-- `_transition_to`: set the state; entering half-open resets the probe
count and the success count. -/
def transitionTo (s : CircuitState) (cb : Breaker) : Breaker :=
  let cb := { cb with state := s }
  if s = CircuitState.halfOpen then
    { cb with halfOpenCalls := 0, successCount := 0 }
  else cb

/-- `_record_success`: in half-open, bump the success count and close the
breaker (resetting the failure count) once it reaches the success
threshold; in closed, reset the failure count; in open, no change. -/
def recordSuccess (cb : Breaker) : Breaker :=
  if cb.state = CircuitState.halfOpen then
    let cb := { cb with successCount := cb.successCount + 1 }
    if cb.successThreshold ≤ cb.successCount then
      { transitionTo CircuitState.closed cb with failureCount := 0 }
    else cb
  else if cb.state = CircuitState.closed then
    { cb with failureCount := 0 }
  else cb

/-- `_record_failure` for a counted (non-excluded) failure at time `now`:
bump the failure count and stamp the failure time; in closed, open the
breaker once the count reaches the failure threshold; in half-open, any
failure opens the breaker. -/
def recordFailure (now : Nat) (cb : Breaker) : Breaker :=
  let cb := { cb with failureCount := cb.failureCount + 1,
                      lastFailureTime := some now }
  if cb.state = CircuitState.closed then
    if cb.failureThreshold ≤ cb.failureCount then
      transitionTo CircuitState.opened cb
    else cb
  else if cb.state = CircuitState.halfOpen then
    transitionTo CircuitState.opened cb
  else cb

/-- `n` consecutive counted failures. -/
def iterFailures (now : Nat) : Nat → Breaker → Breaker
  | 0, cb => cb
  | n + 1, cb => iterFailures now n (recordFailure now cb)

/-- `n` consecutive successes. -/
def iterSuccesses : Nat → Breaker → Breaker
  | 0, cb => cb
  | n + 1, cb => iterSuccesses n (recordSuccess cb)

/-! ## Redis-backed state (rate limiter and distributed lock)

Redis is modelled per data type used: integer counters with an optional
absolute expiry deadline for the rate limiter, and string values for lock
tokens.  `INCR` on a missing key creates it at 1 without a TTL; `EXPIRE`
(re)sets the deadline of an existing key unconditionally. -/

/-- Counter keys with optional absolute expiry deadlines (seconds).
A missing key reads as 0, exactly as `int(count) if count else 0` does. -/
structure CounterStore where
  vals : String → Nat
  exp : String → Option Nat

/-- The empty counter store. -/
def CounterStore.empty : CounterStore := ⟨fun _ => 0, fun _ => none⟩

/-- Redis `INCR key`. -/
def redisIncr (key : String) (st : CounterStore) : CounterStore :=
  { st with vals := fun k => if k = key then st.vals k + 1 else st.vals k }

/-- Redis `EXPIRE key seconds` at time `now`, on a key that exists (the
rate limiter only calls it immediately after `INCR`): the deadline is set
to `now + seconds` regardless of any previous TTL. -/
def redisExpire (key : String) (seconds now : Nat) (st : CounterStore) :
    CounterStore :=
  { st with exp := fun k => if k = key then some (now + seconds) else st.exp k }

/-! ## Rate limiter (`middleware/core/rate_limiter.py`) -/

/-- Rate limiter configuration: `requests_per_minute` and
`requests_per_hour`. -/
structure RateLimitConfig where
  rpm : Nat
  rph : Nat
deriving DecidableEq, Repr

/-- `_get_minute_key`: `ratelimit:minute:<id>:<int(now/60)>`. -/
def minuteKey (identifier : String) (now : Nat) : String :=
  "ratelimit:minute:" ++ (identifier ++ (":" ++ toString (now / 60)))

/-- `_get_hour_key`: `ratelimit:hour:<id>:<int(now/3600)>`. -/
def hourKey (identifier : String) (now : Nat) : String :=
  "ratelimit:hour:" ++ (identifier ++ (":" ++ toString (now / 3600)))

/-- `RateLimitExceeded` with its `retry_after` seconds. -/
structure RateLimited where
  retryAfter : Nat
deriving DecidableEq, Repr

/-- The dict returned by a successful `check_rate_limit`. -/
structure RateInfo where
  allowed : Bool
  minuteCount : Nat
  minuteLimit : Nat
  minuteRemaining : Int
  hourCount : Nat
  hourLimit : Nat
  hourRemaining : Int
deriving DecidableEq, Repr

/-- `RateLimiter.check_rate_limit(identifier, increment)` at time `now`:
read both counters; fail with `retry_after = 60 − now mod 60` when the
minute counter has reached the minute limit, else with
`retry_after = (60 − (now/60) mod 60)·60` when the hour counter has reached
the hour limit; otherwise, when `increment` is set, `INCR` both keys and
`EXPIRE` them at twice their window (120 s and 7200 s). -/
def checkRateLimit (cfg : RateLimitConfig) (identifier : String)
    (increment : Bool) (now : Nat) (st : CounterStore) :
    Except RateLimited (RateInfo × CounterStore) :=
  let mk := minuteKey identifier now
  let hk := hourKey identifier now
  let minuteCount := st.vals mk
  let hourCount := st.vals hk
  if cfg.rpm ≤ minuteCount then
    Except.error ⟨60 - now % 60⟩
  else if cfg.rph ≤ hourCount then
    Except.error ⟨(60 - (now / 60) % 60) * 60⟩
  else
    let st := if increment then
        redisExpire hk 7200 now (redisIncr hk
          (redisExpire mk 120 now (redisIncr mk st)))
      else st
    let minuteCount := if increment then minuteCount + 1 else minuteCount
    let hourCount := if increment then hourCount + 1 else hourCount
    Except.ok
      ({ allowed := true,
         minuteCount := minuteCount, minuteLimit := cfg.rpm,
         minuteRemaining := (cfg.rpm : Int) - minuteCount,
         hourCount := hourCount, hourLimit := cfg.rph,
         hourRemaining := (cfg.rph : Int) - hourCount }, st)

/-- The store after `n` incrementing calls of `check_rate_limit` for one
identifier from the empty store, with the clock fixed at `now`
(propagating the first failure). -/
def rlIter (cfg : RateLimitConfig) (identifier : String) (now : Nat) :
    Nat → Except RateLimited CounterStore
  | 0 => Except.ok CounterStore.empty
  | n + 1 =>
    match rlIter cfg identifier now n with
    | Except.error e => Except.error e
    | Except.ok st =>
      match checkRateLimit cfg identifier true now st with
      | Except.error e => Except.error e
      | Except.ok r => Except.ok r.2

/-- The outcome of the `(n+1)`-th incrementing call (after `n` successful
ones) from the empty store. -/
def rlNthResult (cfg : RateLimitConfig) (identifier : String) (now : Nat)
    (n : Nat) : Except RateLimited RateInfo :=
  match rlIter cfg identifier now n with
  | Except.error e => Except.error e
  | Except.ok st =>
    match checkRateLimit cfg identifier true now st with
    | Except.error e => Except.error e
    | Except.ok r => Except.ok r.1

/-! ## Distributed lock (`utils/distributed_lock.py`) -/

/-- The Redis string keys holding lock tokens. -/
structure LockStore where
  store : String → Option String

/-- `_get_lock_key`. -/
def lockKey (resource : String) : String := "lock:" ++ resource

/-- `DistributedLock.release`: the atomic Lua check-and-delete.  The key is
deleted and `true` returned only when the stored value equals `token`;
otherwise (wrong token or absent key) the store is untouched and the call
returns `false`. -/
def releaseLock (st : LockStore) (resource token : String) :
    Bool × LockStore :=
  match st.store (lockKey resource) with
  | some v =>
    if v = token then
      (true, ⟨fun k => if k = lockKey resource then none else st.store k⟩)
    else (false, st)
  | none => (false, st)

/-! ## Stable sorting

Python's `list.sort` / `sorted` are stable.  A stable sort is uniquely
determined by its comparison key, so both call sites (descending by combined
score in the retrieval pipeline, ascending in the observer's percentile
computation) are modelled by one stable insertion sort. -/

/-- Insert `a` into a descending-sorted list, after every element with a
strictly greater key and before every element with a smaller-or-equal key
(the placement of a stable descending sort for an element that precedes the
list's elements in the original order). -/
def insertDescBy {α : Type} (key : α → ℚ) (a : α) : List α → List α
  | [] => [a]
  | b :: bs => if key b ≤ key a then a :: b :: bs else b :: insertDescBy key a bs

/-- Stable descending sort by a rational key (`sort(key=..., reverse=True)`). -/
def sortDescBy {α : Type} (key : α → ℚ) : List α → List α
  | [] => []
  | a :: as => insertDescBy key a (sortDescBy key as)

/-- Insert `a` into an ascending-sorted list, after every element with a
strictly smaller key. -/
def insertAscBy {α : Type} (key : α → ℚ) (a : α) : List α → List α
  | [] => [a]
  | b :: bs => if key a ≤ key b then a :: b :: bs else b :: insertAscBy key a bs

/-- Stable ascending sort by a rational key (Python `sorted`). -/
def sortAscBy {α : Type} (key : α → ℚ) : List α → List α
  | [] => []
  | a :: as => insertAscBy key a (sortAscBy key as)

/-! ## Memory retrieval ranking (`services/memory/retrieval.py`) -/

/-- `MemoryType`. -/
inductive MemoryType where
  | conversation
  | preference
  | place
  | itinerary
  | feedback
  | entity
deriving DecidableEq, Repr

/-- A `Memory` as the ranking code uses it: id, content, type, the
relevance score assigned by search (mutated to the combined score by
ranking) and the creation timestamp in seconds (`None` when absent). -/
structure MemRecord where
  id : String
  content : String
  memoryType : MemoryType
  score : ℚ
  createdAt : Option ℚ
deriving DecidableEq, Repr

/-- `RetrievalConfig` (defaults of the constructor). -/
structure RetrievalConfig where
  maxMemories : Nat
  scoreThreshold : ℚ
  recencyWeight : ℚ
  relevanceWeight : ℚ
  includeUserPreferences : Bool
  includeRecentContext : Bool
  recencyWindowHours : Nat
deriving DecidableEq, Repr

/-- `RetrievalConfig()` with every argument defaulted. -/
def defaultRetrievalConfig : RetrievalConfig :=
  { maxMemories := 5, scoreThreshold := 7/10, recencyWeight := 1/5,
    relevanceWeight := 4/5, includeUserPreferences := true,
    includeRecentContext := true, recencyWindowHours := 24 }

/-- The combined score `_rank_memories` computes for one memory at time
`now` (seconds): `relevance_weight · relevance + recency_weight · recency`
with `recency = max(0, 1 − age_hours/(recency_window_hours·7))` (0.5 when
`created_at` is absent), multiplied by 1.2 for preference memories. -/
def combinedScore (cfg : RetrievalConfig) (now : ℚ) (m : MemRecord) : ℚ :=
  let relevanceScore := m.score
  let recencyScore : ℚ :=
    match m.createdAt with
    | some t => max 0 (1 - ((now - t) / 3600) / (cfg.recencyWindowHours * 7))
    | none => 1/2
  let c := cfg.relevanceWeight * relevanceScore + cfg.recencyWeight * recencyScore
  if m.memoryType = MemoryType.preference then c * (12/10) else c

/-- `_rank_memories`: score every memory, sort the (memory, score) pairs
stably by descending score, then write the combined score back into each
memory. -/
def rankMemories (cfg : RetrievalConfig) (now : ℚ) (ms : List MemRecord) :
    List MemRecord :=
  if ms.isEmpty then []
  else
    let scored := ms.map (fun m => (m, combinedScore cfg now m))
    let sorted := sortDescBy (fun p => p.2) scored
    sorted.map (fun p => { p.1 with score := p.2 })

/-- Steps 4–5 of `MemoryRetrievalPipeline.retrieve` on an assembled
candidate list: re-rank and take the top `max_memories`. -/
def retrieveTop (cfg : RetrievalConfig) (now : ℚ) (ms : List MemRecord) :
    List MemRecord :=
  (rankMemories cfg now ms).take cfg.maxMemories

/-- The ranking score as the specification words it: combined score
`w_r · relevance + w_t · recency` with
`recency = max(0, 1 − age_hours / (7 · recency_window))`, 0.5 without a
timestamp, boosted ×1.2 for preference memories.  Stated independently of
`combinedScore` for the refinement theorem. -/
def specCombinedScore (cfg : RetrievalConfig) (now : ℚ) (m : MemRecord) : ℚ :=
  let ageHours := match m.createdAt with
    | some t => some ((now - t) / 3600)
    | none => none
  let recency : ℚ :=
    match ageHours with
    | some a => max 0 (1 - a / (7 * cfg.recencyWindowHours))
    | none => 1/2
  (if m.memoryType = MemoryType.preference then (12/10) else 1) *
    (cfg.relevanceWeight * m.score + cfg.recencyWeight * recency)

/-- The retrieval result as the specification words it: assign each memory
its spec score, sort descending by it (stably), take the top
`max_memories`. -/
def specRankedTop (cfg : RetrievalConfig) (now : ℚ) (ms : List MemRecord) :
    List MemRecord :=
  (sortDescBy (fun m => m.score)
    (ms.map fun m => { m with score := specCombinedScore cfg now m })).take
    cfg.maxMemories

/-! ## Observer agent (`agents/observer_agent.py`) -/

/-- The fields of `AgentEvent` the observer's processing reads. -/
structure AgentEvent where
  eventType : EventType
  threadId : String
  userId : Option String
  payload : List (String × String)
  latencyMs : Option ℚ
  tokenCount : Option Nat
  errorCode : Option String
deriving DecidableEq, Repr

/-- Python `payload.get(key, default)` on the string payload entries. -/
def pyDictGet (d : List (String × String)) (key dflt : String) : String :=
  match d.find? (fun p => p.1 == key) with
  | some p => p.2
  | none => dflt

/-- An alert dispatched by `send_alert`. -/
structure ObsAlert where
  severity : String
  message : String
deriving DecidableEq, Repr

/-- The metrics of the periodic performance report. -/
structure PerfReport where
  avgLatencyMs : ℚ
  p50LatencyMs : ℚ
  p95LatencyMs : ℚ
  p99LatencyMs : ℚ
  totalEvents : Nat
deriving DecidableEq, Repr

/-- The observer's analysis state: `error_counts` and `api_call_counts`
(dicts modelled as total functions defaulting to 0) and the latency
buffer. -/
structure ObserverState where
  errorCounts : String → Nat
  latencyBuffer : List ℚ
  apiCallCounts : String → Nat

/-- The empty analysis state (fresh agent, and the state after a reset). -/
def ObserverState.empty : ObserverState := ⟨fun _ => 0, [], fun _ => 0⟩

/-- Python `round(x, 2)`, modelled with exact rounding of `100·x` to an
integer (`round` rounds halves up where Python's float rounding is
half-to-even; the difference only matters at exact half-cent ties and no
claim depends on it). -/
def round2 (q : ℚ) : ℚ := ((round (q * 100) : ℤ) : ℚ) / 100

/-- `handle_error`: count the error (by `error_code`, `"unknown"` when
absent) and fire a critical alert once that error kind has been seen 5 or
more times. -/
def handleError (ev : AgentEvent) (st : ObserverState) :
    ObserverState × List ObsAlert :=
  let errorType := ev.errorCode.getD "unknown"
  let counts := fun k =>
    if k = errorType then st.errorCounts k + 1 else st.errorCounts k
  let st := { st with errorCounts := counts }
  if 5 ≤ counts errorType then
    (st, [⟨"critical",
      "Repeated errors: " ++ errorType ++ " ("
        ++ toString (counts errorType) ++ " times)"⟩])
  else (st, [])

/-- `detect_anomalies`: a warning alert for latency above 5000 ms, a
critical alert for a detected prompt injection; a rate-limit event is only
logged (no alert). -/
def detectAnomalies (ev : AgentEvent) : List ObsAlert :=
  (match ev.latencyMs with
   | some l => if 5000 < l then
       [(⟨"warning", "High latency detected"⟩ : ObsAlert)] else []
   | none => []) ++
  (if ev.eventType = EventType.promptInjectionDetected then
     [⟨"critical", "Prompt injection attempt detected"⟩] else [])

/-- `analyze_and_report`: with a nonempty buffer, compute the average and
the p50/p95/p99 order statistics of the ascending-sorted buffer (indices
`n/2`, `int(n·0.95)`, `int(n·0.99)`; in the reachable call the buffer holds
exactly 100 samples, where the float index computation of the source also
yields 50, 95 and 99), emit one report, and reset the error counts, the
API-call counts and the latency buffer. -/
def analyzeAndReport (st : ObserverState) : ObserverState × Option PerfReport :=
  if st.latencyBuffer.isEmpty then (st, none)
  else
    let n := st.latencyBuffer.length
    let avgLatency := st.latencyBuffer.sum / n
    let sorted := sortAscBy (fun l => l) st.latencyBuffer
    let p50 := sorted.getD (n / 2) 0
    let p95 := sorted.getD (⌊(n : ℚ) * (95/100)⌋).toNat 0
    let p99 := sorted.getD (⌊(n : ℚ) * (99/100)⌋).toNat 0
    (ObserverState.empty,
     some { avgLatencyMs := round2 avgLatency, p50LatencyMs := round2 p50,
            p95LatencyMs := round2 p95, p99LatencyMs := round2 p99,
            totalEvents := n })

/-- `process_event`: log, count errors (with repeated-error alerts), buffer
a truthy latency sample, count Naver API calls, detect anomalies when
enabled, and run the periodic analysis once the buffer holds at least 100
samples.  Returns the new state, the alerts sent while processing, and the
emitted reports. -/
def processEvent (anomalyEnabled : Bool) (ev : AgentEvent)
    (st : ObserverState) : ObserverState × List ObsAlert × List PerfReport :=
  let r1 := if ev.eventType = EventType.errorOccurred then handleError ev st
            else (st, [])
  let st := r1.1
  let st := match ev.latencyMs with
    | some l =>
      if l ≠ 0 then { st with latencyBuffer := st.latencyBuffer ++ [l] } else st
    | none => st
  let st := if ev.eventType = EventType.naverApiCalled then
      let apiType := pyDictGet ev.payload "api_type" "unknown"
      { st with apiCallCounts := fun k =>
          if k = apiType then st.apiCallCounts k + 1 else st.apiCallCounts k }
    else st
  let anomalyAlerts := if anomalyEnabled then detectAnomalies ev else []
  if 100 ≤ st.latencyBuffer.length then
    let r2 := analyzeAndReport st
    (r2.1, r1.2 ++ anomalyAlerts, r2.2.toList)
  else (st, r1.2 ++ anomalyAlerts, [])

/-! ## Input validation (`middleware/core/input_validation.py`)

The `PROMPT_INJECTION_PATTERNS` regexes (compiled with `IGNORECASE`;
`MULTILINE` only affects anchors, which none of them use) all have the
shape 'literal alternatives separated by `\s(+|*)` gaps'.  They are
embedded as token sequences over an explicit nondeterministic matcher:
`Tok.lit alts` consumes one of the given (lower-cased) literals, `Tok.ws m`
consumes at least `m` whitespace characters.  Optional groups (`(a\s+)?`,
`(TEM)?`, `s?`) are expanded into alternatives, which preserves the
existence of a match. -/

/-- One token of an embedded injection pattern. -/
inductive Tok where
  | lit : List (List Char) → Tok
  | ws : Nat → Tok

/-- Consume a lower-cased literal from the front of `w`; return the rest. -/
def litAt : List Char → List Char → Option (List Char)
  | [], cs => some cs
  | _ :: _, [] => none
  | p :: ps, c :: cs => if lowerA c == p then litAt ps cs else none

/-- All remainders of `w` after consuming at least `m` whitespace
characters from the front. -/
def wsTails : Nat → List Char → List (List Char)
  | 0, [] => [[]]
  | 0, c :: cs => (c :: cs) :: (if wsChar c then wsTails 0 cs else [])
  | _ + 1, [] => []
  | m + 1, c :: cs => if wsChar c then wsTails m cs else []

/-- `matchExact p w`: the token sequence `p` matches exactly the window `w`. -/
def matchExact : List Tok → List Char → Bool
  | [], w => w.isEmpty
  | Tok.lit alts :: rest, w =>
    alts.any fun a =>
      match litAt a w with
      | some w2 => matchExact rest w2
      | none => false
  | Tok.ws m :: rest, w => (wsTails m w).any fun w2 => matchExact rest w2

/-- `matchSome p w`: the token sequence `p` matches some prefix of `w`. -/
def matchSome : List Tok → List Char → Bool
  | [], _ => true
  | Tok.lit alts :: rest, w =>
    alts.any fun a =>
      match litAt a w with
      | some w2 => matchSome rest w2
      | none => false
  | Tok.ws m :: rest, w => (wsTails m w).any fun w2 => matchSome rest w2

/-- `re.search`: the pattern matches somewhere in `cs`. -/
def searchPat (p : List Tok) (cs : List Char) : Bool :=
  cs.tails.any fun t => matchSome p t

/-- `ignore\s+(previous|all|above)\s+(instructions?|prompts?|rules?)` -/
def pIgnore : List Tok :=
  [Tok.lit ["ignore".data], Tok.ws 1,
   Tok.lit ["previous".data, "all".data, "above".data], Tok.ws 1,
   Tok.lit ["instructions".data, "instruction".data, "prompts".data,
            "prompt".data, "rules".data, "rule".data]]

/-- `disregard\s+(previous|all|above)` -/
def pDisregard : List Tok :=
  [Tok.lit ["disregard".data], Tok.ws 1,
   Tok.lit ["previous".data, "all".data, "above".data]]

/-- `forget\s+(everything|all|previous)` -/
def pForget : List Tok :=
  [Tok.lit ["forget".data], Tok.ws 1,
   Tok.lit ["everything".data, "all".data, "previous".data]]

/-- `new\s+instructions?:` -/
def pNewInstructions : List Tok :=
  [Tok.lit ["new".data], Tok.ws 1,
   Tok.lit ["instructions:".data, "instruction:".data]]

/-- `system\s*:\s*` -/
def pSystemColon : List Tok :=
  [Tok.lit ["system".data], Tok.ws 0, Tok.lit [":".data], Tok.ws 0]

/-- `<\|system\|>` -/
def pSystemTag : List Tok := [Tok.lit ["<|system|>".data]]

/-- `<\|assistant\|>` -/
def pAssistantTag : List Tok := [Tok.lit ["<|assistant|>".data]]

/-- `you\s+are\s+now\s+(a\s+)?different`, with the optional group. -/
def pYouAreNowA : List Tok :=
  [Tok.lit ["you".data], Tok.ws 1, Tok.lit ["are".data], Tok.ws 1,
   Tok.lit ["now".data], Tok.ws 1, Tok.lit ["a".data], Tok.ws 1,
   Tok.lit ["different".data]]

/-- `you\s+are\s+now\s+(a\s+)?different`, without the optional group. -/
def pYouAreNow : List Tok :=
  [Tok.lit ["you".data], Tok.ws 1, Tok.lit ["are".data], Tok.ws 1,
   Tok.lit ["now".data], Tok.ws 1, Tok.lit ["different".data]]

/-- `pretend\s+(to\s+be|you\s+are)`, first alternative. -/
def pPretendToBe : List Tok :=
  [Tok.lit ["pretend".data], Tok.ws 1, Tok.lit ["to".data], Tok.ws 1,
   Tok.lit ["be".data]]

/-- `pretend\s+(to\s+be|you\s+are)`, second alternative. -/
def pPretendYouAre : List Tok :=
  [Tok.lit ["pretend".data], Tok.ws 1, Tok.lit ["you".data], Tok.ws 1,
   Tok.lit ["are".data]]

/-- `act\s+as\s+(if|a)` -/
def pActAs : List Tok :=
  [Tok.lit ["act".data], Tok.ws 1, Tok.lit ["as".data], Tok.ws 1,
   Tok.lit ["if".data, "a".data]]

/-- `roleplay\s+as` -/
def pRoleplayAs : List Tok :=
  [Tok.lit ["roleplay".data], Tok.ws 1, Tok.lit ["as".data]]

/-- `DAN\s+mode` -/
def pDanMode : List Tok :=
  [Tok.lit ["dan".data], Tok.ws 1, Tok.lit ["mode".data]]

/-- `developer\s+mode` -/
def pDeveloperMode : List Tok :=
  [Tok.lit ["developer".data], Tok.ws 1, Tok.lit ["mode".data]]

/-- `bypass\s+(filters?|restrictions?|safety)` -/
def pBypass : List Tok :=
  [Tok.lit ["bypass".data], Tok.ws 1,
   Tok.lit ["filters".data, "filter".data, "restrictions".data,
            "restriction".data, "safety".data]]

/-- `unlock\s+(hidden|secret)` -/
def pUnlock : List Tok :=
  [Tok.lit ["unlock".data], Tok.ws 1,
   Tok.lit ["hidden".data, "secret".data]]

/-- `\[\s*INST\s*\]` -/
def pInstBracket : List Tok :=
  [Tok.lit ["[".data], Tok.ws 0, Tok.lit ["inst".data], Tok.ws 0,
   Tok.lit ["]".data]]

/-- `\[\s*SYS(TEM)?\s*\]`, optional group expanded into the alternatives. -/
def pSysBracket : List Tok :=
  [Tok.lit ["[".data], Tok.ws 0, Tok.lit ["system".data, "sys".data],
   Tok.ws 0, Tok.lit ["]".data]]

/-- `</?(system|user|assistant)>` -/
def pRoleTags : List Tok :=
  [Tok.lit ["<system>".data, "</system>".data, "<user>".data,
            "</user>".data, "<assistant>".data, "</assistant>".data]]

/-- `PROMPT_INJECTION_PATTERNS`, embedded. -/
def injectionPatterns : List (List Tok) :=
  [pIgnore, pDisregard, pForget, pNewInstructions, pSystemColon, pSystemTag,
   pAssistantTag, pYouAreNowA, pYouAreNow, pPretendToBe, pPretendYouAre,
   pActAs, pRoleplayAs, pDanMode, pDeveloperMode, pBypass, pUnlock,
   pInstBracket, pSysBracket, pRoleTags]

/-- `_check_prompt_injection` (as a Boolean; the source returns the matched
text, the claims only use whether a pattern matched). -/
def checkInjectionL (cs : List Char) : Bool :=
  injectionPatterns.any fun p => searchPat p cs

/-- Space or tab (the class `[ \t]` of `_normalize_whitespace`). -/
def spTab (c : Char) : Bool := c == ' ' || c == '\t'

/-- `re.sub(r"[ \t]+", " ", text)`: collapse each run of spaces and tabs to
a single space. -/
def collapseWs : List Char → List Char
  | [] => []
  | c :: cs =>
    if spTab c then ' ' :: collapseWs (cs.dropWhile spTab)
    else c :: collapseWs cs
termination_by l => l.length
decreasing_by
  · exact Nat.lt_succ_of_le (List.dropWhile_sublist _).length_le
  · simp

/-- `re.sub(r"\n{3,}", "\n\n", text)`: collapse each run of three or more
newlines to exactly two, leaving shorter runs unchanged. -/
def collapseNl : List Char → List Char
  | [] => []
  | c :: cs =>
    if c == '\n' then
      let rest := cs.dropWhile (fun d => d == '\n')
      let k := 1 + (cs.length - rest.length)
      (if 3 ≤ k then ['\n', '\n'] else List.replicate k '\n') ++ collapseNl rest
    else c :: collapseNl cs
termination_by l => l.length
decreasing_by
  · exact Nat.lt_succ_of_le (List.dropWhile_sublist _).length_le
  · simp

/-- `_normalize_whitespace` on code points: collapse space/tab runs, then
long newline runs, then strip. -/
def normalizeChars (cs : List Char) : List Char :=
  stripChars (collapseNl (collapseWs cs))

/-- `_normalize_whitespace`. -/
def normalizeWhitespace (s : String) : String := String.mk (normalizeChars s.data)

/-- Python `str.replace(pat, rep)`: replace every non-overlapping
occurrence left to right, never rescanning the replacement text.  (The
`pat ≠ []` guard only rules out the empty pattern, which the source never
uses.) -/
def replaceAllL (pat rep : List Char) : List Char → List Char
  | [] => []
  | c :: cs =>
    if pat ≠ [] ∧ lstarts pat (c :: cs) then
      rep ++ replaceAllL pat rep ((c :: cs).drop pat.length)
    else c :: replaceAllL pat rep cs
termination_by l => l.length
decreasing_by
  · rename_i h
    have hp : 1 ≤ pat.length := by
      cases pat with
      | nil => exact absurd rfl h.1
      | cons a as => simp
    simp only [List.length_drop, List.length_cons]
    omega
  · simp

/-- `"<script"`. -/
def patScriptOpen : List Char := "<script".data
/-- `"&lt;script"`. -/
def repScriptOpen : List Char := "&lt;script".data
/-- `"</script"`. -/
def patScriptClose : List Char := "</script".data
/-- `"&lt;/script"`. -/
def repScriptClose : List Char := "&lt;/script".data
/-- `"javascript:"`. -/
def patJavascript : List Char := "javascript:".data
/-- `"javascript&#58;"`. -/
def repJavascript : List Char := "javascript&#58;".data

/-- `_escape_special_chars`: the three replacements applied in the
insertion order of the `replacements` dict. -/
def escapeChars (cs : List Char) : List Char :=
  replaceAllL patJavascript repJavascript
    (replaceAllL patScriptClose repScriptClose
      (replaceAllL patScriptOpen repScriptOpen cs))

/-- `_escape_special_chars`. -/
def escapeSpecialChars (s : String) : String := String.mk (escapeChars s.data)

/-- `InputValidationError`, identified by its `error_code`. -/
structure ValidationErr where
  code : String
deriving DecidableEq, Repr

/-- The metadata dict returned by a successful `validate` (the `warnings`
list of the source is declared but never filled, so it is omitted). -/
structure ValidationMeta where
  originalLength : Nat
  sanitized : Bool
  sanitizedLength : Option Nat
deriving DecidableEq, Repr

/-- `InputValidationMiddleware.validate` with injection checking enabled and
no custom patterns: reject empty/whitespace-only input, then over-long
input, normalize whitespace, reject on an injection-pattern match, escape
the hostile markers, and return the sanitized text with metadata. -/
def validate (maxLength : Nat) (text : String) :
    Except ValidationErr (String × ValidationMeta) :=
  if text = "" ∨ stripChars text.data = [] then
    Except.error ⟨"EMPTY_INPUT"⟩
  else if maxLength < text.length then
    Except.error ⟨"INPUT_TOO_LONG"⟩
  else
    let sanitized := normalizeWhitespace text
    if checkInjectionL sanitized.data then
      Except.error ⟨"PROMPT_INJECTION_DETECTED"⟩
    else
      let sanitized := escapeSpecialChars sanitized
      if sanitized ≠ text then
        Except.ok (sanitized,
          { originalLength := text.length, sanitized := true,
            sanitizedLength := some sanitized.length })
      else
        Except.ok (sanitized,
          { originalLength := text.length, sanitized := false,
            sanitizedLength := none })

/-- Characters that escaping quarantines its insertions with. -/
def noBlocker (c : Char) : Bool := !(c == '&' || c == ';')

/-- A pattern whose literals avoid the blocker characters. -/
def patOK (p : List Tok) : Bool :=
  p.all fun t =>
    match t with
    | Tok.lit alts => alts.all fun a => a.all noBlocker
    | Tok.ws _ => true

/-- A blocker-free character list (no `&`, no `;`). -/
def noBlockerL (w : List Char) : Prop := ∀ c ∈ w, noBlocker c = true

/-! # Theorems

## Token accounting and trimming -/

theorem countMessagesTokens_append (ct : String → Nat) (a b : List Msg) :
    countMessagesTokens ct (a ++ b) =
      countMessagesTokens ct a + countMessagesTokens ct b := by
  simp [countMessagesTokens]

theorem countMessagesTokens_eq (ct : String → Nat) (l : List Msg) :
    countMessagesTokens ct l =
      (l.map fun m => ct m.content).sum + 4 * l.length := by
  induction l with
  | nil => simp [countMessagesTokens]
  | cons m ms ih =>
    simp [countMessagesTokens] at ih ⊢
    omega

/-- Coercion of a cons to a multiset, as a sum. -/
theorem coe_cons_msg (m : Msg) (l : List Msg) :
    ((m :: l : List Msg) : Multiset Msg)
      = (([m] : List Msg) : Multiset Msg) + (l : Multiset Msg) :=
  (Multiset.coe_add [m] l).symm

theorem foldl_trimStep_multiset (ct : String → Nat) (L : List Msg)
    (acc : List Msg × List Msg × Int) :
    ((L.foldl (trimStep ct) acc).1 : Multiset Msg)
        + ((L.foldl (trimStep ct) acc).2.1 : Multiset Msg)
      = (L : Multiset Msg) + acc.1 + acc.2.1 := by
  induction L generalizing acc with
  | nil => simp
  | cons m ms ih =>
    simp only [List.foldl_cons]
    rw [ih]
    unfold trimStep
    split
    · rw [coe_cons_msg m acc.1, coe_cons_msg m ms]
      abel
    · rw [coe_cons_msg m acc.2.1, coe_cons_msg m ms]
      abel

theorem trimLoop_perm (ct : String → Nat) (older : List Msg) (b : Int) :
    List.Perm ((trimLoop ct older b).1 ++ (trimLoop ct older b).2) older := by
  rw [← Multiset.coe_eq_coe, ← Multiset.coe_add]
  have h := foldl_trimStep_multiset ct older.reverse ([], [], b)
  have hrev : (older.reverse : Multiset Msg) = (older : Multiset Msg) := by
    rw [Multiset.coe_eq_coe]
    exact older.reverse_perm
  simp only [trimLoop]
  rw [h, hrev]
  simp

theorem foldl_trimStep_tokens (ct : String → Nat) (L : List Msg)
    (acc : List Msg × List Msg × Int) :
    (((L.foldl (trimStep ct) acc).1.map fun m => (ct m.content : Int)).sum
        + max 0 (L.foldl (trimStep ct) acc).2.2)
      = ((acc.1.map fun m => (ct m.content : Int)).sum + max 0 acc.2.2) := by
  induction L generalizing acc with
  | nil => simp
  | cons m ms ih =>
    simp only [List.foldl_cons]
    rw [ih]
    unfold trimStep
    split
    case isTrue h =>
      simp only [List.map_cons, List.sum_cons]
      have h0 : (0 : Int) ≤ acc.2.2 - ct m.content := by omega
      have h1 : (0 : Int) ≤ acc.2.2 := by omega
      rw [max_eq_right h0, max_eq_right h1]
      ring
    case isFalse h => rfl

theorem trimLoop_kept_tokens (ct : String → Nat) (older : List Msg) (b : Int) :
    ((trimLoop ct older b).1.map fun m => (ct m.content : Int)).sum ≤ max 0 b := by
  have h := foldl_trimStep_tokens ct older.reverse ([], [], b)
  simp only [List.map_nil, List.sum_nil, zero_add] at h
  simp only [trimLoop]
  have h2 : (0 : Int) ≤ max 0 (older.reverse.foldl (trimStep ct) ([], [], b)).2.2 :=
    le_max_left _ _
  omega

/-- Any recent tail is a sublist of the original message list. -/
theorem recentTail_sublist_self (keep : Nat) (msgs : List Msg) :
    List.Sublist (recentTail keep msgs) msgs :=
  (List.drop_sublist _ _).trans (List.filter_sublist _)

/-- The trim pass below the soft limit: unchanged. -/
theorem contextTrim_of_le_soft {ct : String → Nat} {soft hard keep : Nat}
    {msgs : List Msg} (h : countMessagesTokens ct msgs ≤ soft) :
    contextTrim ct soft hard keep msgs =
      { newMessages := msgs, removed := [], summarizationNeeded := false } := by
  simp [contextTrim, h]

/-- The trim pass with at most `keep_recent` conversation messages:
unchanged, flagging summarization when the hard limit is exceeded. -/
theorem contextTrim_of_few_conv {ct : String → Nat} {soft hard keep : Nat}
    {msgs : List Msg} (h1 : ¬ countMessagesTokens ct msgs ≤ soft)
    (h2 : (convPart msgs).length ≤ keep) :
    contextTrim ct soft hard keep msgs =
      { newMessages := msgs, removed := [],
        summarizationNeeded := hard < countMessagesTokens ct msgs } := by
  simp [contextTrim, h1, h2]

/-- The trim pass in the eviction branch. -/
theorem contextTrim_of_trim {ct : String → Nat} {soft hard keep : Nat}
    {msgs : List Msg} (h1 : ¬ countMessagesTokens ct msgs ≤ soft)
    (h2 : ¬ (convPart msgs).length ≤ keep) :
    contextTrim ct soft hard keep msgs =
      { newMessages := systemPart msgs
          ++ (trimLoop ct (olderPart keep msgs)
            ((soft : Int) - countMessagesTokens ct (systemPart msgs)
              - countMessagesTokens ct (recentTail keep msgs))).1
          ++ recentTail keep msgs,
        removed := (trimLoop ct (olderPart keep msgs)
            ((soft : Int) - countMessagesTokens ct (systemPart msgs)
              - countMessagesTokens ct (recentTail keep msgs))).2,
        summarizationNeeded :=
          0 < (trimLoop ct (olderPart keep msgs)
            ((soft : Int) - countMessagesTokens ct (systemPart msgs)
              - countMessagesTokens ct (recentTail keep msgs))).2.length } := by
  simp [contextTrim, h1, h2, sub_sub]

/-- **C10.** The trim pass conserves messages: the returned list and the
removed list together are a permutation of the input (nothing is
duplicated, dropped silently, or invented), every system message of the
input appears in the returned list, and the last `keep_recent`
conversation messages of the input appear in the returned list in their
original relative order (as a sublist — in fact as a contiguous suffix). -/
theorem C10_trim_conservation (ct : String → Nat) (soft hard keep : Nat)
    (msgs : List Msg) :
    List.Perm ((contextTrim ct soft hard keep msgs).newMessages
        ++ (contextTrim ct soft hard keep msgs).removed) msgs ∧
    (∀ m ∈ msgs, isSystemMsg m = true →
      m ∈ (contextTrim ct soft hard keep msgs).newMessages) ∧
    List.Sublist (recentTail keep msgs)
      (contextTrim ct soft hard keep msgs).newMessages := by
  by_cases h1 : countMessagesTokens ct msgs ≤ soft
  · rw [contextTrim_of_le_soft h1]
    exact ⟨by simp, fun m hm _ => hm, recentTail_sublist_self _ _⟩
  by_cases h2 : (convPart msgs).length ≤ keep
  · rw [contextTrim_of_few_conv h1 h2]
    exact ⟨by simp, fun m hm _ => hm, recentTail_sublist_self _ _⟩
  rw [contextTrim_of_trim h1 h2]
  set b : Int := (soft : Int) - countMessagesTokens ct (systemPart msgs)
    - countMessagesTokens ct (recentTail keep msgs) with hb
  set k := (trimLoop ct (olderPart keep msgs) b).1 with hk
  set r := (trimLoop ct (olderPart keep msgs) b).2 with hr
  refine ⟨?_, ?_, ?_⟩
  · -- permutation
    show List.Perm ((systemPart msgs ++ k ++ recentTail keep msgs) ++ r) msgs
    rw [← Multiset.coe_eq_coe]
    have hperm := trimLoop_perm ct (olderPart keep msgs) b
    have hsplit : olderPart keep msgs ++ recentTail keep msgs = convPart msgs :=
      List.take_append_drop _ _
    have hfilter : List.Perm (systemPart msgs ++ convPart msgs) msgs := by
      simpa [systemPart, convPart] using
        List.filter_append_perm (fun m => isSystemMsg m) msgs
    rw [← Multiset.coe_eq_coe, ← Multiset.coe_add] at hperm
    rw [← Multiset.coe_eq_coe] at hfilter
    have hsplit2 : ((olderPart keep msgs : Multiset Msg)
          + (recentTail keep msgs : Multiset Msg))
        = (convPart msgs : Multiset Msg) := by
      rw [Multiset.coe_add]
      exact congrArg _ hsplit
    rw [← Multiset.coe_add] at hfilter
    rw [← Multiset.coe_add, ← Multiset.coe_add, ← Multiset.coe_add]
    calc (systemPart msgs : Multiset Msg) + (k : Multiset Msg)
          + (recentTail keep msgs : Multiset Msg) + (r : Multiset Msg)
        = (systemPart msgs : Multiset Msg) + ((k : Multiset Msg) + (r : Multiset Msg))
          + (recentTail keep msgs : Multiset Msg) := by abel
      _ = (systemPart msgs : Multiset Msg) + (olderPart keep msgs : Multiset Msg)
          + (recentTail keep msgs : Multiset Msg) := by rw [hk, hr, hperm]
      _ = (systemPart msgs : Multiset Msg) + ((olderPart keep msgs : Multiset Msg)
          + (recentTail keep msgs : Multiset Msg)) := by abel
      _ = (systemPart msgs : Multiset Msg) + (convPart msgs : Multiset Msg) := by
          rw [hsplit2]
      _ = (msgs : Multiset Msg) := hfilter
  · -- every system message is kept
    intro m hm hsys
    show m ∈ systemPart msgs ++ k ++ recentTail keep msgs
    refine List.mem_append_left _ (List.mem_append_left _ ?_)
    simp [systemPart, List.mem_filter, hm, hsys]
  · -- the recent tail is kept in order
    exact List.sublist_append_right _ _

theorem sum_map_intCast (f : Msg → Nat) (l : List Msg) :
    (l.map fun m => (f m : Int)).sum = ((l.map f).sum : Int) := by
  induction l with
  | nil => simp
  | cons m ms ih => simp [ih]

/-- **C1 (counterexample).** The claim `count_messages(new_messages) ≤ S or
removed = []` fails on the code: with the fallback tokenizer, soft limit 20,
`keep_recent = 1` and three messages of 40, 56 and 4 characters, the trim
pass (followed by a summarize pass in which every strategy fails, which
returns the trimmed list unchanged) removes one message yet returns a list
of 23 > 20 tokens — the 4-token per-message overhead of the kept older
message is not charged against the eviction budget. -/
theorem C1_counterexample :
    (trimSummarizePass ctFallback (fun _ => none) 20 100 1
        [⟨Role.assistant, "zzzzzzzzzzzzzzzzzzzzzzzzzzzzzzzzzzzzzzzz"⟩,
         ⟨Role.assistant, "yyyyyyyyyyyyyyyyyyyyyyyyyyyyyyyyyyyyyyyyyyyyyyyyyyyyyyyy"⟩,
         ⟨Role.user, "hey "⟩]).2 ≠ [] ∧
    ¬ (countMessagesTokens ctFallback
        (trimSummarizePass ctFallback (fun _ => none) 20 100 1
          [⟨Role.assistant, "zzzzzzzzzzzzzzzzzzzzzzzzzzzzzzzzzzzzzzzz"⟩,
           ⟨Role.assistant, "yyyyyyyyyyyyyyyyyyyyyyyyyyyyyyyyyyyyyyyyyyyyyyyyyyyyyyyy"⟩,
           ⟨Role.user, "hey "⟩]).1 ≤ 20) := by
  decide

/-- **C1 (amended).** After a trim pass, either the removed list is empty,
or the token count of the returned list is bounded by
`max S (count(system) + count(recent_tail)) + 4·|kept_older|`: the eviction
budget keeps the *content* tokens of the kept older messages within
`S − count(system) − count(recent_tail)` whenever that budget is
nonnegative, but the 4-token per-message overhead of kept older messages is
not charged to it, and the system-plus-recent-tail part alone may already
exceed `S`.  (A successful summarize pass can only add one more system
message on top of this.) -/
theorem C1_trim_token_bound (ct : String → Nat) (soft hard keep : Nat)
    (msgs : List Msg) :
    (contextTrim ct soft hard keep msgs).removed = [] ∨
    countMessagesTokens ct (contextTrim ct soft hard keep msgs).newMessages ≤
      max soft (countMessagesTokens ct (systemPart msgs)
          + countMessagesTokens ct (recentTail keep msgs))
        + 4 * (keptOlder ct soft keep msgs).length := by
  by_cases h1 : countMessagesTokens ct msgs ≤ soft
  · rw [contextTrim_of_le_soft h1]
    exact Or.inl rfl
  by_cases h2 : (convPart msgs).length ≤ keep
  · rw [contextTrim_of_few_conv h1 h2]
    exact Or.inl rfl
  rw [contextTrim_of_trim h1 h2]
  refine Or.inr ?_
  set b : Int := (soft : Int) - countMessagesTokens ct (systemPart msgs)
    - countMessagesTokens ct (recentTail keep msgs) with hb
  set k := (trimLoop ct (olderPart keep msgs) b).1 with hk
  have hko : keptOlder ct soft keep msgs = k := rfl
  show countMessagesTokens ct (systemPart msgs ++ k ++ recentTail keep msgs) ≤ _
  rw [hko, countMessagesTokens_append, countMessagesTokens_append,
    countMessagesTokens_eq ct k]
  have hsum : ((k.map fun m => (ct m.content : Int)).sum ≤ max 0 b) := by
    rw [hk]
    exact trimLoop_kept_tokens ct (olderPart keep msgs) b
  rw [sum_map_intCast] at hsum
  have hml : soft ≤ max soft (countMessagesTokens ct (systemPart msgs)
      + countMessagesTokens ct (recentTail keep msgs)) := le_max_left _ _
  have hmr : countMessagesTokens ct (systemPart msgs)
      + countMessagesTokens ct (recentTail keep msgs)
      ≤ max soft (countMessagesTokens ct (systemPart msgs)
        + countMessagesTokens ct (recentTail keep msgs)) := le_max_right _ _
  rcases le_or_lt b 0 with hneg | hpos
  · rw [max_eq_left (by omega : b ≤ (0 : Int))] at hsum
    omega
  · rw [max_eq_right (by omega : (0 : Int) ≤ b)] at hsum
    rw [hb] at hsum
    omega

/-! ## Circuit breaker theorems -/

theorem recordFailure_closed_stay {cb : Breaker} (now : Nat)
    (h : cb.state = CircuitState.closed)
    (hlt : cb.failureCount + 1 < cb.failureThreshold) :
    (recordFailure now cb).state = CircuitState.closed ∧
    (recordFailure now cb).failureCount = cb.failureCount + 1 ∧
    (recordFailure now cb).failureThreshold = cb.failureThreshold ∧
    (recordFailure now cb).successThreshold = cb.successThreshold := by
  simp only [recordFailure, h]
  have : ¬ cb.failureThreshold ≤ cb.failureCount + 1 := by omega
  simp [this]

theorem recordFailure_closed_open {cb : Breaker} (now : Nat)
    (h : cb.state = CircuitState.closed)
    (hge : cb.failureThreshold ≤ cb.failureCount + 1) :
    (recordFailure now cb).state = CircuitState.opened := by
  simp [recordFailure, h, hge, transitionTo]

theorem recordFailure_opened_stay {cb : Breaker} (now : Nat)
    (h : cb.state = CircuitState.opened) :
    (recordFailure now cb).state = CircuitState.opened := by
  simp [recordFailure, h]

theorem recordFailure_halfOpen_open {cb : Breaker} (now : Nat)
    (h : cb.state = CircuitState.halfOpen) :
    (recordFailure now cb).state = CircuitState.opened := by
  simp [recordFailure, h, transitionTo]

theorem iterFailures_opened_stay (now : Nat) :
    ∀ (n : Nat) (cb : Breaker), cb.state = CircuitState.opened →
      (iterFailures now n cb).state = CircuitState.opened := by
  intro n
  induction n with
  | zero => intro cb h; exact h
  | succ n ih =>
    intro cb h
    exact ih _ (recordFailure_opened_stay now h)

theorem iterFailures_closed (now : Nat) :
    ∀ (n : Nat) (cb : Breaker), cb.state = CircuitState.closed →
      cb.failureCount + n < cb.failureThreshold →
      (iterFailures now n cb).state = CircuitState.closed ∧
      (iterFailures now n cb).failureCount = cb.failureCount + n ∧
      (iterFailures now n cb).failureThreshold = cb.failureThreshold ∧
      (iterFailures now n cb).successThreshold = cb.successThreshold := by
  intro n
  induction n with
  | zero => intro cb h hlt; exact ⟨h, rfl, rfl, rfl⟩
  | succ n ih =>
    intro cb h hlt
    have hstep := recordFailure_closed_stay now h (by omega)
    have := ih (recordFailure now cb) hstep.1 (by omega)
    show (iterFailures now n (recordFailure now cb)).state = CircuitState.closed
      ∧ (iterFailures now n (recordFailure now cb)).failureCount = _
      ∧ (iterFailures now n (recordFailure now cb)).failureThreshold = _
      ∧ (iterFailures now n (recordFailure now cb)).successThreshold = _
    refine ⟨this.1, ?_, ?_, ?_⟩
    · rw [this.2.1, hstep.2.1]; omega
    · rw [this.2.2.1, hstep.2.2.1]
    · rw [this.2.2.2, hstep.2.2.2]

theorem iterFailures_opens (now : Nat) :
    ∀ (n : Nat) (cb : Breaker), cb.state = CircuitState.closed →
      cb.failureThreshold ≤ cb.failureCount + n → 1 ≤ n →
      (iterFailures now n cb).state = CircuitState.opened := by
  intro n
  induction n with
  | zero => intro cb _ _ h1; omega
  | succ n ih =>
    intro cb h hge _
    by_cases hth : cb.failureThreshold ≤ cb.failureCount + 1
    · have hopen := recordFailure_closed_open now h hth
      show (iterFailures now n (recordFailure now cb)).state = CircuitState.opened
      exact iterFailures_opened_stay now n _ hopen
    · have hstep := recordFailure_closed_stay now h (by omega)
      exact ih _ hstep.1 (by omega) (by omega)

theorem recordSuccess_closed {cb : Breaker}
    (h : cb.state = CircuitState.closed) :
    (recordSuccess cb).state = CircuitState.closed ∧
    (recordSuccess cb).failureCount = 0 := by
  simp [recordSuccess, h]

theorem recordSuccess_halfOpen_stay {cb : Breaker}
    (h : cb.state = CircuitState.halfOpen)
    (hlt : cb.successCount + 1 < cb.successThreshold) :
    (recordSuccess cb).state = CircuitState.halfOpen ∧
    (recordSuccess cb).successCount = cb.successCount + 1 ∧
    (recordSuccess cb).successThreshold = cb.successThreshold := by
  simp only [recordSuccess, h]
  have : ¬ cb.successThreshold ≤ cb.successCount + 1 := by omega
  simp [this]

theorem recordSuccess_halfOpen_close {cb : Breaker}
    (h : cb.state = CircuitState.halfOpen)
    (hge : cb.successThreshold ≤ cb.successCount + 1) :
    (recordSuccess cb).state = CircuitState.closed ∧
    (recordSuccess cb).failureCount = 0 := by
  simp [recordSuccess, h, hge, transitionTo]

theorem iterSuccesses_halfOpen :
    ∀ (n : Nat) (cb : Breaker), cb.state = CircuitState.halfOpen →
      cb.successCount + n < cb.successThreshold →
      (iterSuccesses n cb).state = CircuitState.halfOpen ∧
      (iterSuccesses n cb).successCount = cb.successCount + n ∧
      (iterSuccesses n cb).successThreshold = cb.successThreshold := by
  intro n
  induction n with
  | zero => intro cb h _; exact ⟨h, rfl, rfl⟩
  | succ n ih =>
    intro cb h hlt
    have hstep := recordSuccess_halfOpen_stay h (by omega)
    have := ih (recordSuccess cb) hstep.1 (by omega)
    show (iterSuccesses n (recordSuccess cb)).state = CircuitState.halfOpen
      ∧ (iterSuccesses n (recordSuccess cb)).successCount = _
      ∧ (iterSuccesses n (recordSuccess cb)).successThreshold = _
    refine ⟨this.1, ?_, ?_⟩
    · rw [this.2.1, hstep.2.1]; omega
    · rw [this.2.2, hstep.2.2]

theorem iterSuccesses_closed_stay :
    ∀ (n : Nat) (cb : Breaker), cb.state = CircuitState.closed →
      cb.failureCount = 0 →
      (iterSuccesses n cb).state = CircuitState.closed ∧
      (iterSuccesses n cb).failureCount = 0 := by
  intro n
  induction n with
  | zero => intro cb h h0; exact ⟨h, h0⟩
  | succ n ih =>
    intro cb h _
    have hstep := recordSuccess_closed h
    exact ih _ hstep.1 hstep.2

theorem iterSuccesses_closes :
    ∀ (n : Nat) (cb : Breaker), cb.state = CircuitState.halfOpen →
      cb.successThreshold ≤ cb.successCount + n → 1 ≤ n →
      (iterSuccesses n cb).state = CircuitState.closed ∧
      (iterSuccesses n cb).failureCount = 0 := by
  intro n
  induction n with
  | zero => intro cb _ _ h1; omega
  | succ n ih =>
    intro cb h hge _
    by_cases hth : cb.successThreshold ≤ cb.successCount + 1
    · have hclose := recordSuccess_halfOpen_close h hth
      exact iterSuccesses_closed_stay n _ hclose.1 hclose.2
    · have hstep := recordSuccess_halfOpen_stay h (by omega)
      exact ih _ hstep.1 (by omega) (by omega)

/-- **C2.** Threshold behaviour of the breaker state machine.  For a closed
breaker `cbC` with a fresh failure count: `Ft − 1` consecutive counted
failures leave it CLOSED with `failure_count = Ft − 1`, the `Ft`-th opens
it, and an intervening success in CLOSED resets the failure count to 0 (so
opening indeed requires `Ft` *consecutive* counted failures).  For a
half-open breaker `cbH` with a fresh success count: `St − 1` successes
leave it HALF_OPEN, the `St`-th closes it and resets the failure count,
and any failure in HALF_OPEN — in particular one arriving just before the
`St`-th success — moves it back to OPEN. -/
theorem C2_breaker_thresholds (cbC cbH : Breaker) (now : Nat)
    (hC : cbC.state = CircuitState.closed) (hC0 : cbC.failureCount = 0)
    (hFt : 1 ≤ cbC.failureThreshold)
    (hH : cbH.state = CircuitState.halfOpen) (hH0 : cbH.successCount = 0)
    (hSt : 1 ≤ cbH.successThreshold) :
    (iterFailures now (cbC.failureThreshold - 1) cbC).state
        = CircuitState.closed ∧
    (iterFailures now (cbC.failureThreshold - 1) cbC).failureCount
        = cbC.failureThreshold - 1 ∧
    (iterFailures now cbC.failureThreshold cbC).state
        = CircuitState.opened ∧
    ((recordSuccess (iterFailures now (cbC.failureThreshold - 1) cbC)).state
        = CircuitState.closed ∧
      (recordSuccess (iterFailures now (cbC.failureThreshold - 1) cbC)).failureCount
        = 0) ∧
    (iterSuccesses (cbH.successThreshold - 1) cbH).state
        = CircuitState.halfOpen ∧
    ((iterSuccesses cbH.successThreshold cbH).state = CircuitState.closed ∧
      (iterSuccesses cbH.successThreshold cbH).failureCount = 0) ∧
    (recordFailure now cbH).state = CircuitState.opened ∧
    (recordFailure now (iterSuccesses (cbH.successThreshold - 1) cbH)).state
        = CircuitState.opened := by
  have hiterC := iterFailures_closed now (cbC.failureThreshold - 1) cbC hC
    (by omega)
  have hiterH := iterSuccesses_halfOpen (cbH.successThreshold - 1) cbH hH
    (by omega)
  refine ⟨hiterC.1, by rw [hiterC.2.1, hC0]; omega, ?_, ?_, hiterH.1, ?_, ?_, ?_⟩
  · exact iterFailures_opens now _ cbC hC (by omega) hFt
  · exact recordSuccess_closed hiterC.1
  · exact iterSuccesses_closes _ cbH hH (by omega) hSt
  · exact recordFailure_halfOpen_open now hH
  · exact recordFailure_halfOpen_open now hiterH.1

/-- Witness for C2 at the default thresholds `Ft = 5`, `St = 2`. -/
theorem C2_breaker_thresholds_witness :
    (iterFailures 0 4 ⟨5, 2, 3, 30, CircuitState.closed, 0, 0, none, 0⟩).state
        = CircuitState.closed ∧
    (iterFailures 0 4 ⟨5, 2, 3, 30, CircuitState.closed, 0, 0, none, 0⟩).failureCount
        = 4 ∧
    (iterFailures 0 5 ⟨5, 2, 3, 30, CircuitState.closed, 0, 0, none, 0⟩).state
        = CircuitState.opened ∧
    ((recordSuccess (iterFailures 0 4
        ⟨5, 2, 3, 30, CircuitState.closed, 0, 0, none, 0⟩)).state
        = CircuitState.closed ∧
      (recordSuccess (iterFailures 0 4
        ⟨5, 2, 3, 30, CircuitState.closed, 0, 0, none, 0⟩)).failureCount = 0) ∧
    (iterSuccesses 1 ⟨5, 2, 3, 30, CircuitState.halfOpen, 0, 0, some 0, 0⟩).state
        = CircuitState.halfOpen ∧
    ((iterSuccesses 2 ⟨5, 2, 3, 30, CircuitState.halfOpen, 0, 0, some 0, 0⟩).state
        = CircuitState.closed ∧
      (iterSuccesses 2
        ⟨5, 2, 3, 30, CircuitState.halfOpen, 0, 0, some 0, 0⟩).failureCount = 0) ∧
    (recordFailure 0 ⟨5, 2, 3, 30, CircuitState.halfOpen, 0, 0, some 0, 0⟩).state
        = CircuitState.opened ∧
    (recordFailure 0 (iterSuccesses 1
        ⟨5, 2, 3, 30, CircuitState.halfOpen, 0, 0, some 0, 0⟩)).state
        = CircuitState.opened :=
  C2_breaker_thresholds
    ⟨5, 2, 3, 30, CircuitState.closed, 0, 0, none, 0⟩
    ⟨5, 2, 3, 30, CircuitState.halfOpen, 0, 0, some 0, 0⟩
    0 rfl rfl (by decide) rfl rfl (by decide)

/-! ## Distributed lock theorems -/

/-- **C6.** Releasing a lock whose stored token differs from `t` (or which
is not held at all) returns `false` and leaves the whole store unchanged —
the lock remains held by its owner; the record is deleted, and `true`
returned, only when the stored value equals `t`, and even then no other
key is touched. -/
theorem C6_release_frame (st : LockStore) (resource t : String) :
    (st.store (lockKey resource) ≠ some t →
      releaseLock st resource t = (false, st)) ∧
    (st.store (lockKey resource) = some t →
      (releaseLock st resource t).1 = true ∧
      (releaseLock st resource t).2.store (lockKey resource) = none ∧
      ∀ k, k ≠ lockKey resource →
        (releaseLock st resource t).2.store k = st.store k) := by
  constructor
  · intro hne
    unfold releaseLock
    cases hv : st.store (lockKey resource) with
    | none => rfl
    | some v =>
      have hvt : ¬ v = t := fun h => hne (by rw [hv, h])
      simp [hvt]
  · intro heq
    unfold releaseLock
    rw [heq]
    simp only [if_pos rfl]
    refine ⟨rfl, by simp, ?_⟩
    intro k hk
    simp [hk]

/-- Witness for C6: a store holding `conversation:T` with token `a:1`;
releasing with the wrong token `b:2` is a no-op returning `false`, and
releasing with `a:1` deletes the record and returns `true`. -/
theorem C6_release_frame_witness :
    (releaseLock ⟨fun k => if k = "lock:conversation:T" then some "a:1" else none⟩
        "conversation:T" "b:2"
      = (false, ⟨fun k => if k = "lock:conversation:T" then some "a:1" else none⟩)) ∧
    ((releaseLock ⟨fun k => if k = "lock:conversation:T" then some "a:1" else none⟩
        "conversation:T" "a:1").1 = true ∧
      (releaseLock ⟨fun k => if k = "lock:conversation:T" then some "a:1" else none⟩
        "conversation:T" "a:1").2.store (lockKey "conversation:T") = none) := by
  refine ⟨(C6_release_frame _ "conversation:T" "b:2").1 (by decide), ?_, ?_⟩
  · exact ((C6_release_frame _ "conversation:T" "a:1").2 (by decide)).1
  · exact ((C6_release_frame _ "conversation:T" "a:1").2 (by decide)).2.1

/-! ## Rate limiter theorems -/

theorem append_ne_of_getElem (a b xs ys : List Char) (i : Nat)
    (hia : i < a.length) (hib : i < b.length) (hne : a[i]? ≠ b[i]?) :
    a ++ xs ≠ b ++ ys := by
  intro h
  apply hne
  have h1 : (a ++ xs)[i]? = a[i]? := List.getElem?_append_left hia
  have h2 : (b ++ ys)[i]? = b[i]? := List.getElem?_append_left hib
  rw [← h1, ← h2, h]

/-- A minute key never collides with an hour key (they differ at the 11th
character of their prefixes). -/
theorem minuteKey_ne_hourKey (id1 id2 : String) (n1 n2 : Nat) :
    minuteKey id1 n1 ≠ hourKey id2 n2 := by
  intro h
  have hd := congrArg String.data h
  rw [minuteKey, hourKey, String.data_append, String.data_append] at hd
  exact append_ne_of_getElem _ _ _ _ 10 (by decide) (by decide) (by decide) hd

/-- The full effect of one incrementing `check_rate_limit` call under both
limits: success with both counters read-then-incremented, both counters'
expiry deadlines (re)set to `now + 120` and `now + 7200`, and no other key
touched. -/
theorem checkRateLimit_increment_effect (cfg : RateLimitConfig) (id : String)
    (now : Nat) (st : CounterStore)
    (hm : st.vals (minuteKey id now) < cfg.rpm)
    (hh : st.vals (hourKey id now) < cfg.rph) :
    ∃ st2, checkRateLimit cfg id true now st =
      Except.ok
        ({ allowed := true,
           minuteCount := st.vals (minuteKey id now) + 1,
           minuteLimit := cfg.rpm,
           minuteRemaining := (cfg.rpm : Int) - (st.vals (minuteKey id now) + 1),
           hourCount := st.vals (hourKey id now) + 1,
           hourLimit := cfg.rph,
           hourRemaining := (cfg.rph : Int) - (st.vals (hourKey id now) + 1) },
         st2) ∧
      st2.vals (minuteKey id now) = st.vals (minuteKey id now) + 1 ∧
      st2.vals (hourKey id now) = st.vals (hourKey id now) + 1 ∧
      st2.exp (minuteKey id now) = some (now + 120) ∧
      st2.exp (hourKey id now) = some (now + 7200) ∧
      (∀ k, k ≠ minuteKey id now → k ≠ hourKey id now →
        st2.vals k = st.vals k ∧ st2.exp k = st.exp k) := by
  have h1 : ¬ cfg.rpm ≤ st.vals (minuteKey id now) := by omega
  have h2 : ¬ cfg.rph ≤ st.vals (hourKey id now) := by omega
  have hne : hourKey id now ≠ minuteKey id now :=
    fun h => minuteKey_ne_hourKey id id now now h.symm
  refine ⟨redisExpire (hourKey id now) 7200 now
      (redisIncr (hourKey id now)
        (redisExpire (minuteKey id now) 120 now
          (redisIncr (minuteKey id now) st))), ?_, ?_, ?_, ?_, ?_, ?_⟩
  · simp only [checkRateLimit, h1, h2, if_false, if_true, ite_true, ite_false]
    rfl
  · simp [redisExpire, redisIncr, hne, hne.symm]
  · simp [redisExpire, redisIncr, hne, hne.symm]
  · simp [redisExpire, redisIncr, hne, hne.symm]
  · simp [redisExpire, redisIncr, hne, hne.symm]
  · intro k hk1 hk2
    simp [redisExpire, redisIncr, hk1, hk2]

/-- After `n ≤ rpm ≤ rph` incrementing calls from the empty store, both
counters of the fixed bucket hold exactly `n`. -/
theorem rlIter_counts (cfg : RateLimitConfig) (id : String) (now : Nat)
    (hmh : cfg.rpm ≤ cfg.rph) :
    ∀ n, n ≤ cfg.rpm →
      ∃ st, rlIter cfg id now n = Except.ok st ∧
        st.vals (minuteKey id now) = n ∧ st.vals (hourKey id now) = n := by
  intro n
  induction n with
  | zero =>
    intro _
    exact ⟨CounterStore.empty, rfl, rfl, rfl⟩
  | succ n ih =>
    intro hn
    obtain ⟨st, hst, hmv, hhv⟩ := ih (by omega)
    obtain ⟨st2, hcall, hm2, hh2, _⟩ :=
      checkRateLimit_increment_effect cfg id now st
        (by omega) (by omega)
    refine ⟨st2, ?_, by omega, by omega⟩
    simp only [rlIter, hst, hcall]

/-- **C3.** With the clock fixed inside one minute bucket and a sane
configuration (`0 < Rm ≤ Rh`), the first `Rm` incrementing calls for an
identifier succeed, with `allowed = true` and `minute_remaining`
descending to 0, and the `(Rm+1)`-th call raises `RateLimited` with
`retry_after = 60 − (now mod 60)`, which lies in `(0, 60]`. -/
theorem C3_rate_limit_boundary (cfg : RateLimitConfig) (id : String)
    (now : Nat) (h0 : 0 < cfg.rpm) (hmh : cfg.rpm ≤ cfg.rph) :
    (∀ k, k < cfg.rpm → ∃ info, rlNthResult cfg id now k = Except.ok info ∧
        info.allowed = true ∧
        info.minuteRemaining = (cfg.rpm : Int) - (k + 1)) ∧
    ∃ e, rlNthResult cfg id now cfg.rpm = Except.error e ∧
      e.retryAfter = 60 - now % 60 ∧ 0 < e.retryAfter ∧ e.retryAfter ≤ 60 := by
  constructor
  · intro k hk
    obtain ⟨st, hst, hmv, hhv⟩ := rlIter_counts cfg id now hmh k (by omega)
    obtain ⟨st2, hcall, _⟩ :=
      checkRateLimit_increment_effect cfg id now st (by omega) (by omega)
    have hres : rlNthResult cfg id now k = Except.ok
        { allowed := true,
          minuteCount := st.vals (minuteKey id now) + 1,
          minuteLimit := cfg.rpm,
          minuteRemaining := (cfg.rpm : Int) - (st.vals (minuteKey id now) + 1),
          hourCount := st.vals (hourKey id now) + 1,
          hourLimit := cfg.rph,
          hourRemaining := (cfg.rph : Int) - (st.vals (hourKey id now) + 1) } := by
      simp only [rlNthResult, hst, hcall]
    exact ⟨_, hres, rfl, by simp [hmv]⟩
  · obtain ⟨st, hst, hmv, hhv⟩ :=
      rlIter_counts cfg id now hmh cfg.rpm (le_refl _)
    have hfail : checkRateLimit cfg id true now st
        = Except.error ⟨60 - now % 60⟩ := by
      simp only [checkRateLimit, hmv, le_refl, if_true, ite_true]
    have hmod : now % 60 < 60 := Nat.mod_lt _ (by omega)
    refine ⟨⟨60 - now % 60⟩, ?_, rfl,
      by show 0 < 60 - now % 60; omega,
      by show 60 - now % 60 ≤ 60; omega⟩
    simp only [rlNthResult, hst, hfail]

/-- Witness for C3 at `Rm = 3`, `Rh = 100`, identifier `user:X`, `now = 0`:
the third call succeeds with `minute_remaining = 0` and the fourth raises
`RateLimited` with `retry_after = 60`. -/
theorem C3_rate_limit_boundary_witness :
    (∃ info, rlNthResult ⟨3, 100⟩ "user:X" 0 2 = Except.ok info ∧
      info.allowed = true ∧ info.minuteRemaining = (3 : Int) - (2 + 1)) ∧
    (∃ e, rlNthResult ⟨3, 100⟩ "user:X" 0 3 = Except.error e ∧
      e.retryAfter = 60 - 0 % 60 ∧ 0 < e.retryAfter ∧ e.retryAfter ≤ 60) := by
  have h := C3_rate_limit_boundary ⟨3, 100⟩ "user:X" 0 (by decide) (by decide)
  exact ⟨h.1 2 (by decide), h.2⟩

/-- **C7 (counterexample).** The expiry is *not* set only on the first
increment of a bucket: a second incrementing call in the same minute
bucket, 30 seconds later, moves the minute key's deadline from 120 to 150
(the remaining TTL is refreshed from 90 back to the full 120 seconds),
because the code runs `EXPIRE` on every increment. -/
theorem C7_counterexample :
    ((checkRateLimit ⟨30, 500⟩ "user:X" true 0 CounterStore.empty).toOption.map
        (fun r => r.2.exp (minuteKey "user:X" 0)) = some (some 120)) ∧
    (((checkRateLimit ⟨30, 500⟩ "user:X" true 0 CounterStore.empty).toOption.bind
        (fun r1 => (checkRateLimit ⟨30, 500⟩ "user:X" true 30 r1.2).toOption.map
          (fun r2 => r2.2.exp (minuteKey "user:X" 30))))
      = some (some 150)) ∧
    minuteKey "user:X" 30 = minuteKey "user:X" 0 ∧
    some (150 : Nat) ≠ some (120 : Nat) := by
  decide

/-- **C7 (amended).** When `check_rate_limit` is called with
`increment = true` under both limits, it atomically increments both the
minute and the hour counter, and on *every* such increment it (re)sets the
key expiries to twice the window — deadline `now + 120` for the minute key
and `now + 7200` for the hour key — refreshing any TTL the keys already
had; no other key is touched. -/
theorem C7_increment_expiry (cfg : RateLimitConfig) (id : String)
    (now : Nat) (st : CounterStore)
    (hm : st.vals (minuteKey id now) < cfg.rpm)
    (hh : st.vals (hourKey id now) < cfg.rph) :
    ∃ st2, checkRateLimit cfg id true now st =
      Except.ok
        ({ allowed := true,
           minuteCount := st.vals (minuteKey id now) + 1,
           minuteLimit := cfg.rpm,
           minuteRemaining := (cfg.rpm : Int) - (st.vals (minuteKey id now) + 1),
           hourCount := st.vals (hourKey id now) + 1,
           hourLimit := cfg.rph,
           hourRemaining := (cfg.rph : Int) - (st.vals (hourKey id now) + 1) },
         st2) ∧
      st2.vals (minuteKey id now) = st.vals (minuteKey id now) + 1 ∧
      st2.vals (hourKey id now) = st.vals (hourKey id now) + 1 ∧
      st2.exp (minuteKey id now) = some (now + 120) ∧
      st2.exp (hourKey id now) = some (now + 7200) ∧
      (∀ k, k ≠ minuteKey id now → k ≠ hourKey id now →
        st2.vals k = st.vals k ∧ st2.exp k = st.exp k) :=
  checkRateLimit_increment_effect cfg id now st hm hh

/-- Witness for the amended C7: the very first call for `user:X` at
`now = 30` sets the minute deadline 150 and increments both counters. -/
theorem C7_increment_expiry_witness :
    ∃ st2, checkRateLimit ⟨30, 500⟩ "user:X" true 30 CounterStore.empty =
      Except.ok
        ({ allowed := true, minuteCount := 0 + 1, minuteLimit := 30,
           minuteRemaining := (30 : Int) - (0 + 1),
           hourCount := 0 + 1, hourLimit := 500,
           hourRemaining := (500 : Int) - (0 + 1) }, st2) ∧
      st2.vals (minuteKey "user:X" 30) = 0 + 1 ∧
      st2.vals (hourKey "user:X" 30) = 0 + 1 ∧
      st2.exp (minuteKey "user:X" 30) = some (30 + 120) ∧
      st2.exp (hourKey "user:X" 30) = some (30 + 7200) ∧
      (∀ k, k ≠ minuteKey "user:X" 30 → k ≠ hourKey "user:X" 30 →
        st2.vals k = CounterStore.empty.vals k ∧
        st2.exp k = CounterStore.empty.exp k) :=
  C7_increment_expiry ⟨30, 500⟩ "user:X" 30 CounterStore.empty
    (by decide) (by decide)

/-! ## Stable sort lemmas and memory retrieval theorems -/

theorem mem_insertDescBy {α : Type} (key : α → ℚ) (a x : α) (l : List α) :
    x ∈ insertDescBy key a l ↔ x = a ∨ x ∈ l := by
  induction l with
  | nil => simp [insertDescBy]
  | cons b bs ih =>
    unfold insertDescBy
    split
    · simp
    · simp [ih]
      tauto

theorem perm_insertDescBy {α : Type} (key : α → ℚ) (a : α) (l : List α) :
    List.Perm (insertDescBy key a l) (a :: l) := by
  induction l with
  | nil => exact List.Perm.refl _
  | cons b bs ih =>
    unfold insertDescBy
    split
    · exact List.Perm.refl _
    · exact (List.Perm.cons b ih).trans (List.Perm.swap a b bs)

theorem perm_sortDescBy {α : Type} (key : α → ℚ) (l : List α) :
    List.Perm (sortDescBy key l) l := by
  induction l with
  | nil => exact List.Perm.refl _
  | cons a as ih =>
    exact (perm_insertDescBy key a (sortDescBy key as)).trans (List.Perm.cons a ih)

theorem pairwise_insertDescBy {α : Type} (key : α → ℚ) (a : α) (l : List α)
    (h : l.Pairwise (fun x y => key y ≤ key x)) :
    (insertDescBy key a l).Pairwise (fun x y => key y ≤ key x) := by
  induction l with
  | nil => simp [insertDescBy]
  | cons b bs ih =>
    rw [List.pairwise_cons] at h
    unfold insertDescBy
    split
    case isTrue hba =>
      rw [List.pairwise_cons]
      refine ⟨?_, List.pairwise_cons.2 h⟩
      intro x hx
      rcases List.mem_cons.1 hx with hxb | hxbs
      · exact hxb ▸ hba
      · exact (h.1 x hxbs).trans hba
    case isFalse hba =>
      rw [List.pairwise_cons]
      refine ⟨?_, ih h.2⟩
      intro x hx
      rcases (mem_insertDescBy key a x bs).1 hx with hxa | hxbs
      · exact hxa ▸ le_of_lt (lt_of_not_le hba)
      · exact h.1 x hxbs

theorem pairwise_sortDescBy {α : Type} (key : α → ℚ) (l : List α) :
    (sortDescBy key l).Pairwise (fun x y => key y ≤ key x) := by
  induction l with
  | nil => simp [sortDescBy]
  | cons a as ih => exact pairwise_insertDescBy key a _ ih

theorem map_insertDescBy {α β : Type} (key : α → ℚ) (keyB : β → ℚ)
    (f : α → β) (hf : ∀ x, keyB (f x) = key x) (a : α) (l : List α) :
    (insertDescBy key a l).map f = insertDescBy keyB (f a) (l.map f) := by
  induction l with
  | nil => simp [insertDescBy]
  | cons b bs ih =>
    simp only [insertDescBy, List.map_cons]
    by_cases hc : key b ≤ key a
    · rw [if_pos hc,
        if_pos (show keyB (f b) ≤ keyB (f a) by rw [hf, hf]; exact hc)]
      simp
    · rw [if_neg hc,
        if_neg (show ¬ keyB (f b) ≤ keyB (f a) by rw [hf, hf]; exact hc)]
      rw [List.map_cons, ih]

theorem map_sortDescBy {α β : Type} (key : α → ℚ) (keyB : β → ℚ)
    (f : α → β) (hf : ∀ x, keyB (f x) = key x) (l : List α) :
    (sortDescBy key l).map f = sortDescBy keyB (l.map f) := by
  induction l with
  | nil => simp [sortDescBy]
  | cons a as ih =>
    unfold sortDescBy
    rw [List.map_cons, map_insertDescBy key keyB f hf, ih]

/-- The combined score of the source equals the score formula as the
specification words it. -/
theorem combinedScore_eq_spec (cfg : RetrievalConfig) (now : ℚ)
    (m : MemRecord) : combinedScore cfg now m = specCombinedScore cfg now m := by
  unfold combinedScore specCombinedScore
  cases m.createdAt with
  | none =>
    simp only
    split <;> ring
  | some t =>
    simp only
    rw [mul_comm (cfg.recencyWindowHours : ℚ) 7]
    split <;> ring

theorem rankMemories_eq_map_sort (cfg : RetrievalConfig) (now : ℚ)
    (ms : List MemRecord) :
    rankMemories cfg now ms =
      sortDescBy (fun m => m.score)
        (ms.map fun m => { m with score := combinedScore cfg now m }) := by
  unfold rankMemories
  split
  case isTrue h =>
    rw [List.isEmpty_iff] at h
    subst h
    simp [sortDescBy]
  case isFalse h =>
    show List.map (fun p => { p.1 with score := p.2 })
        (sortDescBy (fun p => p.2)
          (ms.map fun m => (m, combinedScore cfg now m))) = _
    rw [map_sortDescBy (α := MemRecord × ℚ) (β := MemRecord)
      (fun p => p.2) (fun m => m.score)
      (fun p => { p.1 with score := p.2 }) (fun p => rfl)
      (ms.map fun m => (m, combinedScore cfg now m))]
    rw [List.map_map]
    rfl

/-- **C8.** Retrieval ranking: the default configuration carries weights
0.8/0.2 and `max_memories = 5`; ranking assigns every memory the combined
score `w_r·relevance + w_t·recency` with
`recency = max(0, 1 − age_hours/(7·recency_window))` (0.5 without a
timestamp) boosted ×1.2 for Preference memories, sorts stably descending
by that score, and the retrieval result is the top `max_memories` of that
ordering (so its scores are descending, it is as long as possible, and the
ranked list is exactly the rescored input re-ordered). -/
theorem C8_retrieval_ranking (cfg : RetrievalConfig) (now : ℚ)
    (ms : List MemRecord) :
    (defaultRetrievalConfig.maxMemories = 5 ∧
      defaultRetrievalConfig.relevanceWeight = 4/5 ∧
      defaultRetrievalConfig.recencyWeight = 1/5) ∧
    retrieveTop cfg now ms = specRankedTop cfg now ms ∧
    (retrieveTop cfg now ms).Pairwise (fun a b => b.score ≤ a.score) ∧
    List.Perm (rankMemories cfg now ms)
      (ms.map fun m => { m with score := combinedScore cfg now m }) ∧
    (retrieveTop cfg now ms).length = min cfg.maxMemories ms.length := by
  have hrank := rankMemories_eq_map_sort cfg now ms
  have hspec : retrieveTop cfg now ms = specRankedTop cfg now ms := by
    unfold retrieveTop specRankedTop
    rw [hrank]
    congr 1
    congr 1
    exact List.map_congr_left fun m _ => by rw [combinedScore_eq_spec]
  refine ⟨⟨rfl, rfl, rfl⟩, hspec, ?_, ?_, ?_⟩
  · unfold retrieveTop
    rw [hrank]
    exact (pairwise_sortDescBy _ _).sublist (List.take_sublist _ _)
  · rw [hrank]
    exact perm_sortDescBy _ _
  · unfold retrieveTop
    rw [List.length_take, hrank,
      (perm_sortDescBy (α := MemRecord) (fun m => m.score)
        (ms.map fun m => { m with score := combinedScore cfg now m })).length_eq,
      List.length_map]

/-! ## Observer aggregation theorems -/

theorem mem_insertAscBy {α : Type} (key : α → ℚ) (a x : α) (l : List α) :
    x ∈ insertAscBy key a l ↔ x = a ∨ x ∈ l := by
  induction l with
  | nil => simp [insertAscBy]
  | cons b bs ih =>
    unfold insertAscBy
    split
    · simp
    · simp [ih]
      tauto

theorem perm_insertAscBy {α : Type} (key : α → ℚ) (a : α) (l : List α) :
    List.Perm (insertAscBy key a l) (a :: l) := by
  induction l with
  | nil => exact List.Perm.refl _
  | cons b bs ih =>
    unfold insertAscBy
    split
    · exact List.Perm.refl _
    · exact (List.Perm.cons b ih).trans (List.Perm.swap a b bs)

theorem perm_sortAscBy {α : Type} (key : α → ℚ) (l : List α) :
    List.Perm (sortAscBy key l) l := by
  induction l with
  | nil => exact List.Perm.refl _
  | cons a as ih =>
    exact (perm_insertAscBy key a (sortAscBy key as)).trans (List.Perm.cons a ih)

theorem pairwise_insertAscBy {α : Type} (key : α → ℚ) (a : α) (l : List α)
    (h : l.Pairwise (fun x y => key x ≤ key y)) :
    (insertAscBy key a l).Pairwise (fun x y => key x ≤ key y) := by
  induction l with
  | nil => simp [insertAscBy]
  | cons b bs ih =>
    rw [List.pairwise_cons] at h
    unfold insertAscBy
    split
    case isTrue hab =>
      rw [List.pairwise_cons]
      refine ⟨?_, List.pairwise_cons.2 h⟩
      intro x hx
      rcases List.mem_cons.1 hx with hxb | hxbs
      · exact hxb ▸ hab
      · exact hab.trans (h.1 x hxbs)
    case isFalse hab =>
      rw [List.pairwise_cons]
      refine ⟨?_, ih h.2⟩
      intro x hx
      rcases (mem_insertAscBy key a x bs).1 hx with hxa | hxbs
      · exact hxa ▸ le_of_lt (lt_of_not_le hab)
      · exact h.1 x hxbs

theorem pairwise_sortAscBy {α : Type} (key : α → ℚ) (l : List α) :
    (sortAscBy key l).Pairwise (fun x y => key x ≤ key y) := by
  induction l with
  | nil => simp [sortAscBy]
  | cons a as ih => exact pairwise_insertAscBy key a _ ih

/-- In an ascending-sorted rational list, entries at increasing in-range
indices are increasing. -/
theorem sorted_getD_mono (l : List ℚ)
    (h : l.Pairwise (fun x y => x ≤ y)) (i j : Nat) (hij : i ≤ j)
    (hj : j < l.length) : l.getD i 0 ≤ l.getD j 0 := by
  rcases Nat.lt_or_ge i j with hlt | hge
  · rw [List.getD_eq_getElem l 0 (lt_of_le_of_lt hij hj),
      List.getD_eq_getElem l 0 hj]
    exact (List.pairwise_iff_getElem.1 h) i j _ _ hlt
  · have : i = j := by omega
    rw [this]

theorem round2_mono {a b : ℚ} (h : a ≤ b) : round2 a ≤ round2 b := by
  unfold round2
  have h1 : round (a * 100) ≤ round (b * 100) := by
    rw [round_eq, round_eq]
    exact Int.floor_le_floor (by linarith)
  have h2 : ((round (a * 100) : ℤ) : ℚ) ≤ ((round (b * 100) : ℤ) : ℚ) := by
    exact_mod_cast h1
  linarith

theorem latencyBuffer_handleError (ev : AgentEvent) (st : ObserverState) :
    (handleError ev st).1.latencyBuffer = st.latencyBuffer ∧
    (handleError ev st).1.apiCallCounts = st.apiCallCounts := by
  have hfst : ∀ (c : Prop) (inst : Decidable c) (a : ObserverState)
      (x y : List ObsAlert), (@ite _ c inst (a, x) (a, y)).1 = a := by
    intro c inst a x y
    split <;> rfl
  unfold handleError
  dsimp only
  constructor <;> rw [hfst]

/-- `analyze_and_report` on a buffer of exactly 100 samples: the report
carries the average and the 50th/95th/99th entries of the sorted buffer,
and the state is fully reset. -/
theorem analyzeAndReport_at_100 (st : ObserverState)
    (h : st.latencyBuffer.length = 100) :
    analyzeAndReport st =
      (ObserverState.empty,
       some { avgLatencyMs := round2 (st.latencyBuffer.sum / 100),
              p50LatencyMs :=
                round2 ((sortAscBy (fun x => x) st.latencyBuffer).getD 50 0),
              p95LatencyMs :=
                round2 ((sortAscBy (fun x => x) st.latencyBuffer).getD 95 0),
              p99LatencyMs :=
                round2 ((sortAscBy (fun x => x) st.latencyBuffer).getD 99 0),
              totalEvents := 100 }) := by
  have hne : ¬ st.latencyBuffer.isEmpty = true := by
    rw [List.isEmpty_iff]
    intro hempty
    rw [hempty] at h
    simp at h
  have hi95 : (⌊(100 : ℚ) * (95/100)⌋).toNat = 95 := by
    rw [show ((100 : ℚ) * (95/100)) = (95:ℚ) from by norm_num,
      show ⌊(95:ℚ)⌋ = 95 from by norm_num]
    decide
  have hi99 : (⌊(100 : ℚ) * (99/100)⌋).toNat = 99 := by
    rw [show ((100 : ℚ) * (99/100)) = (99:ℚ) from by norm_num,
      show ⌊(99:ℚ)⌋ = 99 from by norm_num]
    decide
  have h50 : (100 : Nat) / 2 = 50 := by norm_num
  unfold analyzeAndReport
  rw [if_neg hne]
  simp only [h, Nat.cast_ofNat, h50, hi95, hi99]

/-- **C9.** When an event carrying a (truthy) latency sample arrives with
99 samples already buffered — the moment the buffer reaches 100 — the
observer emits exactly one summary report whose metrics are the average
and the p50/p95/p99 order statistics (indices 50, 95, 99 of the
ascending-sorted buffer, hence `p50 ≤ p95 ≤ p99`), and then resets the
error counts, the API-call counts and the latency buffer to empty. -/
theorem C9_observer_aggregation (anomaly : Bool) (ev : AgentEvent)
    (st : ObserverState) (l : ℚ) (hbuf : st.latencyBuffer.length = 99)
    (hlat : ev.latencyMs = some l) (hl0 : l ≠ 0) :
    ∃ (st2 : ObserverState) (alerts : List ObsAlert),
      processEvent anomaly ev st = (st2, alerts,
        [{ avgLatencyMs := round2 ((st.latencyBuffer ++ [l]).sum / 100),
           p50LatencyMs :=
             round2 ((sortAscBy (fun x => x) (st.latencyBuffer ++ [l])).getD 50 0),
           p95LatencyMs :=
             round2 ((sortAscBy (fun x => x) (st.latencyBuffer ++ [l])).getD 95 0),
           p99LatencyMs :=
             round2 ((sortAscBy (fun x => x) (st.latencyBuffer ++ [l])).getD 99 0),
           totalEvents := 100 }]) ∧
      st2.latencyBuffer = [] ∧
      st2.errorCounts = (fun _ => 0) ∧
      st2.apiCallCounts = (fun _ => 0) ∧
      round2 ((sortAscBy (fun x => x) (st.latencyBuffer ++ [l])).getD 50 0)
        ≤ round2 ((sortAscBy (fun x => x) (st.latencyBuffer ++ [l])).getD 95 0) ∧
      round2 ((sortAscBy (fun x => x) (st.latencyBuffer ++ [l])).getD 95 0)
        ≤ round2 ((sortAscBy (fun x => x) (st.latencyBuffer ++ [l])).getD 99 0) := by
  unfold processEvent
  set r1 := if ev.eventType = EventType.errorOccurred then handleError ev st
    else (st, ([] : List ObsAlert)) with hr1
  have hb1 : r1.1.latencyBuffer = st.latencyBuffer := by
    rw [hr1]
    split
    · exact (latencyBuffer_handleError ev st).1
    · rfl
  rw [hlat]
  simp only [hl0, if_true, ite_true, if_neg, ne_eq, not_false_iff]
  set stB := { r1.1 with latencyBuffer := r1.1.latencyBuffer ++ [l] } with hstB
  set stC := if ev.eventType = EventType.naverApiCalled then
      { stB with apiCallCounts := fun k =>
          if k = pyDictGet ev.payload "api_type" "unknown" then
            stB.apiCallCounts k + 1
          else stB.apiCallCounts k }
    else stB with hstC
  have hbC : stC.latencyBuffer = st.latencyBuffer ++ [l] := by
    rw [hstC]
    split
    · show stB.latencyBuffer = _
      rw [hstB]
      show r1.1.latencyBuffer ++ [l] = _
      rw [hb1]
    · rw [hstB]
      show r1.1.latencyBuffer ++ [l] = _
      rw [hb1]
  have hlen : stC.latencyBuffer.length = 100 := by
    rw [hbC, List.length_append, hbuf]
    rfl
  rw [if_pos (by rw [hlen])]
  rw [analyzeAndReport_at_100 stC hlen]
  have hsorted := pairwise_sortAscBy (fun x => x) stC.latencyBuffer
  have hslen : (sortAscBy (fun x => x) stC.latencyBuffer).length = 100 := by
    rw [(perm_sortAscBy (fun x => x) stC.latencyBuffer).length_eq, hlen]
  refine ⟨ObserverState.empty,
    r1.2 ++ (if anomaly = true then detectAnomalies ev else []),
    ?_, rfl, rfl, rfl, ?_, ?_⟩
  · rw [hbC]
    rfl
  · rw [← hbC]
    exact round2_mono (sorted_getD_mono _ hsorted 50 95 (by omega) (by omega))
  · rw [← hbC]
    exact round2_mono (sorted_getD_mono _ hsorted 95 99 (by omega) (by omega))

/-- Witness for C9: 99 buffered samples of 100 ms and a `REQUEST_COMPLETED`
event with 200 ms latency trigger one report and a full reset. -/
theorem C9_observer_aggregation_witness :
    ∃ (st2 : ObserverState) (alerts : List ObsAlert),
      processEvent false
        ⟨EventType.requestCompleted, "t1", none, [], some 200, none, none⟩
        ⟨fun _ => 0, List.replicate 99 (100 : ℚ), fun _ => 0⟩ = (st2, alerts,
        [{ avgLatencyMs :=
             round2 ((List.replicate 99 (100 : ℚ) ++ [(200 : ℚ)]).sum / 100),
           p50LatencyMs := round2 ((sortAscBy (fun x => x)
             (List.replicate 99 (100 : ℚ) ++ [(200 : ℚ)])).getD 50 0),
           p95LatencyMs := round2 ((sortAscBy (fun x => x)
             (List.replicate 99 (100 : ℚ) ++ [(200 : ℚ)])).getD 95 0),
           p99LatencyMs := round2 ((sortAscBy (fun x => x)
             (List.replicate 99 (100 : ℚ) ++ [(200 : ℚ)])).getD 99 0),
           totalEvents := 100 }]) ∧
      st2.latencyBuffer = [] ∧
      st2.errorCounts = (fun _ => 0) ∧
      st2.apiCallCounts = (fun _ => 0) ∧
      round2 ((sortAscBy (fun x => x)
          (List.replicate 99 (100 : ℚ) ++ [(200 : ℚ)])).getD 50 0)
        ≤ round2 ((sortAscBy (fun x => x)
          (List.replicate 99 (100 : ℚ) ++ [(200 : ℚ)])).getD 95 0) ∧
      round2 ((sortAscBy (fun x => x)
          (List.replicate 99 (100 : ℚ) ++ [(200 : ℚ)])).getD 95 0)
        ≤ round2 ((sortAscBy (fun x => x)
          (List.replicate 99 (100 : ℚ) ++ [(200 : ℚ)])).getD 99 0) :=
  C9_observer_aggregation false
    ⟨EventType.requestCompleted, "t1", none, [], some 200, none, none⟩
    ⟨fun _ => 0, List.replicate 99 (100 : ℚ), fun _ => 0⟩ 200
    (by simp) rfl (by norm_num)

/-! ## Summarization fallback theorems -/

/-- **C4 (counterexample).** With one removed assistant message of ten
`z`s and an LLM that always fails, every strategy fails (extractive finds
no keywords and no user turn; truncation needs more than 4 messages), and
the pass returns the original messages with `summarization_failed` set —
but its emitted event list is empty: no `SUMMARIZATION_FALLBACK` event
exists anywhere in the middleware, so the claimed event emission is false. -/
theorem C4_counterexample :
    summarizationProcess ctFallback (fun _ => none)
        [⟨Role.user, "hi"⟩] [⟨Role.assistant, "zzzzzzzzzz"⟩] =
      { messages := [⟨Role.user, "hi"⟩], summary := none, performed := false,
        failed := true, summaryTokenCount := 0, messagesSummarized := 0,
        events := [] } ∧
    EventType.summarizationFallback ∉
      (summarizationProcess ctFallback (fun _ => none)
        [⟨Role.user, "hi"⟩] [⟨Role.assistant, "zzzzzzzzzz"⟩]).events := by
  decide

/-- **C4 (amended).** For every nonempty removed-message list, if every
summarization strategy fails (full LLM, reduced LLM, extractive,
truncation), the summarize pass sets `summarization_failed` in the state
and returns the original message list unchanged, emitting *no* event (in
particular no `SUMMARIZATION_FALLBACK` event); being a total function of
its inputs, it never raises, so the turn never fails because of
summarization. -/
theorem C4_summarization_total_failure (ct : String → Nat)
    (llm : String → Option String) (messages removed : List Msg)
    (hne : removed ≠ [])
    (h1 : llmSummarize ct llm removed = none)
    (h2 : llmSummarize ct llm (removed.drop (removed.length / 2)) = none)
    (h3 : extractiveSummarize removed = none)
    (h4 : truncationFallback removed = none) :
    summarizationProcess ct llm messages removed =
      { messages := messages, summary := none, performed := false,
        failed := true, summaryTokenCount := 0, messagesSummarized := 0,
        events := [] } ∧
    EventType.summarizationFallback ∉
      (summarizationProcess ct llm messages removed).events := by
  have hswf : summarizeWithFallback ct llm removed = none := by
    unfold summarizeWithFallback
    rw [h1, h2, h3, h4]
  have hnotE : ¬ removed.isEmpty = true := by
    cases removed with
    | nil => exact absurd rfl hne
    | cons a as => simp
  have hres : summarizationProcess ct llm messages removed =
      { messages := messages, summary := none, performed := false,
        failed := true, summaryTokenCount := 0, messagesSummarized := 0,
        events := [] } := by
    unfold summarizationProcess
    rw [if_neg hnotE, hswf]
  refine ⟨hres, ?_⟩
  rw [hres]
  simp

/-- Witness for the amended C4 at the counterexample's concrete input. -/
theorem C4_summarization_total_failure_witness :
    summarizationProcess ctFallback (fun _ => none)
        [⟨Role.user, "hey"⟩] [⟨Role.assistant, "qqqqqqqq"⟩] =
      { messages := [⟨Role.user, "hey"⟩], summary := none, performed := false,
        failed := true, summaryTokenCount := 0, messagesSummarized := 0,
        events := [] } ∧
    EventType.summarizationFallback ∉
      (summarizationProcess ctFallback (fun _ => none)
        [⟨Role.user, "hey"⟩] [⟨Role.assistant, "qqqqqqqq"⟩]).events :=
  C4_summarization_total_failure ctFallback (fun _ => none)
    [⟨Role.user, "hey"⟩] [⟨Role.assistant, "qqqqqqqq"⟩]
    (by decide) (by decide) (by decide) (by decide) (by decide)

/-! ## Input validation: list infrastructure

Decomposition lemmas for matches and replacements.  Throughout, `<+:` is
"is a prefix", `<:+` "is a suffix" and `<:+:` "is a contiguous infix". -/

open List

theorem lstarts_iff (a : List Char) : ∀ b, lstarts a b = true ↔ a <+: b := by
  induction a with
  | nil => intro b; simp [lstarts]
  | cons x xs ih =>
    intro b
    cases b with
    | nil => simp [lstarts]
    | cons y ys =>
      simp only [lstarts, Bool.and_eq_true, beq_iff_eq, List.cons_prefix_cons]
      rw [ih]

theorem containsSub_iff (w : List Char) :
    ∀ s, containsSub w s = true ↔ w <:+: s := by
  intro s
  induction s with
  | nil =>
    cases w with
    | nil => simp [containsSub, lstarts]
    | cons a as => simp [containsSub, lstarts]
  | cons c cs ih =>
    simp only [containsSub, Bool.or_eq_true, lstarts_iff, ih,
      List.infix_cons_iff]

theorem prefix_cons_cases {w X : List Char} {a : Char} (h : w <+: a :: X) :
    w = [] ∨ ∃ w2, w = a :: w2 ∧ w2 <+: X := by
  cases w with
  | nil => exact Or.inl rfl
  | cons b bs =>
    rw [List.cons_prefix_cons] at h
    exact Or.inr ⟨bs, by rw [h.1], h.2⟩

theorem prefix_append_cases {A B w : List Char} (h : w <+: A ++ B) :
    w <+: A ∨ ∃ w2, w = A ++ w2 ∧ w2 <+: B := by
  induction A generalizing w with
  | nil => exact Or.inr ⟨w, rfl, h⟩
  | cons a A ih =>
    rcases prefix_cons_cases h with hnil | ⟨w2, hw, hw2⟩
    · exact Or.inl (hnil ▸ List.nil_prefix)
    · rcases ih hw2 with h1 | ⟨w3, hw3, hw3p⟩
      · exact Or.inl (by rw [hw, List.cons_prefix_cons]; exact ⟨rfl, h1⟩)
      · exact Or.inr ⟨w3, by rw [hw, hw3]; rfl, hw3p⟩

theorem suffix_append_cases {A B w : List Char} (h : w <:+ A ++ B) :
    w <:+ B ∨ ∃ w1, w = w1 ++ B ∧ w1 <:+ A := by
  rw [← List.reverse_prefix] at h
  rw [List.reverse_append] at h
  rcases prefix_append_cases h with h1 | ⟨w2, hw, hw2⟩
  · left
    rwa [List.reverse_prefix] at h1
  · right
    refine ⟨w2.reverse, ?_, ?_⟩
    · have := congrArg List.reverse hw
      rw [List.reverse_reverse, List.reverse_append, List.reverse_reverse] at this
      exact this
    · rwa [← List.reverse_prefix, List.reverse_reverse]

theorem infix_append_cases {A B w : List Char} (h : w <:+: A ++ B) :
    w <:+: A ∨ w <:+: B ∨
      ∃ w1 w2, w = w1 ++ w2 ∧ w1 ≠ [] ∧ w2 ≠ [] ∧ w1 <:+ A ∧ w2 <+: B := by
  induction A generalizing w with
  | nil => exact Or.inr (Or.inl h)
  | cons a A ih =>
    rw [List.cons_append, List.infix_cons_iff] at h
    rcases h with hpre | hinf
    · rcases prefix_cons_cases hpre with hnil | ⟨w2, hw, hw2⟩
      · exact Or.inl (hnil ▸ (List.nil_prefix).isInfix)
      · rcases prefix_append_cases hw2 with h1 | ⟨w3, hw3, hw3p⟩
        · refine Or.inl ?_
          have : w <+: a :: A := by rw [hw, List.cons_prefix_cons]; exact ⟨rfl, h1⟩
          exact this.isInfix
        · cases w3 with
          | nil =>
            refine Or.inl ?_
            have : w = a :: A := by rw [hw, hw3, List.append_nil]
            rw [this]
          | cons b bs =>
            refine Or.inr (Or.inr ⟨a :: A, b :: bs, ?_, by simp, by simp,
              List.suffix_refl _, hw3p⟩)
            rw [hw, hw3]
            rfl
    · rcases ih hinf with h1 | h2 | ⟨w1, w2, hw, hw1, hw2, hs, hp⟩
      · exact Or.inl (List.infix_cons h1)
      · exact Or.inr (Or.inl h2)
      · exact Or.inr (Or.inr ⟨w1, w2, hw, hw1, hw2,
          hs.trans (List.suffix_cons _ _), hp⟩)

/-- A nonempty suffix of a list ending in `x` contains `x`. -/
theorem mem_of_suffix_concat {w X : List Char} {x : Char}
    (h : w <:+ X ++ [x]) (hne : w ≠ []) : x ∈ w := by
  rw [← List.reverse_prefix, List.reverse_append] at h
  rcases prefix_cons_cases h with hnil | ⟨w2, hw, _⟩
  · exact absurd (by simpa using congrArg List.reverse hnil) hne
  · have : x ∈ w.reverse := by rw [hw]; exact List.mem_cons_self _ _
    rwa [List.mem_reverse] at this

/-- A suffix glued to a prefix is an infix of the concatenation. -/
theorem suffix_append_prefix_infix {a X b Y : List Char}
    (ha : a <:+ X) (hb : b <+: Y) : a ++ b <:+: X ++ Y := by
  obtain ⟨t, ht⟩ := ha
  obtain ⟨u, hu⟩ := hb
  exact ⟨t, u, by rw [← ht, ← hu]; simp⟩

/-! ## Input validation: matcher window theory

A successful `matchSome` consumes a prefix of the text that `matchExact`
accepts, so `searchPat` finds a pattern exactly when some infix window
matches it exactly; every character of such a window is either (the
original of) a literal character or whitespace, so windows never contain
the characters `&` and `;` that escaping introduces. -/

theorem litAt_decomp {a t t2 : List Char} (h : litAt a t = some t2) :
    ∃ w, t = w ++ t2 ∧ litAt a w = some [] := by
  induction a generalizing t with
  | nil =>
    refine ⟨[], ?_, rfl⟩
    unfold litAt at h
    exact (Option.some.injEq _ _ ▸ h).symm ▸ rfl
  | cons p ps ih =>
    cases t with
    | nil => exact absurd h (by simp [litAt])
    | cons c cs =>
      unfold litAt at h
      split at h
      case isTrue hc =>
        obtain ⟨w, hw, hww⟩ := ih h
        refine ⟨c :: w, by rw [hw]; rfl, ?_⟩
        unfold litAt
        rw [if_pos hc]
        exact hww
      case isFalse hc => exact absurd h (by simp)

theorem litAt_extend {a : List Char} :
    ∀ {w : List Char}, litAt a w = some [] → ∀ r, litAt a (w ++ r) = some r := by
  induction a with
  | nil =>
    intro w h r
    have hw : w = [] := by
      unfold litAt at h
      exact (Option.some.injEq _ _ ▸ h)
    rw [hw]
    rfl
  | cons p ps ih =>
    intro w h r
    cases w with
    | nil => exact absurd h (by simp [litAt])
    | cons c cs =>
      unfold litAt at h
      split at h
      case isTrue hc =>
        rw [List.cons_append]
        unfold litAt
        rw [if_pos hc]
        exact ih h r
      case isFalse hc => exact absurd h (by simp)

theorem litAt_chars {a : List Char} :
    ∀ {w : List Char}, litAt a w = some [] → w.map lowerA = a := by
  induction a with
  | nil =>
    intro w h
    have hw : w = [] := by
      unfold litAt at h
      exact (Option.some.injEq _ _ ▸ h)
    rw [hw]
    rfl
  | cons p ps ih =>
    intro w h
    cases w with
    | nil => exact absurd h (by simp [litAt])
    | cons c cs =>
      unfold litAt at h
      split at h
      case isTrue hc =>
        rw [List.map_cons, ih h]
        rw [beq_iff_eq] at hc
        rw [hc]
      case isFalse hc => exact absurd h (by simp)

theorem self_mem_wsTails_zero (r : List Char) : r ∈ wsTails 0 r := by
  cases r with
  | nil => exact List.mem_singleton.2 rfl
  | cons c cs => exact List.mem_cons_self _ _

theorem wsTails_decomp :
    ∀ {t : List Char} {m : Nat} {t2 : List Char}, t2 ∈ wsTails m t →
      ∃ w, t = w ++ t2 ∧ [] ∈ wsTails m w ∧ ∀ c ∈ w, wsChar c = true := by
  intro t
  induction t with
  | nil =>
    intro m t2 h
    cases m with
    | zero =>
      refine ⟨[], ?_, List.mem_singleton.2 rfl, by simp⟩
      have := List.mem_singleton.1 h
      rw [this]
      rfl
    | succ m => exact absurd h (by simp [wsTails])
  | cons c cs ih =>
    intro m t2 h
    cases m with
    | zero =>
      rcases List.mem_cons.1 h with heq | hmem
      · exact ⟨[], by rw [heq]; rfl, List.mem_singleton.2 rfl, by simp⟩
      · by_cases hws : wsChar c = true
        · rw [if_pos hws] at hmem
          obtain ⟨w, hw, hmemw, hwsw⟩ := ih hmem
          refine ⟨c :: w, by rw [hw]; rfl, ?_, ?_⟩
          · show [] ∈ wsTails 0 (c :: w)
            refine List.mem_cons.2 (Or.inr ?_)
            rw [if_pos hws]
            exact hmemw
          · intro d hd
            rcases List.mem_cons.1 hd with hdc | hdw
            · exact hdc ▸ hws
            · exact hwsw d hdw
        · rw [if_neg hws] at hmem
          exact absurd hmem (List.not_mem_nil _)
    | succ m =>
      by_cases hws : wsChar c = true
      · rw [show wsTails (m + 1) (c :: cs) = if wsChar c then wsTails m cs
            else [] from rfl, if_pos hws] at h
        obtain ⟨w, hw, hmemw, hwsw⟩ := ih h
        refine ⟨c :: w, by rw [hw]; rfl, ?_, ?_⟩
        · show [] ∈ wsTails (m + 1) (c :: w)
          rw [show wsTails (m + 1) (c :: w) = if wsChar c then wsTails m w
            else [] from rfl, if_pos hws]
          exact hmemw
        · intro d hd
          rcases List.mem_cons.1 hd with hdc | hdw
          · exact hdc ▸ hws
          · exact hwsw d hdw
      · rw [show wsTails (m + 1) (c :: cs) = if wsChar c then wsTails m cs
            else [] from rfl, if_neg hws] at h
        exact absurd h (List.not_mem_nil _)

theorem wsTails_extend :
    ∀ {w : List Char} {m : Nat}, [] ∈ wsTails m w →
      ∀ r, r ∈ wsTails m (w ++ r) := by
  intro w
  induction w with
  | nil =>
    intro m h r
    cases m with
    | zero => exact self_mem_wsTails_zero r
    | succ m => exact absurd h (by simp [wsTails])
  | cons c cs ih =>
    intro m h r
    cases m with
    | zero =>
      rcases List.mem_cons.1 h with heq | hmem
      · exact absurd heq.symm (by simp)
      · by_cases hws : wsChar c = true
        · rw [if_pos hws] at hmem
          show r ∈ wsTails 0 (c :: (cs ++ r))
          refine List.mem_cons.2 (Or.inr ?_)
          rw [if_pos hws]
          exact ih hmem r
        · rw [if_neg hws] at hmem
          exact absurd hmem (List.not_mem_nil _)
    | succ m =>
      by_cases hws : wsChar c = true
      · rw [show wsTails (m + 1) (c :: cs) = if wsChar c then wsTails m cs
            else [] from rfl, if_pos hws] at h
        show r ∈ wsTails (m + 1) (c :: (cs ++ r))
        rw [show wsTails (m + 1) (c :: (cs ++ r)) = if wsChar c then
          wsTails m (cs ++ r) else [] from rfl, if_pos hws]
        exact ih h r
      · rw [show wsTails (m + 1) (c :: cs) = if wsChar c then wsTails m cs
            else [] from rfl, if_neg hws] at h
        exact absurd h (List.not_mem_nil _)

theorem matchSome_iff (p : List Tok) :
    ∀ t, matchSome p t = true ↔
      ∃ w r, t = w ++ r ∧ matchExact p w = true := by
  induction p with
  | nil =>
    intro t
    constructor
    · intro _
      exact ⟨[], t, rfl, rfl⟩
    · intro _
      rfl
  | cons tok ps ih =>
    intro t
    cases tok with
    | lit alts =>
      constructor
      · intro h
        rw [show matchSome (Tok.lit alts :: ps) t =
          alts.any (fun a => match litAt a t with
            | some w2 => matchSome ps w2
            | none => false) from rfl, List.any_eq_true] at h
        obtain ⟨a, ha, hm⟩ := h
        rcases hlit : litAt a t with _ | t2
        · rw [hlit] at hm
          exact absurd hm (by simp)
        · rw [hlit] at hm
          obtain ⟨w2, r, ht2, hex⟩ := (ih t2).1 hm
          obtain ⟨w0, hw0, hlit0⟩ := litAt_decomp hlit
          refine ⟨w0 ++ w2, r, by rw [hw0, ht2]; rw [List.append_assoc], ?_⟩
          rw [show matchExact (Tok.lit alts :: ps) (w0 ++ w2) =
            alts.any (fun a => match litAt a (w0 ++ w2) with
              | some v => matchExact ps v
              | none => false) from rfl, List.any_eq_true]
          refine ⟨a, ha, ?_⟩
          rw [litAt_extend hlit0 w2]
          exact hex
      · intro h
        obtain ⟨w, r, ht, hex⟩ := h
        rw [show matchExact (Tok.lit alts :: ps) w =
          alts.any (fun a => match litAt a w with
            | some v => matchExact ps v
            | none => false) from rfl, List.any_eq_true] at hex
        obtain ⟨a, ha, hm⟩ := hex
        rcases hlit : litAt a w with _ | w2
        · rw [hlit] at hm
          exact absurd hm (by simp)
        · rw [hlit] at hm
          obtain ⟨w0, hw0, hlit0⟩ := litAt_decomp hlit
          rw [show matchSome (Tok.lit alts :: ps) t =
            alts.any (fun a => match litAt a t with
              | some v => matchSome ps v
              | none => false) from rfl, List.any_eq_true]
          refine ⟨a, ha, ?_⟩
          have : t = w0 ++ (w2 ++ r) := by
            rw [ht, hw0, List.append_assoc]
          rw [this, litAt_extend hlit0 (w2 ++ r)]
          exact (ih (w2 ++ r)).2 ⟨w2, r, rfl, hm⟩
    | ws m =>
      constructor
      · intro h
        rw [show matchSome (Tok.ws m :: ps) t =
          (wsTails m t).any (fun w2 => matchSome ps w2) from rfl,
          List.any_eq_true] at h
        obtain ⟨t2, ht2, hm⟩ := h
        obtain ⟨w2, r, ht2eq, hex⟩ := (ih t2).1 hm
        obtain ⟨w0, hw0, hmem0, _⟩ := wsTails_decomp ht2
        refine ⟨w0 ++ w2, r, by rw [hw0, ht2eq, List.append_assoc], ?_⟩
        rw [show matchExact (Tok.ws m :: ps) (w0 ++ w2) =
          (wsTails m (w0 ++ w2)).any (fun v => matchExact ps v) from rfl,
          List.any_eq_true]
        exact ⟨w2, wsTails_extend hmem0 w2, hex⟩
      · intro h
        obtain ⟨w, r, ht, hex⟩ := h
        rw [show matchExact (Tok.ws m :: ps) w =
          (wsTails m w).any (fun v => matchExact ps v) from rfl,
          List.any_eq_true] at hex
        obtain ⟨w2, hw2, hm⟩ := hex
        obtain ⟨w0, hw0, hmem0, _⟩ := wsTails_decomp hw2
        rw [show matchSome (Tok.ws m :: ps) t =
          (wsTails m t).any (fun v => matchSome ps v) from rfl,
          List.any_eq_true]
        refine ⟨w2 ++ r, ?_, (ih (w2 ++ r)).2 ⟨w2, r, rfl, hm⟩⟩
        have : t = w0 ++ (w2 ++ r) := by rw [ht, hw0, List.append_assoc]
        rw [this]
        exact wsTails_extend hmem0 (w2 ++ r)

theorem searchPat_iff (p : List Tok) (cs : List Char) :
    searchPat p cs = true ↔ ∃ w, w <:+: cs ∧ matchExact p w = true := by
  unfold searchPat
  rw [List.any_eq_true]
  constructor
  · intro ⟨t, ht, hm⟩
    obtain ⟨w, r, hwr, hex⟩ := (matchSome_iff p t).1 hm
    have hsuf : t <:+ cs := (List.mem_tails _ _).1 ht
    refine ⟨w, ?_, hex⟩
    exact (hwr ▸ (List.prefix_append w r).isInfix : w <:+: t).trans hsuf.isInfix
  · intro ⟨w, ⟨x, y, hxy⟩, hex⟩
    refine ⟨w ++ y, (List.mem_tails _ _).2 ⟨x, by rw [← hxy, List.append_assoc]⟩, ?_⟩
    exact (matchSome_iff p (w ++ y)).2 ⟨w, y, rfl, hex⟩

theorem wsChar_noBlocker (c : Char) (h : wsChar c = true) :
    noBlocker c = true := by
  simp only [noBlocker, Bool.not_eq_true', Bool.or_eq_false_iff,
    beq_eq_false_iff_ne, ne_eq]
  constructor <;> · intro heq; rw [heq] at h; exact absurd h (by decide)

theorem lowerA_noBlocker (c : Char) (h : noBlocker (lowerA c) = true) :
    noBlocker c = true := by
  by_cases h1 : c = '&'
  · subst h1
    exact absurd h (by decide)
  by_cases h2 : c = ';'
  · subst h2
    exact absurd h (by decide)
  simp only [noBlocker, Bool.not_eq_true', Bool.or_eq_false_iff,
    beq_eq_false_iff_ne, ne_eq]
  exact ⟨h1, h2⟩

theorem matchExact_noBlocker {p : List Tok} (hp : patOK p = true) :
    ∀ {w : List Char}, matchExact p w = true → ∀ c ∈ w, noBlocker c = true := by
  induction p with
  | nil =>
    intro w h c hc
    have : w = [] := by
      rwa [show matchExact [] w = w.isEmpty from rfl, List.isEmpty_iff] at h
    rw [this] at hc
    exact absurd hc (List.not_mem_nil _)
  | cons tok ps ih =>
    have hp2 : patOK ps = true := by
      unfold patOK at hp ⊢
      rw [List.all_cons, Bool.and_eq_true] at hp
      exact hp.2
    intro w h c hc
    cases tok with
    | lit alts =>
      rw [show matchExact (Tok.lit alts :: ps) w =
        alts.any (fun a => match litAt a w with
          | some v => matchExact ps v
          | none => false) from rfl, List.any_eq_true] at h
      obtain ⟨a, ha, hm⟩ := h
      rcases hlit : litAt a w with _ | w2
      · rw [hlit] at hm
        exact absurd hm (by simp)
      · rw [hlit] at hm
        obtain ⟨w0, hw0, hlit0⟩ := litAt_decomp hlit
        rw [hw0] at hc
        rcases List.mem_append.1 hc with h0 | h2
        · have hmap := litAt_chars hlit0
          have hmem : lowerA c ∈ a := by
            rw [← hmap]
            exact List.mem_map_of_mem lowerA h0
          have haok : a.all noBlocker = true := by
            unfold patOK at hp
            rw [List.all_cons, Bool.and_eq_true] at hp
            have := hp.1
            simp only [List.all_eq_true] at this
            exact List.all_eq_true.2 (this a ha)
          exact lowerA_noBlocker c (List.all_eq_true.1 haok _ hmem)
        · exact ih hp2 hm c h2
    | ws m =>
      rw [show matchExact (Tok.ws m :: ps) w =
        (wsTails m w).any (fun v => matchExact ps v) from rfl,
        List.any_eq_true] at h
      obtain ⟨w2, hw2, hm⟩ := h
      obtain ⟨w0, hw0, _, hws⟩ := wsTails_decomp hw2
      rw [hw0] at hc
      rcases List.mem_append.1 hc with h0 | h2
      · exact wsChar_noBlocker c (hws c h0)
      · exact ih hp2 hm c h2

/-! ## Input validation: replacement transfer

The three `str.replace` calls of `_escape_special_chars` all have the shape
`pat = pre ++ core ++ suf`, `rep = pre ++ inner ++ suf` with
`inner = '&' :: mid ++ [';']`.  Blocker-free windows (in particular all
regex-match windows and the patterns themselves) therefore cannot straddle
an insertion: every blocker-free infix of the replaced text is an infix of
the original text or of `inner`. -/

theorem noBlockerL_append_left {a b : List Char} (h : noBlockerL (a ++ b)) :
    noBlockerL a := fun c hc => h c (List.mem_append_left b hc)

theorem noBlockerL_append_right {a b : List Char} (h : noBlockerL (a ++ b)) :
    noBlockerL b := fun c hc => h c (List.mem_append_right a hc)

theorem noBlockerL_of_cons {c : Char} {w : List Char}
    (h : noBlockerL (c :: w)) : noBlockerL w :=
  fun d hd => h d (List.mem_cons_of_mem c hd)

theorem not_amp_of_noBlockerL {w : List Char} (h : noBlockerL w) :
    '&' ∉ w := fun hmem => by
  have := h '&' hmem
  exact absurd this (by decide)

theorem not_semi_of_noBlockerL {w : List Char} (h : noBlockerL w) :
    ';' ∉ w := fun hmem => by
  have := h ';' hmem
  exact absurd this (by decide)

/-- A nonempty suffix of `pre ++ ('&' :: mid ++ [';'])` contains a blocker. -/
theorem suffix_pre_inner_blocker {pre mid w1 : List Char}
    (h : w1 <:+ pre ++ ('&' :: mid ++ [';'])) (hne : w1 ≠ []) :
    ¬ noBlockerL w1 := by
  intro hbf
  rcases suffix_append_cases h with h1 | ⟨wa, hweq, _⟩
  · have : ';' ∈ w1 := by
      have h2 : w1 <:+ ('&' :: mid) ++ [';'] := by
        simpa using h1
      exact mem_of_suffix_concat h2 hne
    exact not_semi_of_noBlockerL hbf this
  · have : '&' ∈ w1 := by
      rw [hweq]
      exact List.mem_append_right wa (List.mem_cons_self _ _)
    exact not_amp_of_noBlockerL hbf this

/-- Unfolding of `replaceAllL` at a cons. -/
theorem replaceAllL_cons (pat rep : List Char) (c : Char) (cs : List Char) :
    replaceAllL pat rep (c :: cs) =
      if pat ≠ [] ∧ lstarts pat (c :: cs) then
        rep ++ replaceAllL pat rep ((c :: cs).drop pat.length)
      else c :: replaceAllL pat rep cs := by
  rw [replaceAllL]

/-- Unfolding of `replaceAllL` at nil. -/
theorem replaceAllL_nil (pat rep : List Char) : replaceAllL pat rep [] = [] := by
  rw [replaceAllL]

/-- If the pattern occurs nowhere, `str.replace` is the identity. -/
theorem replaceAllL_noop (pat rep : List Char) :
    ∀ s, ¬ pat <:+: s → replaceAllL pat rep s = s := by
  intro s
  induction s with
  | nil => intro _; exact replaceAllL_nil pat rep
  | cons c cs ih =>
    intro h
    rw [replaceAllL_cons]
    have hcond : ¬ (pat ≠ [] ∧ lstarts pat (c :: cs) = true) := by
      rintro ⟨_, hstart⟩
      exact h ((lstarts_iff pat (c :: cs)).1 hstart).isInfix
    rw [if_neg (by simpa using hcond)]
    rw [ih (fun hin => h (hin.trans (List.infix_cons (List.infix_refl cs))))]

/-- Decomposing the subject at a pattern occurrence found by `lstarts`. -/
theorem lstarts_drop_eq {pat s : List Char} (h : lstarts pat s = true) :
    s = pat ++ s.drop pat.length := by
  obtain ⟨t, ht⟩ := (lstarts_iff pat s).1 h
  rw [← ht, List.drop_left]

/-- Blocker-free prefixes pass through `str.replace` untouched: every
`&`-free prefix of the replaced text is a prefix of the original. -/
theorem replace_prefix_transfer {pat rep pre : List Char} {tail2 : List Char}
    (hrep : rep = pre ++ '&' :: tail2) (hpre : pre <+: pat) :
    ∀ s u, '&' ∉ u → u <+: replaceAllL pat rep s → u <+: s := by
  have main : ∀ n s u, s.length ≤ n → '&' ∉ u →
      u <+: replaceAllL pat rep s → u <+: s := by
    intro n
    induction n with
    | zero =>
      intro s u hlen hb hu
      cases s with
      | nil =>
        rw [replaceAllL_nil] at hu
        exact hu
      | cons c cs => simp at hlen
    | succ n ihn =>
      intro s u hlen hb hu
      cases s with
      | nil =>
        rw [replaceAllL_nil] at hu
        exact hu
      | cons c cs =>
        rw [replaceAllL_cons] at hu
        by_cases hcond : pat ≠ [] ∧ lstarts pat (c :: cs) = true
        · rw [if_pos (by simpa using hcond)] at hu
          rcases prefix_append_cases hu with h1 | ⟨u2, hu2eq, _⟩
          · rw [hrep] at h1
            rcases prefix_append_cases h1 with h2 | ⟨u3, hu3eq, hu3⟩
            · have hps : pat <+: c :: cs := (lstarts_iff pat (c :: cs)).1 hcond.2
              exact (h2.trans hpre).trans hps
            · rcases prefix_cons_cases hu3 with h4 | ⟨u4, hu4eq, _⟩
              · rw [h4, List.append_nil] at hu3eq
                have hps : pat <+: c :: cs := (lstarts_iff pat (c :: cs)).1 hcond.2
                exact (hu3eq ▸ hpre).trans hps
              · exfalso
                apply hb
                rw [hu3eq, hu4eq]
                exact List.mem_append_right pre (List.mem_cons_self _ _)
          · exfalso
            apply hb
            rw [hu2eq, hrep]
            exact List.mem_append_left _
              (List.mem_append_right pre (List.mem_cons_self _ _))
        · rw [if_neg (by simpa using hcond)] at hu
          rcases prefix_cons_cases hu with h1 | ⟨u2, hu2eq, hu2⟩
          · exact h1 ▸ List.nil_prefix
          · have hlen2 : cs.length ≤ n := by
              simp only [List.length_cons] at hlen
              omega
            have hb2 : '&' ∉ u2 := fun hm => hb (by
              rw [hu2eq]
              exact List.mem_cons_of_mem c hm)
            have := ihn cs u2 hlen2 hb2 hu2
            rw [hu2eq, List.cons_prefix_cons]
            exact ⟨rfl, this⟩
  intro s u
  exact main s.length s u (le_refl _)

/-- The workhorse: a blocker-free infix of the replaced text is an infix of
the original text or of the inserted core `'&' :: mid ++ [';']`. -/
theorem replace_infix_transfer {pat rep pre mid suf : List Char}
    (hpat : pat ≠ [])
    (hrep : rep = pre ++ ('&' :: mid ++ [';']) ++ suf)
    (hpre : pre <+: pat) (hsuf : suf <:+ pat) :
    ∀ s w, noBlockerL w → w <:+: replaceAllL pat rep s →
      w <:+: s ∨ w <:+: ('&' :: mid ++ [';']) := by
  have hrep2 : rep = pre ++ '&' :: ((mid ++ [';']) ++ suf) := by
    rw [hrep]
    simp [List.append_assoc]
  have main : ∀ n s w, s.length ≤ n → noBlockerL w →
      w <:+: replaceAllL pat rep s →
      w <:+: s ∨ w <:+: ('&' :: mid ++ [';']) := by
    intro n
    induction n with
    | zero =>
      intro s w hlen hbf hw
      cases s with
      | nil =>
        rw [replaceAllL_nil] at hw
        exact Or.inl hw
      | cons c cs => simp at hlen
    | succ n ihn =>
      intro s w hlen hbf hw
      cases s with
      | nil =>
        rw [replaceAllL_nil] at hw
        exact Or.inl hw
      | cons c cs =>
        rw [replaceAllL_cons] at hw
        by_cases hcond : pat ≠ [] ∧ lstarts pat (c :: cs) = true
        · rw [if_pos (by simpa using hcond)] at hw
          have hsplit : (c :: cs : List Char) =
              pat ++ (c :: cs).drop pat.length := lstarts_drop_eq hcond.2
          have hlen' : ((c :: cs).drop pat.length).length ≤ n := by
            have hp1 : 1 ≤ pat.length := by
              cases pat with
              | nil => exact absurd rfl hpat
              | cons a as => simp
            simp only [List.length_drop, List.length_cons] at *
            omega
          rcases infix_append_cases hw with h1 | h2 |
            ⟨x1, x2, hxeq, hx1ne, hx2ne, hx1, hx2⟩
          · -- window inside the replacement
            rw [hrep] at h1
            rcases infix_append_cases h1 with h3 | h4 |
              ⟨y1, y2, hyeq, hy1ne, hy2ne, hy1, hy2⟩
            · rcases infix_append_cases h3 with h5 | h6 |
                ⟨z1, z2, hzeq, hz1ne, hz2ne, hz1, hz2⟩
              · left
                rw [hsplit]
                exact (h5.trans hpre.isInfix).trans
                  (List.prefix_append pat _).isInfix
              · exact Or.inr h6
              · exfalso
                rcases prefix_cons_cases hz2 with h7 | ⟨z3, hz3eq, _⟩
                · exact hz2ne h7
                · apply not_amp_of_noBlockerL hbf
                  rw [hzeq, hz3eq]
                  exact List.mem_append_right z1 (List.mem_cons_self _ _)
            · left
              rw [hsplit]
              exact (h4.trans hsuf.isInfix).trans
                (List.prefix_append pat _).isInfix
            · exfalso
              have hbf1 : noBlockerL y1 := by
                rw [hyeq] at hbf
                exact noBlockerL_append_left hbf
              exact suffix_pre_inner_blocker hy1 hy1ne hbf1
          · -- window inside the replaced tail
            rcases ihn _ w hlen' hbf h2 with hL | hR
            · left
              rw [hsplit]
              exact hL.trans (List.suffix_append pat _).isInfix
            · exact Or.inr hR
          · -- window spanning the replacement boundary
            rw [hrep] at hx1
            have hbfx1 : noBlockerL x1 := by
              rw [hxeq] at hbf
              exact noBlockerL_append_left hbf
            have hx1suf : x1 <:+ suf := by
              rcases suffix_append_cases hx1 with h5 | ⟨wa, hwaeq, hwa⟩
              · exact h5
              · by_cases hwa0 : wa = []
                · rw [hwa0, List.nil_append] at hwaeq
                  rw [hwaeq]
                · exfalso
                  have hbfwa : noBlockerL wa := by
                    rw [hwaeq] at hbfx1
                    exact noBlockerL_append_left hbfx1
                  exact suffix_pre_inner_blocker hwa hwa0 hbfwa
            have hbfx2 : noBlockerL x2 := by
              rw [hxeq] at hbf
              exact noBlockerL_append_right hbf
            have hx2' : x2 <+: (c :: cs).drop pat.length :=
              replace_prefix_transfer hrep2 hpre _ x2
                (not_amp_of_noBlockerL hbfx2) hx2
            left
            rw [hsplit, hxeq]
            exact suffix_append_prefix_infix (hx1suf.trans hsuf) hx2'
        · rw [if_neg (by simpa using hcond)] at hw
          rcases (List.infix_cons_iff).1 hw with h1 | h2
          · rcases prefix_cons_cases h1 with h3 | ⟨w2, hw2eq, hw2⟩
            · left
              exact h3 ▸ (List.nil_prefix).isInfix
            · have hbfw2 : noBlockerL w2 := by
                rw [hw2eq] at hbf
                exact noBlockerL_of_cons hbf
              have hw2' : w2 <+: cs :=
                replace_prefix_transfer hrep2 hpre cs w2
                  (not_amp_of_noBlockerL hbfw2) hw2
              left
              rw [hw2eq]
              exact (List.cons_prefix_cons.2 ⟨rfl, hw2'⟩).isInfix
          · have hlen2 : cs.length ≤ n := by
              simp only [List.length_cons] at hlen
              omega
            rcases ihn cs w hlen2 hbf h2 with hL | hR
            · exact Or.inl (List.infix_cons hL)
            · exact Or.inr hR
  intro s w
  exact main s.length s w (le_refl _)

/-- `str.replace` eliminates every occurrence of its own pattern when the
pattern is blocker-free, does not occur in the replacement, and no
nonempty suffix of the replacement's common suffix is a prefix of the
pattern. -/
theorem replace_no_self_occurrence {pat rep pre mid suf : List Char}
    (hpat : pat ≠ []) (hbfp : noBlockerL pat)
    (hrep : rep = pre ++ ('&' :: mid ++ [';']) ++ suf)
    (hpre : pre <+: pat) (hsuf : suf <:+ pat)
    (hni : ¬ pat <:+: rep)
    (hno : ∀ w1, w1 ≠ [] → w1 <:+ suf → ¬ w1 <+: pat) :
    ∀ s, ¬ pat <:+: replaceAllL pat rep s := by
  have hrep2 : rep = pre ++ '&' :: ((mid ++ [';']) ++ suf) := by
    rw [hrep]
    simp [List.append_assoc]
  have main : ∀ n s, s.length ≤ n → ¬ pat <:+: replaceAllL pat rep s := by
    intro n
    induction n with
    | zero =>
      intro s hlen hin
      cases s with
      | nil =>
        rw [replaceAllL_nil] at hin
        rw [List.infix_nil] at hin
        exact hpat hin
      | cons c cs => simp at hlen
    | succ n ihn =>
      intro s hlen hin
      cases s with
      | nil =>
        rw [replaceAllL_nil] at hin
        rw [List.infix_nil] at hin
        exact hpat hin
      | cons c cs =>
        rw [replaceAllL_cons] at hin
        by_cases hcond : pat ≠ [] ∧ lstarts pat (c :: cs) = true
        · rw [if_pos (by simpa using hcond)] at hin
          have hlen' : ((c :: cs).drop pat.length).length ≤ n := by
            have hp1 : 1 ≤ pat.length := by
              cases pat with
              | nil => exact absurd rfl hpat
              | cons a as => simp
            simp only [List.length_drop, List.length_cons] at *
            omega
          rcases infix_append_cases hin with h1 | h2 |
            ⟨x1, x2, hxeq, hx1ne, hx2ne, hx1, hx2⟩
          · exact hni h1
          · exact ihn _ hlen' h2
          · -- pat = x1 ++ x2 spanning the boundary
            rw [hrep] at hx1
            have hbfx1 : noBlockerL x1 := by
              rw [hxeq] at hbfp
              exact noBlockerL_append_left hbfp
            have hx1suf : x1 <:+ suf := by
              rcases suffix_append_cases hx1 with h5 | ⟨wa, hwaeq, hwa⟩
              · exact h5
              · by_cases hwa0 : wa = []
                · rw [hwa0, List.nil_append] at hwaeq
                  rw [hwaeq]
                · exfalso
                  have hbfwa : noBlockerL wa := by
                    rw [hwaeq] at hbfx1
                    exact noBlockerL_append_left hbfx1
                  exact suffix_pre_inner_blocker hwa hwa0 hbfwa
            exact hno x1 hx1ne hx1suf (hxeq ▸ List.prefix_append x1 x2)
        · rw [if_neg (by simpa using hcond)] at hin
          rcases (List.infix_cons_iff).1 hin with h1 | h2
          · rcases prefix_cons_cases h1 with h3 | ⟨p2, hp2eq, hp2⟩
            · exact hpat h3
            · have hbfp2 : noBlockerL p2 := by
                rw [hp2eq] at hbfp
                exact noBlockerL_of_cons hbfp
              have hp2' : p2 <+: cs :=
                replace_prefix_transfer hrep2 hpre cs p2
                  (not_amp_of_noBlockerL hbfp2) hp2
              apply hcond
              refine ⟨hpat, (lstarts_iff pat (c :: cs)).2 ?_⟩
              rw [hp2eq]
              exact List.cons_prefix_cons.2 ⟨rfl, hp2'⟩
          · have hlen2 : cs.length ≤ n := by
              simp only [List.length_cons] at hlen
              omega
            exact ihn cs hlen2 h2
  intro s
  exact main s.length s (le_refl _)

/-! ## Input validation: escaping never creates an injection match -/

theorem allPatsOK : injectionPatterns.all patOK = true := by decide

theorem checkInjection_window {cs : List Char} (h : checkInjectionL cs = true) :
    ∃ p ∈ injectionPatterns, ∃ w, w <:+: cs ∧ matchExact p w = true ∧
      noBlockerL w := by
  unfold checkInjectionL at h
  rw [List.any_eq_true] at h
  obtain ⟨p, hp, hs⟩ := h
  obtain ⟨w, hw, hm⟩ := (searchPat_iff p cs).1 hs
  have hok : patOK p = true := List.all_eq_true.1 allPatsOK p hp
  exact ⟨p, hp, w, hw, hm, matchExact_noBlocker hok hm⟩

theorem checkInjection_of_window {cs : List Char} {p : List Tok} {w : List Char}
    (hp : p ∈ injectionPatterns) (hw : w <:+: cs) (hm : matchExact p w = true) :
    checkInjectionL cs = true := by
  unfold checkInjectionL
  rw [List.any_eq_true]
  exact ⟨p, hp, (searchPat_iff p cs).2 ⟨w, hw, hm⟩⟩

/-- No injection pattern matches inside the inserted cores `&lt;`, `&#58;`. -/
theorem no_core_window {p : List Tok} {w mid : List Char}
    (hp : p ∈ injectionPatterns) (hm : matchExact p w = true)
    (hmid : mid = "lt".data ∨ mid = "#58".data) :
    ¬ w <:+: ('&' :: mid ++ [';']) := by
  intro hw
  have h := checkInjection_of_window hp hw hm
  rcases hmid with h1 | h1
  · rw [h1] at h
    exact absurd h (by decide)
  · rw [h1] at h
    exact absurd h (by decide)

/-- Any blocker-free window of the escaped text already occurs in the
original text or inside one of the two inserted cores. -/
theorem escape_window_transfer {w : List Char} (hbf : noBlockerL w) :
    ∀ {y : List Char}, w <:+: escapeChars y →
      w <:+: y ∨ w <:+: ('&' :: "lt".data ++ [';']) ∨
        w <:+: ('&' :: "#58".data ++ [';']) := by
  intro y hw
  unfold escapeChars at hw
  have hrep3 : repJavascript =
      "javascript".data ++ ('&' :: "#58".data ++ [';']) ++ [] := by decide
  have hpre3 : "javascript".data <+: patJavascript := ⟨":".data, by decide⟩
  have hsuf3 : ([] : List Char) <:+ patJavascript := ⟨patJavascript, by simp⟩
  have h3 := replace_infix_transfer (by decide) hrep3 hpre3 hsuf3
    (replaceAllL patScriptClose repScriptClose
      (replaceAllL patScriptOpen repScriptOpen y)) w hbf hw
  rcases h3 with h3 | hcore
  · have hrep2 : repScriptClose =
        [] ++ ('&' :: "lt".data ++ [';']) ++ "/script".data := by decide
    have hsuf2 : "/script".data <:+ patScriptClose := ⟨"<".data, by decide⟩
    have h2 := replace_infix_transfer (by decide) hrep2 List.nil_prefix hsuf2
      (replaceAllL patScriptOpen repScriptOpen y) w hbf h3
    rcases h2 with h2 | hcore
    · have hrep1 : repScriptOpen =
          [] ++ ('&' :: "lt".data ++ [';']) ++ "script".data := by decide
      have hsuf1 : "script".data <:+ patScriptOpen := ⟨"<".data, by decide⟩
      have h1 := replace_infix_transfer (by decide) hrep1 List.nil_prefix hsuf1
        y w hbf h2
      rcases h1 with h1 | hcore
      · exact Or.inl h1
      · exact Or.inr (Or.inl hcore)
    · exact Or.inr (Or.inl hcore)
  · exact Or.inr (Or.inr hcore)

/-- `_escape_special_chars` never introduces a prompt-injection match. -/
theorem checkInjection_escape {y : List Char}
    (h : checkInjectionL (escapeChars y) = true) : checkInjectionL y = true := by
  obtain ⟨p, hp, w, hw, hm, hbf⟩ := checkInjection_window h
  rcases escape_window_transfer hbf hw with h1 | h1 | h1
  · exact checkInjection_of_window hp h1 hm
  · exact absurd h1 (no_core_window hp hm (Or.inl rfl))
  · exact absurd h1 (no_core_window hp hm (Or.inr rfl))

/-! ## Input validation: escaping is idempotent -/

theorem noBlockerL_pat1 : noBlockerL patScriptOpen := by
  show ∀ c ∈ patScriptOpen, noBlocker c = true
  decide

theorem noBlockerL_pat2 : noBlockerL patScriptClose := by
  show ∀ c ∈ patScriptClose, noBlocker c = true
  decide

theorem noBlockerL_pat3 : noBlockerL patJavascript := by
  show ∀ c ∈ patJavascript, noBlocker c = true
  decide

theorem escape_no_pat1 (y : List Char) :
    ¬ patScriptOpen <:+: replaceAllL patScriptOpen repScriptOpen y := by
  have hrep1 : repScriptOpen =
      [] ++ ('&' :: "lt".data ++ [';']) ++ "script".data := by decide
  refine replace_no_self_occurrence (by decide) noBlockerL_pat1 hrep1
    List.nil_prefix ⟨"<".data, by decide⟩ ?_ ?_ y
  · intro h
    exact absurd ((containsSub_iff patScriptOpen repScriptOpen).2 h) (by decide)
  · intro w1 hne hsuf hpre
    have hmem : w1 ∈ ("script".data).tails := (List.mem_tails w1 _).2 hsuf
    have hfact : ∀ w ∈ ("script".data).tails,
        w = [] ∨ lstarts w patScriptOpen = false := by decide
    rcases hfact w1 hmem with h | h
    · exact hne h
    · have ht := (lstarts_iff w1 patScriptOpen).2 hpre
      rw [h] at ht
      exact Bool.false_ne_true ht

theorem escape_no_pat2 (y : List Char) :
    ¬ patScriptClose <:+: replaceAllL patScriptClose repScriptClose y := by
  have hrep2 : repScriptClose =
      [] ++ ('&' :: "lt".data ++ [';']) ++ "/script".data := by decide
  refine replace_no_self_occurrence (by decide) noBlockerL_pat2 hrep2
    List.nil_prefix ⟨"<".data, by decide⟩ ?_ ?_ y
  · intro h
    exact absurd ((containsSub_iff patScriptClose repScriptClose).2 h) (by decide)
  · intro w1 hne hsuf hpre
    have hmem : w1 ∈ ("/script".data).tails := (List.mem_tails w1 _).2 hsuf
    have hfact : ∀ w ∈ ("/script".data).tails,
        w = [] ∨ lstarts w patScriptClose = false := by decide
    rcases hfact w1 hmem with h | h
    · exact hne h
    · have ht := (lstarts_iff w1 patScriptClose).2 hpre
      rw [h] at ht
      exact Bool.false_ne_true ht

theorem escape_no_pat3 (y : List Char) :
    ¬ patJavascript <:+: replaceAllL patJavascript repJavascript y := by
  have hrep3 : repJavascript =
      "javascript".data ++ ('&' :: "#58".data ++ [';']) ++ [] := by decide
  refine replace_no_self_occurrence (by decide) noBlockerL_pat3 hrep3
    ⟨":".data, by decide⟩ ⟨patJavascript, by simp⟩ ?_ ?_ y
  · intro h
    exact absurd ((containsSub_iff patJavascript repJavascript).2 h) (by decide)
  · intro w1 hne hsuf _
    obtain ⟨t, ht⟩ := hsuf
    rcases List.append_eq_nil.1 ht with ⟨_, h2⟩
    exact hne h2

/-- `_escape_special_chars` is idempotent. -/
theorem escape_escape (y : List Char) :
    escapeChars (escapeChars y) = escapeChars y := by
  have hrep3 : repJavascript =
      "javascript".data ++ ('&' :: "#58".data ++ [';']) ++ [] := by decide
  have hpre3 : "javascript".data <+: patJavascript := ⟨":".data, by decide⟩
  have hsuf3 : ([] : List Char) <:+ patJavascript := ⟨patJavascript, by simp⟩
  have hrep2 : repScriptClose =
      [] ++ ('&' :: "lt".data ++ [';']) ++ "/script".data := by decide
  have hsuf2 : "/script".data <:+ patScriptClose := ⟨"<".data, by decide⟩
  have hbf1 : noBlockerL patScriptOpen := noBlockerL_pat1
  have hbf2 : noBlockerL patScriptClose := noBlockerL_pat2
  have h3 : ¬ patJavascript <:+: escapeChars y :=
    escape_no_pat3 (replaceAllL patScriptClose repScriptClose
      (replaceAllL patScriptOpen repScriptOpen y))
  have h2 : ¬ patScriptClose <:+: escapeChars y := by
    intro h
    rcases replace_infix_transfer (by decide) hrep3 hpre3 hsuf3
      (replaceAllL patScriptClose repScriptClose
        (replaceAllL patScriptOpen repScriptOpen y))
      patScriptClose hbf2 h with h' | h'
    · exact escape_no_pat2 (replaceAllL patScriptOpen repScriptOpen y) h'
    · exact absurd ((containsSub_iff _ _).2 h') (by decide)
  have h1 : ¬ patScriptOpen <:+: escapeChars y := by
    intro h
    rcases replace_infix_transfer (by decide) hrep3 hpre3 hsuf3
      (replaceAllL patScriptClose repScriptClose
        (replaceAllL patScriptOpen repScriptOpen y))
      patScriptOpen hbf1 h with h' | h'
    · rcases replace_infix_transfer (by decide) hrep2 List.nil_prefix hsuf2
        (replaceAllL patScriptOpen repScriptOpen y)
        patScriptOpen hbf1 h' with h'' | h''
      · exact escape_no_pat1 y h''
      · exact absurd ((containsSub_iff _ _).2 h'') (by decide)
    · exact absurd ((containsSub_iff _ _).2 h') (by decide)
  have e1 : replaceAllL patScriptOpen repScriptOpen (escapeChars y) =
      escapeChars y := replaceAllL_noop _ _ _ h1
  have e2 : replaceAllL patScriptClose repScriptClose (escapeChars y) =
      escapeChars y := replaceAllL_noop _ _ _ h2
  have e3 : replaceAllL patJavascript repJavascript (escapeChars y) =
      escapeChars y := replaceAllL_noop _ _ _ h3
  show replaceAllL patJavascript repJavascript
    (replaceAllL patScriptClose repScriptClose
      (replaceAllL patScriptOpen repScriptOpen (escapeChars y))) = escapeChars y
  rw [e1, e2, e3]

/-! ## Input validation: whitespace normalization is idempotent

`_normalize_whitespace` output contains no tab, no two adjacent spaces,
no run of three newlines, and no leading or trailing whitespace; on such
text each of its three steps is the identity.  Escaping preserves all four
properties, so the sanitized output is a fixpoint of normalization. -/

theorem single_window {c : Char} {y : List Char} : [c] <:+: y ↔ c ∈ y := by
  constructor
  · intro ⟨s, t, h⟩
    rw [← h]
    simp
  · intro h
    obtain ⟨s, t, rfl⟩ := List.append_of_mem h
    exact ⟨s, t, by simp⟩

theorem head_append_ne {A B : List Char} (h : A ≠ []) :
    (A ++ B).head? = A.head? := List.head?_append_of_ne_nil A h

theorem getLast_append_ne {A B : List Char} (h : B ≠ []) :
    (A ++ B).getLast? = B.getLast? := by
  rw [← List.head?_reverse, List.reverse_append,
    List.head?_append_of_ne_nil _ (by simpa using h), List.head?_reverse]

theorem dropWhile_head_false (p : Char → Bool) :
    ∀ (l : List Char) (d : Char) (r : List Char),
      l.dropWhile p = d :: r → p d = false := by
  intro l
  induction l with
  | nil =>
    intro d r h
    exact absurd h (by simp)
  | cons c cs ih =>
    intro d r h
    rw [List.dropWhile_cons] at h
    by_cases hc : p c = true
    · rw [if_pos hc] at h
      exact ih d r h
    · rw [if_neg hc] at h
      injection h with h1 _
      rw [← h1]
      simpa using hc

theorem mem_dropWhile_keep (p : Char → Bool) (c : Char) (hpc : p c = false) :
    ∀ l : List Char, c ∈ l → c ∈ l.dropWhile p := by
  intro l
  induction l with
  | nil =>
    intro h
    exact absurd h (List.not_mem_nil c)
  | cons a as ih =>
    intro h
    rw [List.dropWhile_cons]
    by_cases ha : p a = true
    · rw [if_pos ha]
      rcases List.mem_cons.1 h with h1 | h1
      · exfalso
        rw [h1] at hpc
        rw [hpc] at ha
        exact Bool.false_ne_true ha
      · exact ih h1
    · rw [if_neg ha]
      exact h

theorem stripChars_sub {y : List Char} (c : Char) (hc : c ∈ stripChars y) :
    c ∈ y := by
  unfold stripChars at hc
  rw [List.mem_reverse] at hc
  have h2 : c ∈ (y.dropWhile wsChar).reverse := (List.dropWhile_sublist _).subset hc
  rw [List.mem_reverse] at h2
  exact (List.dropWhile_sublist _).subset h2

theorem stripChars_keep {c : Char} (hc : wsChar c = false) {y : List Char}
    (hm : c ∈ y) : c ∈ stripChars y := by
  unfold stripChars
  rw [List.mem_reverse]
  apply mem_dropWhile_keep wsChar c hc
  rw [List.mem_reverse]
  exact mem_dropWhile_keep wsChar c hc y hm

theorem stripChars_within (y : List Char) : stripChars y <:+: y := by
  unfold stripChars
  have h1 : (y.dropWhile wsChar).reverse.dropWhile wsChar <:+
      (y.dropWhile wsChar).reverse := List.dropWhile_suffix _
  have h2 : ((y.dropWhile wsChar).reverse.dropWhile wsChar).reverse <+:
      y.dropWhile wsChar := by
    rw [← List.reverse_suffix, List.reverse_reverse]
    exact h1
  exact h2.isInfix.trans (List.dropWhile_suffix wsChar).isInfix

theorem stripChars_head {y : List Char} {c : Char}
    (h : (stripChars y).head? = some c) : wsChar c = false := by
  unfold stripChars at h
  rw [List.head?_reverse] at h
  obtain ⟨t, ht⟩ := List.dropWhile_suffix (l := (y.dropWhile wsChar).reverse) wsChar
  have hne : (y.dropWhile wsChar).reverse.dropWhile wsChar ≠ [] := by
    intro h0
    rw [h0] at h
    exact absurd h (by simp)
  have hAl : (y.dropWhile wsChar).reverse.getLast? = some c := by
    rw [← ht, getLast_append_ne hne]
    exact h
  rw [List.getLast?_reverse] at hAl
  cases hA : y.dropWhile wsChar with
  | nil =>
    rw [hA] at hAl
    exact absurd hAl (by simp)
  | cons d r =>
    rw [hA] at hAl
    have hdc : d = c := by simpa using hAl
    rw [← hdc]
    exact dropWhile_head_false wsChar y d r hA

theorem stripChars_last {y : List Char} {c : Char}
    (h : (stripChars y).getLast? = some c) : wsChar c = false := by
  unfold stripChars at h
  rw [List.getLast?_reverse] at h
  cases hB : (y.dropWhile wsChar).reverse.dropWhile wsChar with
  | nil =>
    rw [hB] at h
    exact absurd h (by simp)
  | cons d r =>
    rw [hB] at h
    have hdc : d = c := by simpa using h
    rw [← hdc]
    exact dropWhile_head_false wsChar _ d r hB

theorem stripChars_fix {y : List Char}
    (hh : ∀ c, y.head? = some c → wsChar c = false)
    (hl : ∀ c, y.getLast? = some c → wsChar c = false) :
    stripChars y = y := by
  unfold stripChars
  have h1 : y.dropWhile wsChar = y := by
    cases y with
    | nil => rfl
    | cons c cs =>
      have hc := hh c rfl
      rw [List.dropWhile_cons, if_neg (by rw [hc]; exact Bool.false_ne_true)]
  rw [h1]
  have h2 : y.reverse.dropWhile wsChar = y.reverse := by
    cases hy : y.reverse with
    | nil => simp [hy]
    | cons c cs =>
      have hc : y.getLast? = some c := by
        rw [← List.head?_reverse, hy]
        rfl
      have hcf := hl c hc
      rw [List.dropWhile_cons, if_neg (by rw [hcf]; exact Bool.false_ne_true)]
  rw [h2, List.reverse_reverse]

theorem collapseWs_nil : collapseWs [] = [] := by
  rw [collapseWs]

theorem collapseWs_cons (c : Char) (cs : List Char) :
    collapseWs (c :: cs) =
      if spTab c then ' ' :: collapseWs (cs.dropWhile spTab)
      else c :: collapseWs cs := by
  rw [collapseWs]

theorem collapseNl_nil : collapseNl [] = [] := by
  rw [collapseNl]

theorem collapseNl_cons (c : Char) (cs : List Char) :
    collapseNl (c :: cs) =
      if c == '\n' then
        (if 3 ≤ 1 + (cs.length - (cs.dropWhile (fun d => d == '\n')).length)
         then ['\n', '\n']
         else List.replicate
           (1 + (cs.length - (cs.dropWhile (fun d => d == '\n')).length)) '\n')
        ++ collapseNl (cs.dropWhile (fun d => d == '\n'))
      else c :: collapseNl cs := by
  rw [collapseNl]

/-- On text with no tab and no two adjacent spaces, collapsing space runs
is the identity. -/
theorem collapseWs_fix : ∀ y : List Char, '\t' ∉ y → ¬ [' ', ' '] <:+: y →
    collapseWs y = y := by
  have main : ∀ (n : Nat) (y : List Char), y.length ≤ n → '\t' ∉ y →
      ¬ [' ', ' '] <:+: y → collapseWs y = y := by
    intro n
    induction n with
    | zero =>
      intro y hlen _ _
      cases y with
      | nil => exact collapseWs_nil
      | cons c cs => simp at hlen
    | succ n ihn =>
      intro y hlen htab hsp
      cases y with
      | nil => exact collapseWs_nil
      | cons c cs =>
        rw [collapseWs_cons]
        by_cases hc : spTab c = true
        · have hcsp : c = ' ' := by
            rcases (by simpa [spTab] using hc : c = ' ' ∨ c = '\t') with h | h
            · exact h
            · exfalso
              rw [h] at htab
              exact htab (List.mem_cons_self _ _)
          rw [if_pos hc]
          cases cs with
          | nil =>
            rw [List.dropWhile_nil, collapseWs_nil, hcsp]
          | cons d cs' =>
            have hd : spTab d = false := by
              by_cases hdt : spTab d = true
              · exfalso
                rcases (by simpa [spTab] using hdt : d = ' ' ∨ d = '\t') with h | h
                · apply hsp
                  refine ⟨[], cs', ?_⟩
                  simp [hcsp, h]
                · exact htab (List.mem_cons_of_mem c
                    (List.mem_cons.2 (Or.inl h.symm)))
              · simpa using hdt
            rw [show List.dropWhile spTab (d :: cs') = d :: cs' from by
              rw [List.dropWhile_cons, if_neg (by rw [hd]; exact Bool.false_ne_true)]]
            have hrec := ihn (d :: cs')
              (by simp only [List.length_cons] at hlen ⊢; omega)
              (fun hm => htab (List.mem_cons_of_mem c hm))
              (fun hin => hsp (List.infix_cons hin))
            rw [hrec, hcsp]
        · rw [if_neg hc]
          have hrec := ihn cs
            (by simp only [List.length_cons] at hlen; omega)
            (fun hm => htab (List.mem_cons_of_mem c hm))
            (fun hin => hsp (List.infix_cons hin))
          rw [hrec]
  intro y
  exact main y.length y (le_refl _)

/-- On text with no run of three newlines, collapsing newline runs is the
identity. -/
theorem collapseNl_fix : ∀ y : List Char, ¬ ['\n', '\n', '\n'] <:+: y →
    collapseNl y = y := by
  have main : ∀ (n : Nat) (y : List Char), y.length ≤ n →
      ¬ ['\n', '\n', '\n'] <:+: y → collapseNl y = y := by
    intro n
    induction n with
    | zero =>
      intro y hlen _
      cases y with
      | nil => exact collapseNl_nil
      | cons c cs => simp at hlen
    | succ n ihn =>
      intro y hlen hno
      cases y with
      | nil => exact collapseNl_nil
      | cons c cs =>
        rw [collapseNl_cons]
        by_cases hc : (c == '\n') = true
        · have hceq : c = '\n' := by simpa using hc
          rw [if_pos hc]
          cases cs with
          | nil =>
            simp [collapseNl_nil, hceq]
          | cons d cs' =>
            by_cases hd : (d == '\n') = true
            · have hdeq : d = '\n' := by simpa using hd
              cases cs' with
              | nil =>
                have hdw : List.dropWhile (fun e => e == '\n') [d] = [] := by
                  rw [List.dropWhile_cons, if_pos hd, List.dropWhile_nil]
                rw [hdw, collapseNl_nil]
                simp [hceq, hdeq]
              | cons e cs'' =>
                by_cases he : (e == '\n') = true
                · exfalso
                  apply hno
                  refine ⟨[], cs'', ?_⟩
                  simp [hceq, hdeq, (by simpa using he : e = '\n')]
                · have hdw : List.dropWhile (fun x => x == '\n')
                      (d :: e :: cs'') = e :: cs'' := by
                    rw [List.dropWhile_cons, if_pos hd,
                      List.dropWhile_cons, if_neg he]
                  rw [hdw]
                  have hk : 1 + ((d :: e :: cs'').length - (e :: cs'').length)
                      = 2 := by
                    simp only [List.length_cons]
                    omega
                  rw [hk, if_neg (by norm_num : ¬ 3 ≤ 2)]
                  have hrec := ihn (e :: cs'')
                    (by simp only [List.length_cons] at hlen ⊢; omega)
                    (fun hin => hno (List.infix_cons (List.infix_cons hin)))
                  rw [hrec, hceq, hdeq]
                  rfl
            · have hdw : List.dropWhile (fun x => x == '\n') (d :: cs')
                  = d :: cs' := by
                rw [List.dropWhile_cons, if_neg hd]
              rw [hdw]
              have hk : 1 + ((d :: cs').length - (d :: cs').length) = 1 := by
                omega
              rw [hk, if_neg (by norm_num : ¬ 3 ≤ 1)]
              have hrec := ihn (d :: cs')
                (by simp only [List.length_cons] at hlen ⊢; omega)
                (fun hin => hno (List.infix_cons hin))
              rw [hrec, hceq]
              rfl
        · rw [if_neg hc]
          have hrec := ihn cs
            (by simp only [List.length_cons] at hlen; omega)
            (fun hin => hno (List.infix_cons hin))
          rw [hrec]
  intro y
  exact main y.length y (le_refl _)

/-- The newline-run block emitted by `collapseNl` is a replicate of one or
two newlines. -/
theorem nlRun_replicate (cs : List Char) :
    ∃ m, 1 ≤ m ∧ m ≤ 2 ∧
      (if 3 ≤ 1 + (cs.length - (cs.dropWhile (fun d => d == '\n')).length)
       then ['\n', '\n']
       else List.replicate
         (1 + (cs.length - (cs.dropWhile (fun d => d == '\n')).length)) '\n')
      = List.replicate m '\n' := by
  by_cases h3 : 3 ≤ 1 + (cs.length - (cs.dropWhile (fun d => d == '\n')).length)
  · exact ⟨2, by omega, by omega, by rw [if_pos h3]; rfl⟩
  · exact ⟨1 + (cs.length - (cs.dropWhile (fun d => d == '\n')).length),
      by omega, by omega, by rw [if_neg h3]⟩

/-- The head of `collapseNl` output comes from the input, except that a
leading newline run keeps its leading newline. -/
theorem collapseNl_head {y : List Char} {v : Char}
    (h : (collapseNl y).head? = some v) :
    y.head? = some v ∨ (v = '\n' ∧ y.head? = some '\n') := by
  cases y with
  | nil =>
    rw [collapseNl_nil] at h
    exact absurd h (by simp)
  | cons c cs =>
    by_cases hc : (c == '\n') = true
    · right
      have hceq : c = '\n' := by simpa using hc
      rw [collapseNl_cons, if_pos hc] at h
      obtain ⟨m, hm1, _, hmeq⟩ := nlRun_replicate cs
      rw [hmeq] at h
      cases m with
      | zero => exact absurd hm1 (by omega)
      | succ m' =>
        rw [List.replicate_succ] at h
        have h0 : ('\n' : Char) = v := by simpa using h
        exact ⟨h0.symm, by rw [hceq]; rfl⟩
    · left
      rw [collapseNl_cons, if_neg hc] at h
      exact h

theorem collapseWs_mem {c : Char} (hc : spTab c = false) :
    ∀ y : List Char, c ∈ y → c ∈ collapseWs y := by
  have main : ∀ (n : Nat) (y : List Char), y.length ≤ n → c ∈ y →
      c ∈ collapseWs y := by
    intro n
    induction n with
    | zero =>
      intro y hlen hm
      cases y with
      | nil => exact absurd hm (List.not_mem_nil c)
      | cons a as => simp at hlen
    | succ n ihn =>
      intro y hlen hm
      cases y with
      | nil => exact absurd hm (List.not_mem_nil c)
      | cons a as =>
        have hlen2 : as.length ≤ n := by
          simp only [List.length_cons] at hlen
          omega
        rw [collapseWs_cons]
        by_cases ha : spTab a = true
        · rw [if_pos ha]
          refine List.mem_cons_of_mem ' ' ?_
          have hmas : c ∈ as := by
            rcases List.mem_cons.1 hm with h1 | h1
            · exfalso
              rw [h1] at hc
              rw [hc] at ha
              exact Bool.false_ne_true ha
            · exact h1
          exact ihn (as.dropWhile spTab)
            (le_trans (List.dropWhile_sublist _).length_le hlen2)
            (mem_dropWhile_keep spTab c hc as hmas)
        · rw [if_neg ha]
          rcases List.mem_cons.1 hm with h1 | h1
          · exact List.mem_cons.2 (Or.inl h1)
          · exact List.mem_cons_of_mem a (ihn as hlen2 h1)
  intro y
  exact main y.length y (le_refl _)

theorem collapseNl_mem {c : Char} (hc : (c == '\n') = false) :
    ∀ y : List Char, c ∈ y → c ∈ collapseNl y := by
  have main : ∀ (n : Nat) (y : List Char), y.length ≤ n → c ∈ y →
      c ∈ collapseNl y := by
    intro n
    induction n with
    | zero =>
      intro y hlen hm
      cases y with
      | nil => exact absurd hm (List.not_mem_nil c)
      | cons a as => simp at hlen
    | succ n ihn =>
      intro y hlen hm
      cases y with
      | nil => exact absurd hm (List.not_mem_nil c)
      | cons a as =>
        have hlen2 : as.length ≤ n := by
          simp only [List.length_cons] at hlen
          omega
        rw [collapseNl_cons]
        by_cases ha : (a == '\n') = true
        · rw [if_pos ha]
          refine List.mem_append_right _ ?_
          have hmas : c ∈ as := by
            rcases List.mem_cons.1 hm with h1 | h1
            · exfalso
              rw [h1] at hc
              rw [hc] at ha
              exact Bool.false_ne_true ha
            · exact h1
          exact ihn (as.dropWhile _)
            (le_trans (List.dropWhile_sublist _).length_le hlen2)
            (mem_dropWhile_keep _ c hc as hmas)
        · rw [if_neg ha]
          rcases List.mem_cons.1 hm with h1 | h1
          · exact List.mem_cons.2 (Or.inl h1)
          · exact List.mem_cons_of_mem a (ihn as hlen2 h1)
  intro y
  exact main y.length y (le_refl _)

theorem collapseNl_mem_src :
    ∀ (y : List Char) (d : Char), d ∈ collapseNl y → d = '\n' ∨ d ∈ y := by
  have main : ∀ (n : Nat) (y : List Char), y.length ≤ n → ∀ d,
      d ∈ collapseNl y → d = '\n' ∨ d ∈ y := by
    intro n
    induction n with
    | zero =>
      intro y hlen d hm
      cases y with
      | nil =>
        rw [collapseNl_nil] at hm
        exact absurd hm (List.not_mem_nil d)
      | cons a as => simp at hlen
    | succ n ihn =>
      intro y hlen d hm
      cases y with
      | nil =>
        rw [collapseNl_nil] at hm
        exact absurd hm (List.not_mem_nil d)
      | cons a as =>
        have hlen2 : as.length ≤ n := by
          simp only [List.length_cons] at hlen
          omega
        rw [collapseNl_cons] at hm
        by_cases ha : (a == '\n') = true
        · rw [if_pos ha] at hm
          obtain ⟨m, _, _, hmeq⟩ := nlRun_replicate as
          rw [hmeq] at hm
          rcases List.mem_append.1 hm with h1 | h1
          · exact Or.inl (List.eq_of_mem_replicate h1)
          · rcases ihn (as.dropWhile _)
              (le_trans (List.dropWhile_sublist _).length_le hlen2) d h1
              with h2 | h2
            · exact Or.inl h2
            · exact Or.inr (List.mem_cons_of_mem a
                ((List.dropWhile_sublist _).subset h2))
        · rw [if_neg ha] at hm
          rcases List.mem_cons.1 hm with h1 | h1
          · exact Or.inr (List.mem_cons.2 (Or.inl h1))
          · rcases ihn as hlen2 d h1 with h2 | h2
            · exact Or.inl h2
            · exact Or.inr (List.mem_cons_of_mem a h2)
  intro y
  exact main y.length y (le_refl _)

theorem collapseWs_no_tab : ∀ y : List Char, '\t' ∉ collapseWs y := by
  have main : ∀ (n : Nat) (y : List Char), y.length ≤ n →
      '\t' ∉ collapseWs y := by
    intro n
    induction n with
    | zero =>
      intro y hlen
      cases y with
      | nil =>
        rw [collapseWs_nil]
        exact List.not_mem_nil _
      | cons a as => simp at hlen
    | succ n ihn =>
      intro y hlen
      cases y with
      | nil =>
        rw [collapseWs_nil]
        exact List.not_mem_nil _
      | cons a as =>
        have hlen2 : as.length ≤ n := by
          simp only [List.length_cons] at hlen
          omega
        rw [collapseWs_cons]
        by_cases ha : spTab a = true
        · rw [if_pos ha]
          intro hm
          rcases List.mem_cons.1 hm with h1 | h1
          · exact absurd h1 (by decide)
          · exact ihn (as.dropWhile spTab)
              (le_trans (List.dropWhile_sublist _).length_le hlen2) h1
        · rw [if_neg ha]
          intro hm
          rcases List.mem_cons.1 hm with h1 | h1
          · exact ha (by rw [← h1]; decide)
          · exact ihn as hlen2 h1
  intro y
  exact main y.length y (le_refl _)

theorem collapseWs_no_dblsp : ∀ y : List Char, ¬ [' ', ' '] <:+: collapseWs y := by
  have main : ∀ (n : Nat) (y : List Char), y.length ≤ n →
      ¬ [' ', ' '] <:+: collapseWs y := by
    intro n
    induction n with
    | zero =>
      intro y hlen
      cases y with
      | nil =>
        rw [collapseWs_nil]
        intro h
        rw [List.infix_nil] at h
        exact absurd h (by decide)
      | cons a as => simp at hlen
    | succ n ihn =>
      intro y hlen
      cases y with
      | nil =>
        rw [collapseWs_nil]
        intro h
        rw [List.infix_nil] at h
        exact absurd h (by decide)
      | cons a as =>
        have hlen2 : as.length ≤ n := by
          simp only [List.length_cons] at hlen
          omega
        rw [collapseWs_cons]
        by_cases ha : spTab a = true
        · rw [if_pos ha]
          intro h
          rcases (List.infix_cons_iff).1 h with h1 | h2
          · rw [List.cons_prefix_cons] at h1
            obtain ⟨_, h1⟩ := h1
            cases hrest : as.dropWhile spTab with
            | nil =>
              rw [hrest, collapseWs_nil] at h1
              simp at h1
            | cons d r =>
              have hd : spTab d = false := dropWhile_head_false spTab as d r hrest
              rw [hrest, collapseWs_cons,
                if_neg (by rw [hd]; exact Bool.false_ne_true)] at h1
              rw [List.cons_prefix_cons] at h1
              obtain ⟨h1, _⟩ := h1
              rw [← h1] at hd
              exact absurd hd (by decide)
          · exact ihn (as.dropWhile spTab)
              (le_trans (List.dropWhile_sublist _).length_le hlen2) h2
        · rw [if_neg ha]
          intro h
          rcases (List.infix_cons_iff).1 h with h1 | h2
          · rw [List.cons_prefix_cons] at h1
            obtain ⟨h1, _⟩ := h1
            exact ha (by rw [← h1]; decide)
          · exact ihn as hlen2 h2
  intro y
  exact main y.length y (le_refl _)

/-- Collapsing newline runs creates no new two-character window free of
newlines. -/
theorem collapseNl_no_pair {a b : Char} (hA : (a == '\n') = false)
    (hB : (b == '\n') = false) :
    ∀ y : List Char, ¬ [a, b] <:+: y → ¬ [a, b] <:+: collapseNl y := by
  have main : ∀ (n : Nat) (y : List Char), y.length ≤ n → ¬ [a, b] <:+: y →
      ¬ [a, b] <:+: collapseNl y := by
    intro n
    induction n with
    | zero =>
      intro y hlen _
      cases y with
      | nil =>
        rw [collapseNl_nil]
        intro h
        rw [List.infix_nil] at h
        exact absurd h (by simp)
      | cons c cs => simp at hlen
    | succ n ihn =>
      intro y hlen hno
      cases y with
      | nil =>
        rw [collapseNl_nil]
        intro h
        rw [List.infix_nil] at h
        exact absurd h (by simp)
      | cons c cs =>
        have hlen2 : cs.length ≤ n := by
          simp only [List.length_cons] at hlen
          omega
        rw [collapseNl_cons]
        by_cases hc : (c == '\n') = true
        · rw [if_pos hc]
          obtain ⟨m, _, _, hmeq⟩ := nlRun_replicate cs
          rw [hmeq]
          intro h
          rcases infix_append_cases h with h1 | h2 |
            ⟨w1, w2, hweq, hw1ne, hw2ne, hw1, hw2⟩
          · have hmem : a ∈ List.replicate m '\n' :=
              h1.sublist.subset (List.mem_cons_self a [b])
            have := List.eq_of_mem_replicate hmem
            rw [this] at hA
            exact absurd hA (by decide)
          · exact ihn (cs.dropWhile _)
              (le_trans (List.dropWhile_sublist _).length_le hlen2)
              (fun hin => hno (List.infix_cons
                (hin.trans (List.dropWhile_suffix _).isInfix))) h2
          · cases w1 with
            | nil => exact hw1ne rfl
            | cons u us =>
              have hu : u = '\n' := List.eq_of_mem_replicate
                (hw1.sublist.subset (List.mem_cons_self u us))
              have humem : u ∈ [a, b] := by
                rw [hweq]
                exact List.mem_append_left _ (List.mem_cons_self u us)
              rcases (by simpa using humem : u = a ∨ u = b) with h3 | h3
              · rw [hu] at h3
                rw [← h3] at hA
                exact absurd hA (by decide)
              · rw [hu] at h3
                rw [← h3] at hB
                exact absurd hB (by decide)
        · rw [if_neg hc]
          intro h
          rcases (List.infix_cons_iff).1 h with h1 | h2
          · rw [List.cons_prefix_cons] at h1
            obtain ⟨hac, hb1⟩ := h1
            obtain ⟨t, ht⟩ := hb1
            have hhead : (collapseNl cs).head? = some b := by
              rw [← ht]
              rfl
            rcases collapseNl_head hhead with hh | hh
            · cases hcs : cs with
              | nil =>
                rw [hcs] at hh
                exact absurd hh (by simp)
              | cons d r =>
                rw [hcs] at hh
                have hdb : d = b := by simpa using hh
                apply hno
                refine ⟨[], r, ?_⟩
                rw [hcs]
                simp [hac, hdb]
            · rw [hh.1] at hB
              exact absurd hB (by decide)
          · exact ihn cs hlen2 (fun hin => hno (List.infix_cons hin)) h2
  intro y
  exact main y.length y (le_refl _)

/-- `collapseNl` output never contains three consecutive newlines. -/
theorem collapseNl_no_triple :
    ∀ y : List Char, ¬ ['\n', '\n', '\n'] <:+: collapseNl y := by
  have main : ∀ (n : Nat) (y : List Char), y.length ≤ n →
      ¬ ['\n', '\n', '\n'] <:+: collapseNl y := by
    intro n
    induction n with
    | zero =>
      intro y hlen
      cases y with
      | nil =>
        rw [collapseNl_nil]
        intro h
        rw [List.infix_nil] at h
        exact absurd h (by simp)
      | cons c cs => simp at hlen
    | succ n ihn =>
      intro y hlen
      cases y with
      | nil =>
        rw [collapseNl_nil]
        intro h
        rw [List.infix_nil] at h
        exact absurd h (by simp)
      | cons c cs =>
        have hlen2 : cs.length ≤ n := by
          simp only [List.length_cons] at hlen
          omega
        rw [collapseNl_cons]
        by_cases hc : (c == '\n') = true
        · rw [if_pos hc]
          obtain ⟨m, _, hm2, hmeq⟩ := nlRun_replicate cs
          rw [hmeq]
          intro h
          rcases infix_append_cases h with h1 | h2 |
            ⟨w1, w2, hweq, hw1ne, hw2ne, hw1, hw2⟩
          · have hl := h1.length_le
            simp only [List.length_cons, List.length_nil,
              List.length_replicate] at hl
            omega
          · exact ihn (cs.dropWhile _)
              (le_trans (List.dropWhile_sublist _).length_le hlen2) h2
          · cases w2 with
            | nil => exact hw2ne rfl
            | cons v vs =>
              have hv : v = '\n' := by
                have hvmem : v ∈ (['\n', '\n', '\n'] : List Char) := by
                  rw [hweq]
                  exact List.mem_append_right w1 (List.mem_cons_self v vs)
                simpa using hvmem
              obtain ⟨t, ht⟩ := hw2
              have hhead : (collapseNl (cs.dropWhile
                  (fun x => x == '\n'))).head? = some v := by
                rw [← ht]
                rfl
              have hrh : (cs.dropWhile (fun x => x == '\n')).head?
                  = some '\n' := by
                rcases collapseNl_head hhead with hh | hh
                · rw [hv] at hh
                  exact hh
                · exact hh.2
              cases hrest : cs.dropWhile (fun x => x == '\n') with
              | nil =>
                rw [hrest] at hrh
                exact absurd hrh (by simp)
              | cons d r =>
                have hd := dropWhile_head_false (fun x => x == '\n') cs d r hrest
                rw [hrest] at hrh
                have hdv : d = '\n' := by simpa using hrh
                rw [hdv] at hd
                exact absurd hd (by decide)
        · rw [if_neg hc]
          intro h
          rcases (List.infix_cons_iff).1 h with h1 | h2
          · rw [List.cons_prefix_cons] at h1
            obtain ⟨h1, _⟩ := h1
            exact hc (by rw [← h1]; decide)
          · exact ihn cs hlen2 h2
  intro y
  exact main y.length y (le_refl _)

theorem normalizeChars_no_tab (x : List Char) : '\t' ∉ normalizeChars x := by
  intro h
  unfold normalizeChars at h
  have h1 : '\t' ∈ collapseNl (collapseWs x) := stripChars_sub '\t' h
  rcases collapseNl_mem_src (collapseWs x) '\t' h1 with h2 | h2
  · exact absurd h2 (by decide)
  · exact collapseWs_no_tab x h2

theorem normalizeChars_no_dblsp (x : List Char) :
    ¬ [' ', ' '] <:+: normalizeChars x := by
  intro h
  unfold normalizeChars at h
  have h1 : [' ', ' '] <:+: collapseNl (collapseWs x) :=
    h.trans (stripChars_within _)
  exact collapseNl_no_pair (by decide) (by decide) (collapseWs x)
    (collapseWs_no_dblsp x) h1

theorem normalizeChars_no_triple (x : List Char) :
    ¬ ['\n', '\n', '\n'] <:+: normalizeChars x := by
  intro h
  unfold normalizeChars at h
  exact collapseNl_no_triple (collapseWs x) (h.trans (stripChars_within _))

/-- Normalization is the identity on text that is already normal. -/
theorem normalizeChars_fix {y : List Char}
    (htab : '\t' ∉ y) (hsp : ¬ [' ', ' '] <:+: y)
    (htr : ¬ ['\n', '\n', '\n'] <:+: y)
    (hh : ∀ c, y.head? = some c → wsChar c = false)
    (hl : ∀ c, y.getLast? = some c → wsChar c = false) :
    normalizeChars y = y := by
  unfold normalizeChars
  rw [collapseWs_fix y htab hsp, collapseNl_fix y htr, stripChars_fix hh hl]

/-! ## Input validation: escaping preserves normality -/

theorem replaceAllL_ne_nil {pat rep : List Char} (hrep : rep ≠ []) :
    ∀ {s : List Char}, s ≠ [] → replaceAllL pat rep s ≠ [] := by
  intro s hs
  cases s with
  | nil => exact absurd rfl hs
  | cons c cs =>
    rw [replaceAllL_cons]
    by_cases hcond : pat ≠ [] ∧ lstarts pat (c :: cs) = true
    · rw [if_pos (by simpa using hcond)]
      intro h
      rcases List.append_eq_nil.1 h with ⟨h1, _⟩
      exact hrep h1
    · rw [if_neg (by simpa using hcond)]
      simp

theorem replaceAllL_head {pat rep : List Char} (hrep : rep ≠ [])
    (s : List Char) :
    (replaceAllL pat rep s).head? = s.head? ∨
      (replaceAllL pat rep s).head? = rep.head? := by
  cases s with
  | nil =>
    left
    rw [replaceAllL_nil]
  | cons c cs =>
    rw [replaceAllL_cons]
    by_cases hcond : pat ≠ [] ∧ lstarts pat (c :: cs) = true
    · rw [if_pos (by simpa using hcond)]
      right
      exact head_append_ne hrep
    · rw [if_neg (by simpa using hcond)]
      left
      rfl

theorem replaceAllL_last {pat rep : List Char} (hrep : rep ≠ []) :
    ∀ s : List Char, (replaceAllL pat rep s).getLast? = s.getLast? ∨
      (replaceAllL pat rep s).getLast? = rep.getLast? := by
  have main : ∀ (n : Nat) (s : List Char), s.length ≤ n →
      (replaceAllL pat rep s).getLast? = s.getLast? ∨
        (replaceAllL pat rep s).getLast? = rep.getLast? := by
    intro n
    induction n with
    | zero =>
      intro s hlen
      cases s with
      | nil =>
        left
        rw [replaceAllL_nil]
      | cons c cs => simp at hlen
    | succ n ihn =>
      intro s hlen
      cases s with
      | nil =>
        left
        rw [replaceAllL_nil]
      | cons c cs =>
        rw [replaceAllL_cons]
        by_cases hcond : pat ≠ [] ∧ lstarts pat (c :: cs) = true
        · rw [if_pos (by simpa using hcond)]
          have hsplit : (c :: cs : List Char) =
              pat ++ (c :: cs).drop pat.length := lstarts_drop_eq hcond.2
          have hlen' : ((c :: cs).drop pat.length).length ≤ n := by
            have hp1 : 1 ≤ pat.length := by
              cases pat with
              | nil => exact absurd rfl hcond.1
              | cons a as => simp
            simp only [List.length_drop, List.length_cons] at *
            omega
          by_cases hs' : (c :: cs).drop pat.length = []
          · rw [hs', replaceAllL_nil, List.append_nil]
            right
            rfl
          · have hR : replaceAllL pat rep ((c :: cs).drop pat.length) ≠ [] :=
              replaceAllL_ne_nil hrep hs'
            rw [getLast_append_ne hR]
            rcases ihn _ hlen' with h | h
            · left
              rw [h]
              conv_rhs => rw [hsplit]
              rw [getLast_append_ne hs']
            · right
              exact h
        · rw [if_neg (by simpa using hcond)]
          by_cases hcs : cs = []
          · subst hcs
            rw [replaceAllL_nil]
            left
            rfl
          · have hR : replaceAllL pat rep cs ≠ [] := replaceAllL_ne_nil hrep hcs
            have e1 : (c :: replaceAllL pat rep cs).getLast? =
                (replaceAllL pat rep cs).getLast? := by
              rw [show (c :: replaceAllL pat rep cs) =
                [c] ++ replaceAllL pat rep cs from rfl, getLast_append_ne hR]
            rw [e1]
            rcases ihn cs (by simp only [List.length_cons] at hlen; omega)
              with h | h
            · left
              rw [h, show (c :: cs : List Char) = [c] ++ cs from rfl,
                getLast_append_ne hcs]
            · right
              exact h
  intro s
  exact main s.length s (le_refl _)

theorem escapeChars_ne_nil {y : List Char} (hy : y ≠ []) :
    escapeChars y ≠ [] := by
  unfold escapeChars
  exact replaceAllL_ne_nil (by decide)
    (replaceAllL_ne_nil (by decide) (replaceAllL_ne_nil (by decide) hy))

theorem escapeChars_head {y : List Char} {c : Char}
    (h : (escapeChars y).head? = some c)
    (hy : ∀ d, y.head? = some d → wsChar d = false) : wsChar c = false := by
  unfold escapeChars at h
  rcases @replaceAllL_head patJavascript repJavascript (by decide)
    (replaceAllL patScriptClose repScriptClose
      (replaceAllL patScriptOpen repScriptOpen y)) with h3 | h3
  · rw [h3] at h
    rcases @replaceAllL_head patScriptClose repScriptClose (by decide)
      (replaceAllL patScriptOpen repScriptOpen y) with h2 | h2
    · rw [h2] at h
      rcases @replaceAllL_head patScriptOpen repScriptOpen (by decide) y
        with h1 | h1
      · rw [h1] at h
        exact hy c h
      · rw [h1, show repScriptOpen.head? = some '&' from rfl] at h
        have h' := Option.some.inj h
        rw [← h']
        decide
    · rw [h2, show repScriptClose.head? = some '&' from rfl] at h
      have h' := Option.some.inj h
      rw [← h']
      decide
  · rw [h3, show repJavascript.head? = some 'j' from rfl] at h
    have h' := Option.some.inj h
    rw [← h']
    decide

theorem escapeChars_last {y : List Char} {c : Char}
    (h : (escapeChars y).getLast? = some c)
    (hy : ∀ d, y.getLast? = some d → wsChar d = false) : wsChar c = false := by
  unfold escapeChars at h
  rcases @replaceAllL_last patJavascript repJavascript (by decide)
    (replaceAllL patScriptClose repScriptClose
      (replaceAllL patScriptOpen repScriptOpen y)) with h3 | h3
  · rw [h3] at h
    rcases @replaceAllL_last patScriptClose repScriptClose (by decide)
      (replaceAllL patScriptOpen repScriptOpen y) with h2 | h2
    · rw [h2] at h
      rcases @replaceAllL_last patScriptOpen repScriptOpen (by decide) y
        with h1 | h1
      · rw [h1] at h
        exact hy c h
      · rw [h1, show repScriptOpen.getLast? = some 't' from by decide] at h
        have h' := Option.some.inj h
        rw [← h']
        decide
    · rw [h2, show repScriptClose.getLast? = some 't' from by decide] at h
      have h' := Option.some.inj h
      rw [← h']
      decide
  · rw [h3, show repJavascript.getLast? = some ';' from by decide] at h
    have h' := Option.some.inj h
    rw [← h']
    decide

/-- Escaping preserves the absence of a blocker-free window that is also
absent from both inserted cores. -/
theorem escape_keep_no_window {w : List Char} (hbf : noBlockerL w)
    (h1 : ¬ w <:+: ('&' :: "lt".data ++ [';']))
    (h2 : ¬ w <:+: ('&' :: "#58".data ++ [';']))
    {y : List Char} (h : ¬ w <:+: y) : ¬ w <:+: escapeChars y := by
  intro hc
  rcases escape_window_transfer hbf hc with hx | hx | hx
  · exact h hx
  · exact h1 hx
  · exact h2 hx

/-! ## Input validation: the C5 theorems -/

theorem validate_unfold (maxLength : Nat) (text : String) :
    validate maxLength text =
      if text = "" ∨ stripChars text.data = [] then
        Except.error ⟨"EMPTY_INPUT"⟩
      else if maxLength < text.length then
        Except.error ⟨"INPUT_TOO_LONG"⟩
      else if checkInjectionL (normalizeWhitespace text).data then
        Except.error ⟨"PROMPT_INJECTION_DETECTED"⟩
      else if escapeSpecialChars (normalizeWhitespace text) ≠ text then
        Except.ok (escapeSpecialChars (normalizeWhitespace text),
          { originalLength := text.length, sanitized := true,
            sanitizedLength :=
              some (escapeSpecialChars (normalizeWhitespace text)).length })
      else
        Except.ok (escapeSpecialChars (normalizeWhitespace text),
          { originalLength := text.length, sanitized := false,
            sanitizedLength := none }) := rfl

theorem validate_ok_shape {maxLength : Nat} {x s : String} {md : ValidationMeta}
    (h : validate maxLength x = Except.ok (s, md)) :
    (¬ (x = "" ∨ stripChars x.data = [])) ∧ x.length ≤ maxLength ∧
      checkInjectionL (normalizeWhitespace x).data = false ∧
      s = escapeSpecialChars (normalizeWhitespace x) := by
  rw [validate_unfold] at h
  by_cases h1 : x = "" ∨ stripChars x.data = []
  · rw [if_pos h1] at h
    exact absurd h (by simp)
  · rw [if_neg h1] at h
    by_cases h2 : maxLength < x.length
    · rw [if_pos h2] at h
      exact absurd h (by simp)
    · rw [if_neg h2] at h
      by_cases h3 : checkInjectionL (normalizeWhitespace x).data = true
      · rw [if_pos h3] at h
        exact absurd h (by simp)
      · have h3' : checkInjectionL (normalizeWhitespace x).data = false := by
          cases hb : checkInjectionL (normalizeWhitespace x).data with
          | false => rfl
          | true => exact absurd hb h3
        refine ⟨h1, by omega, h3', ?_⟩
        rw [if_neg h3] at h
        by_cases h4 : escapeSpecialChars (normalizeWhitespace x) ≠ x
        · rw [if_pos h4] at h
          simp only [Except.ok.injEq, Prod.mk.injEq] at h
          exact h.1.symm
        · rw [if_neg h4] at h
          simp only [Except.ok.injEq, Prod.mk.injEq] at h
          exact h.1.symm

/-- **C5 (amended).** If `validate` succeeds on `x` with sanitized output
`s`, and `s` still fits within `max_length`, then validating `s` succeeds
and returns `s` itself, unchanged (with `sanitized = false` metadata):
normalization and escaping are idempotent and escaping never introduces a
rejected pattern.  (Without the length side condition the claim is false:
escaping can grow the text past `max_length`, see the counterexample.) -/
theorem C5_validate_idempotent (maxLength : Nat) (x s : String)
    (md : ValidationMeta) (hok : validate maxLength x = Except.ok (s, md))
    (hlen : s.length ≤ maxLength) :
    validate maxLength s = Except.ok (s,
      { originalLength := s.length, sanitized := false,
        sanitizedLength := none }) := by
  obtain ⟨hne, hxlen, hinj, hs⟩ := validate_ok_shape hok
  have hsd : s.data = escapeChars (normalizeChars x.data) := by
    rw [hs]
    rfl
  have hztab : '\t' ∉ normalizeChars x.data := normalizeChars_no_tab x.data
  have hzsp : ¬ [' ', ' '] <:+: normalizeChars x.data :=
    normalizeChars_no_dblsp x.data
  have hztr : ¬ ['\n', '\n', '\n'] <:+: normalizeChars x.data :=
    normalizeChars_no_triple x.data
  have hzh : ∀ c, (normalizeChars x.data).head? = some c → wsChar c = false :=
    fun c h => stripChars_head h
  have hzl : ∀ c, (normalizeChars x.data).getLast? = some c →
      wsChar c = false := fun c h => stripChars_last h
  have hstab : '\t' ∉ s.data := by
    rw [hsd]
    intro hm
    have hw := escape_keep_no_window
      (show noBlockerL ['\t'] from by
        intro c hc
        rw [show c = '\t' from by simpa using hc]
        decide)
      (fun hx => absurd ((containsSub_iff _ _).2 hx) (by decide))
      (fun hx => absurd ((containsSub_iff _ _).2 hx) (by decide))
      (fun hx => hztab (single_window.1 hx))
    exact hw (single_window.2 hm)
  have hssp : ¬ [' ', ' '] <:+: s.data := by
    rw [hsd]
    exact escape_keep_no_window
      (show noBlockerL [' ', ' '] from by
        intro c hc
        rw [show c = ' ' from by
          rcases List.mem_cons.1 hc with h | h
          · exact h
          · simpa using h]
        decide)
      (fun hx => absurd ((containsSub_iff _ _).2 hx) (by decide))
      (fun hx => absurd ((containsSub_iff _ _).2 hx) (by decide))
      hzsp
  have hstr : ¬ ['\n', '\n', '\n'] <:+: s.data := by
    rw [hsd]
    refine escape_keep_no_window ?_
      (fun hx => absurd ((containsSub_iff _ _).2 hx) (by decide))
      (fun hx => absurd ((containsSub_iff _ _).2 hx) (by decide))
      hztr
    intro c hc
    have : c = '\n' := by
      rcases List.mem_cons.1 hc with h | h
      · exact h
      · rcases List.mem_cons.1 h with h2 | h2
        · exact h2
        · simpa using h2
    rw [this]
    decide
  have hsh : ∀ c, s.data.head? = some c → wsChar c = false := by
    intro c h
    rw [hsd] at h
    exact escapeChars_head h hzh
  have hsl : ∀ c, s.data.getLast? = some c → wsChar c = false := by
    intro c h
    rw [hsd] at h
    exact escapeChars_last h hzl
  have hnorm : normalizeChars s.data = s.data :=
    normalizeChars_fix hstab hssp hstr hsh hsl
  have hne2 : stripChars x.data ≠ [] := fun hh => hne (Or.inr hh)
  have hxmem : ∃ c ∈ x.data, wsChar c = false := by
    cases hstrip : stripChars x.data with
    | nil => exact absurd hstrip hne2
    | cons d r =>
      have hd : wsChar d = false := stripChars_head (by rw [hstrip]; rfl)
      have hdm : d ∈ x.data := stripChars_sub d
        (by rw [hstrip]; exact List.mem_cons_self _ _)
      exact ⟨d, hdm, hd⟩
  obtain ⟨c0, hc0m, hc0⟩ := hxmem
  have hcn : (c0 == '\n') = false := by
    by_cases hcc : c0 = '\n'
    · rw [hcc] at hc0
      exact absurd hc0 (by decide)
    · simpa using hcc
  have hcsp : spTab c0 = false := by
    by_cases hc1 : c0 = ' '
    · rw [hc1] at hc0
      exact absurd hc0 (by decide)
    · by_cases hc2 : c0 = '\t'
      · rw [hc2] at hc0
        exact absurd hc0 (by decide)
      · simp only [spTab, Bool.or_eq_false_iff, beq_eq_false_iff_ne, ne_eq]
        exact ⟨hc1, hc2⟩
  have hc0z : c0 ∈ normalizeChars x.data := by
    unfold normalizeChars
    exact stripChars_keep hc0
      (collapseNl_mem hcn _ (collapseWs_mem hcsp x.data hc0m))
  have hzne : normalizeChars x.data ≠ [] := List.ne_nil_of_mem hc0z
  have hsne : s.data ≠ [] := by
    rw [hsd]
    exact escapeChars_ne_nil hzne
  have hsne' : s ≠ "" := by
    intro h
    rw [h] at hsne
    exact hsne rfl
  have hstripS : stripChars s.data ≠ [] := by
    rw [stripChars_fix hsh hsl]
    exact hsne
  have hsinj : checkInjectionL s.data = false := by
    cases hb : checkInjectionL s.data with
    | false => rfl
    | true =>
      exfalso
      rw [hsd] at hb
      have h2 := checkInjection_escape hb
      rw [show checkInjectionL (normalizeChars x.data) =
        checkInjectionL (normalizeWhitespace x).data from rfl, hinj] at h2
      exact Bool.false_ne_true h2
  have hesc : escapeChars s.data = s.data := by
    rw [hsd]
    exact escape_escape (normalizeChars x.data)
  rw [validate_unfold]
  rw [if_neg (show ¬ (s = "" ∨ stripChars s.data = []) from
    fun h => h.elim (fun ha => hsne' ha) (fun hb => hstripS hb))]
  rw [if_neg (show ¬ maxLength < s.length from by omega)]
  have hnw : normalizeWhitespace s = s := by
    show String.mk (normalizeChars s.data) = s
    rw [hnorm]
  rw [hnw]
  rw [if_neg (show ¬ checkInjectionL s.data = true from by
    rw [hsinj]
    exact Bool.false_ne_true)]
  have hescS : escapeSpecialChars s = s := by
    show String.mk (escapeChars s.data) = s
    rw [hesc]
  rw [hescS]
  rw [if_neg (show ¬ s ≠ s from fun h => h rfl)]

/-- Evaluating a successful `validate` run from its ingredients. -/
theorem validate_ok_eval (maxLength : Nat) {x e : String}
    (h0 : ¬ (x = "" ∨ stripChars x.data = []))
    (h1 : ¬ maxLength < x.length)
    (hnw : normalizeWhitespace x = x)
    (h2 : ¬ checkInjectionL x.data = true)
    (hesc : escapeSpecialChars x = e)
    (hne : e ≠ x) :
    validate maxLength x = Except.ok (e,
      { originalLength := x.length, sanitized := true,
        sanitizedLength := some e.length }) := by
  rw [validate_unfold, if_neg h0, if_neg h1, hnw, if_neg h2, hesc, if_pos hne]

/-- Normalization fixpoint at a concrete string, from decidable facts. -/
theorem normalizeWhitespace_fix_str {x : String} {ch cl : Char}
    (htab : '\t' ∉ x.data)
    (hsp : containsSub [' ', ' '] x.data = false)
    (htr : containsSub ['\n', '\n', '\n'] x.data = false)
    (hhead : x.data.head? = some ch) (hch : wsChar ch = false)
    (hlast : x.data.getLast? = some cl) (hcl : wsChar cl = false) :
    normalizeWhitespace x = x := by
  show String.mk (normalizeChars x.data) = x
  rw [normalizeChars_fix htab
    (fun h => by
      have ht := (containsSub_iff _ _).2 h
      rw [hsp] at ht
      exact Bool.false_ne_true ht)
    (fun h => by
      have ht := (containsSub_iff _ _).2 h
      rw [htr] at ht
      exact Bool.false_ne_true ht)
    (fun c hc => by
      rw [hhead] at hc
      rw [← Option.some.inj hc]
      exact hch)
    (fun c hc => by
      rw [hlast] at hc
      rw [← Option.some.inj hc]
      exact hcl)]

/-- Witness: validating `"hi <script"` escapes the script marker, and
re-validating the sanitized output returns it unchanged. -/
theorem C5_validate_idempotent_witness :
    validate 50 "hi <script" =
      Except.ok ("hi &lt;script",
        { originalLength := 10, sanitized := true,
          sanitizedLength := some 13 }) ∧
    validate 50 "hi &lt;script" =
      Except.ok ("hi &lt;script",
        { originalLength := 13, sanitized := false,
          sanitizedLength := none }) := by
  have hesc : escapeSpecialChars "hi <script" = "hi &lt;script" := by
    show String.mk (escapeChars "hi <script".data) = "hi &lt;script"
    have e1 : replaceAllL patScriptOpen repScriptOpen "hi <script".data =
        "hi &lt;script".data := by
      rw [show "hi <script".data =
        ['h', 'i', ' ', '<', 's', 'c', 'r', 'i', 'p', 't'] from by decide]
      rw [show "hi &lt;script".data =
        ['h', 'i', ' ', '&', 'l', 't', ';', 's', 'c', 'r', 'i', 'p', 't']
        from by decide]
      simp +decide [replaceAllL_cons, replaceAllL_nil,
        show patScriptOpen = ['<', 's', 'c', 'r', 'i', 'p', 't'] from by decide,
        show repScriptOpen =
          ['&', 'l', 't', ';', 's', 'c', 'r', 'i', 'p', 't'] from by decide]
    have e2 : replaceAllL patScriptClose repScriptClose
        "hi &lt;script".data = "hi &lt;script".data :=
      replaceAllL_noop _ _ _
        (fun h => absurd ((containsSub_iff _ _).2 h) (by decide))
    have e3 : replaceAllL patJavascript repJavascript
        "hi &lt;script".data = "hi &lt;script".data :=
      replaceAllL_noop _ _ _
        (fun h => absurd ((containsSub_iff _ _).2 h) (by decide))
    show String.mk (replaceAllL patJavascript repJavascript
      (replaceAllL patScriptClose repScriptClose
        (replaceAllL patScriptOpen repScriptOpen "hi <script".data))) =
      "hi &lt;script"
    rw [e1, e2, e3]
  have hfirst : validate 50 "hi <script" =
      Except.ok ("hi &lt;script",
        { originalLength := 10, sanitized := true,
          sanitizedLength := some 13 }) := by
    have h := validate_ok_eval 50 (by decide) (by decide)
      (normalizeWhitespace_fix_str (by decide) (by decide) (by decide)
        (show "hi <script".data.head? = some 'h' from by decide) (by decide)
        (show "hi <script".data.getLast? = some 't' from by decide) (by decide))
      (by decide) hesc (by decide)
    rw [h]
    rfl
  refine ⟨hfirst, ?_⟩
  exact C5_validate_idempotent 50 "hi <script" "hi &lt;script"
    { originalLength := 10, sanitized := true, sanitizedLength := some 13 }
    hfirst (by decide)

/-- **C5 (counterexample).** Pure idempotence fails at the length check:
`validate 10 "ab<script"` succeeds with sanitized text `"ab&lt;script"`
(12 characters), but validating that output under the same `max_length`
of 10 is rejected with `INPUT_TOO_LONG`. -/
theorem C5_counterexample :
    validate 10 "ab<script" =
      Except.ok ("ab&lt;script",
        { originalLength := 9, sanitized := true,
          sanitizedLength := some 12 }) ∧
    validate 10 "ab&lt;script" = Except.error ⟨"INPUT_TOO_LONG"⟩ := by
  constructor
  · have hesc : escapeSpecialChars "ab<script" = "ab&lt;script" := by
      show String.mk (escapeChars "ab<script".data) = "ab&lt;script"
      have e1 : replaceAllL patScriptOpen repScriptOpen "ab<script".data =
          "ab&lt;script".data := by
        rw [show "ab<script".data =
          ['a', 'b', '<', 's', 'c', 'r', 'i', 'p', 't'] from by decide]
        rw [show "ab&lt;script".data =
          ['a', 'b', '&', 'l', 't', ';', 's', 'c', 'r', 'i', 'p', 't']
          from by decide]
        simp +decide [replaceAllL_cons, replaceAllL_nil,
          show patScriptOpen = ['<', 's', 'c', 'r', 'i', 'p', 't'] from by decide,
          show repScriptOpen =
            ['&', 'l', 't', ';', 's', 'c', 'r', 'i', 'p', 't'] from by decide]
      have e2 : replaceAllL patScriptClose repScriptClose
          "ab&lt;script".data = "ab&lt;script".data :=
        replaceAllL_noop _ _ _
          (fun h => absurd ((containsSub_iff _ _).2 h) (by decide))
      have e3 : replaceAllL patJavascript repJavascript
          "ab&lt;script".data = "ab&lt;script".data :=
        replaceAllL_noop _ _ _
          (fun h => absurd ((containsSub_iff _ _).2 h) (by decide))
      show String.mk (replaceAllL patJavascript repJavascript
        (replaceAllL patScriptClose repScriptClose
          (replaceAllL patScriptOpen repScriptOpen "ab<script".data))) =
        "ab&lt;script"
      rw [e1, e2, e3]
    have h := validate_ok_eval 10 (by decide) (by decide)
      (normalizeWhitespace_fix_str (by decide) (by decide) (by decide)
        (show "ab<script".data.head? = some 'a' from by decide) (by decide)
        (show "ab<script".data.getLast? = some 't' from by decide) (by decide))
      (by decide) hesc (by decide)
    rw [h]
    rfl
  · rw [validate_unfold]
    rw [if_neg (by decide :
      ¬ ("ab&lt;script" = "" ∨ stripChars "ab&lt;script".data = []))]
    rw [if_pos (by decide : 10 < "ab&lt;script".length)]

end WSF
